import Mathlib

/-!
# go-config: a verification development

A shallow embedding of the configuration loader (config.go and
apply_env_overrides.go) and theorems about it.

Conventions of the embedding.

* A reflect.Value is a tree `Val`; a store through a reflect.Value is a
  functional update of that tree, returned to the caller.  Functions that
  mutate and may fail return the state they leave behind together with the
  error, so that partial mutation stays visible.
* A struct field reached through reflection is named by its position in the
  declaration order.  All fields are exported and none is embedded.
* Strings are sequences of characters; case mapping is the ASCII one.
* `time.Parse` and `time.ParseDuration` belong to the Go standard library:
  they are parameters (`TimeParsers`) of every function that calls them.
* The platform is a 64-bit one (`int` and `uint` are 64 bits wide).
-/

namespace GoConfig

/-! ## Data model -/

/-- Field descriptor of reflect: the declared name and the key/value pairs of
the struct tag. -/
structure StructField where
  Name : String
  Tag : List (String × String)
deriving DecidableEq, Repr

/-- Tag lookup `t.Tag.Lookup(key)`: the value of the first pair with that key. -/
def StructField.Lookup (t : StructField) (key : String) : Option String :=
  (t.Tag.find? (fun kv => kv.1 == key)).map (fun kv => kv.2)

/-- Tag read `t.Tag.Get(key)`: the looked-up value, the empty string when absent. -/
def StructField.Get (t : StructField) (key : String) : String :=
  (t.Lookup key).getD ""

/-- The empty descriptor `reflect.StructField{}`. -/
def noField : StructField := ⟨"", []⟩

/-- Constant `envConfigTag` of config.go. -/
def envConfigTag : String := "envconfig"

/-- Constant `envPrefixTag` of config.go. -/
def envPrefixTag : String := "envprefix"

/-- Signed integer kinds of reflect. -/
inductive IntKind where
  | Int | Int8 | Int16 | Int32 | Int64
deriving DecidableEq, Repr

/-- Unsigned integer kinds of reflect. -/
inductive UintKind where
  | Uint | Uint8 | Uint16 | Uint32 | Uint64 | Uintptr
deriving DecidableEq, Repr

/-- Width in bits of a signed kind. -/
def IntKind.bits : IntKind → Nat
  | .Int => 64 | .Int8 => 8 | .Int16 => 16 | .Int32 => 32 | .Int64 => 64

/-- Width in bits of an unsigned kind. -/
def UintKind.bits : UintKind → Nat
  | .Uint => 64 | .Uint8 => 8 | .Uint16 => 16 | .Uint32 => 32 | .Uint64 => 64 | .Uintptr => 64

/-- A timestamp (time.Time), kept as its civil reading. -/
structure GoTime where
  year : Int
  month : Nat
  day : Nat
  hour : Nat
  minute : Nat
  second : Nat
  nsec : Nat
  offset : Int
deriving DecidableEq, Repr

/-- The zero time.Time: January 1, year 1, 00:00:00 UTC. -/
def zeroTime : GoTime := ⟨1, 1, 1, 0, 0, 0, 0, 0⟩

/-- Go types the loader meets. -/
inductive Ty where
  | String
  | Bool
  | Int (k : IntKind)
  | Uint (k : UintKind)
  | Time
  | TimeDuration
  | Duration
  | Slice (e : Ty)
  | Ptr (e : Ty)
  | Struct (fs : List (StructField × Ty))

/-- Go values, each carrying enough of its type for reflection. -/
inductive Val where
  | str (s : String)
  | bool (b : Bool)
  | int (k : IntKind) (n : Int)
  | uint (k : UintKind) (n : Nat)
  | time (t : GoTime)
  | timeDuration (ns : Int)
  | duration (ns : Int)
  | nilSlice (e : Ty)
  | slice (e : Ty) (xs : List Val)
  | nilPtr (e : Ty)
  | ptrTo (v : Val)
  | struct (fs : List (StructField × Val))
  | nilMap
  | mapOf (size : Nat)

mutual
/-- The zero value of a type, `reflect.Zero`. -/
def zeroVal : Ty → Val
  | .String => .str ""
  | .Bool => .bool false
  | .Int k => .int k 0
  | .Uint k => .uint k 0
  | .Time => .time zeroTime
  | .TimeDuration => .timeDuration 0
  | .Duration => .duration 0
  | .Slice e => .nilSlice e
  | .Ptr e => .nilPtr e
  | .Struct fs => .struct (zeroFields fs)
/-- Zero values of the fields of a struct type. -/
def zeroFields : List (StructField × Ty) → List (StructField × Val)
  | [] => []
  | (f, t) :: rest => (f, zeroVal t) :: zeroFields rest
end

/-- Errors returned by the loader. -/
inductive Err where
  | ErrDstNotPointer
  | ErrNotStruct
  | ErrDstNotSlice
  | ErrPrefixRequired
  | ErrDstUnsettable
  | unsettableType (pfx : String)
  | indexRange (digits : String)
  | fieldNotFound (name : String)
  | parseFailed (value : String) (typeName : String)
  | initDefaults (inner : Err)
  | requiredFields (names : List String)
  | external (text : String)
deriving DecidableEq, Repr

/-- Text of the errors whose text the sources fix by a literal. -/
def Err.text : Err → Option String
  | .ErrDstNotPointer => some "dst should be a pointer"
  | .ErrNotStruct => some "should be a structure"
  | .ErrDstNotSlice => some "dst must be a slice"
  | .ErrPrefixRequired => some "prefix is required"
  | .ErrDstUnsettable => some "unsetable dst value"
  | .fieldNotFound name => some ("field " ++ name ++ " not found")
  | _ => none

/-- The two parsers of the Go standard library the loader calls:
`time.Parse(time.RFC3339, s)` and `time.ParseDuration(s)`; `none` is an error. -/
structure TimeParsers where
  parseTime : String → Option GoTime
  parseDuration : String → Option Int

/-! ## Character and string helpers of the Go standard library -/

/-- ASCII decimal digit, the class `\d`. -/
def isDigit (c : Char) : Bool := decide ('0' ≤ c) && decide (c ≤ '9')

/-- ASCII letter, the class `[A-Za-z]`. -/
def isLetter (c : Char) : Bool :=
  (decide ('a' ≤ c) && decide (c ≤ 'z')) || (decide ('A' ≤ c) && decide (c ≤ 'Z'))

/-- Word character, the class `\w`. -/
def isWord (c : Char) : Bool := isDigit c || isLetter c || c == '_'

/-- Lower-casing of `strings.ToLower` on ASCII text: the letters A to Z are mapped,
every other character stays.  On text with letters outside ASCII the function of
the library maps those too; such text is outside the embedding. -/
def toLowerChars (cs : List Char) : List Char := cs.map Char.toLower

/-- Value of a run of decimal digits, most significant first. -/
def digitsValue (cs : List Char) : Nat :=
  cs.foldl (fun acc c => 10 * acc + (c.toNat - '0'.toNat)) 0

/-- Unsigned base-10 parse `strconv.ParseUint(s, 10, 64)`. -/
def ParseUint (s : String) : Option Nat :=
  let cs := s.data
  if cs.isEmpty || !cs.all isDigit then none
  else if digitsValue cs < 2 ^ 64 then some (digitsValue cs) else none

/-- The digits of a signed literal after its sign: at least one digit, digits only,
and a magnitude within the signed 64-bit range. -/
def signedDigits (neg : Bool) (cs : List Char) : Option Int :=
  if cs.isEmpty || !cs.all isDigit then none
  else if neg then (if digitsValue cs ≤ 2 ^ 63 then some (- (digitsValue cs : Int)) else none)
  else (if digitsValue cs < 2 ^ 63 then some (digitsValue cs : Int) else none)

/-- Signed base-10 parse `strconv.ParseInt(s, 10, 64)`. -/
def ParseInt (s : String) : Option Int :=
  match s.data with
  | [] => none
  | c :: cs =>
    if c == '+' then signedDigits false cs
    else if c == '-' then signedDigits true cs
    else signedDigits false (c :: cs)

/-- Conversion `intN(x)` of a 64-bit value to a narrower signed kind. -/
def wrapInt (bits : Nat) (n : Int) : Int :=
  (n + 2 ^ (bits - 1)) % 2 ^ bits - 2 ^ (bits - 1)

/-- Conversion `uintN(x)` of a 64-bit value to a narrower unsigned kind. -/
def wrapUint (bits : Nat) (n : Nat) : Nat := n % 2 ^ bits

/-- Nanoseconds of a unit of the duration grammar (`unitMap` of package time). -/
def unitNanos (u : String) : Option Nat :=
  if u == "ns" then some 1
  else if u == "us" || u == "µs" || u == "μs" then some 1000
  else if u == "ms" then some 1000000
  else if u == "s" then some 1000000000
  else if u == "m" then some 60000000000
  else if u == "h" then some 3600000000000
  else none

/-- The terms `<digits><unit>` of a duration literal, summed in an unsigned 64-bit
accumulator; the fuel bounds the number of terms. -/
def durationTerms : Nat → List Char → Nat → Option Nat
  | 0, _, _ => none
  | fuel + 1, cs, acc =>
    match cs with
    | [] => some acc
    | _ :: _ =>
      let ds := cs.takeWhile isDigit
      let r := cs.dropWhile isDigit
      let us := r.takeWhile (fun c => !(isDigit c) && c != '.')
      let rest := r.dropWhile (fun c => !(isDigit c) && c != '.')
      if ds.isEmpty || us.isEmpty then none
      else match unitNanos (String.mk us) with
        | none => none
        | some unit =>
          if digitsValue ds > 2 ^ 63 / unit then none
          else if (acc + digitsValue ds * unit) % 2 ^ 64 > 2 ^ 63 then none
          else durationTerms fuel rest ((acc + digitsValue ds * unit) % 2 ^ 64)

/-- The fraction-free fragment of `time.ParseDuration`: an optional sign, then "0" or
terms `<digits><unit>`.  A literal with a decimal point is rejected here although Go
accepts it; the fragment serves the worked examples only. -/
def parseDurationWhole (s : String) : Option Int :=
  let body (neg : Bool) (cs : List Char) : Option Int :=
    if cs == ['0'] then some 0
    else if cs.isEmpty then none
    else match durationTerms (cs.length + 1) cs 0 with
      | none => none
      | some d =>
        if neg then some (- (d : Int))
        else if d > 2 ^ 63 - 1 then none else some (d : Int)
  match s.data with
  | [] => none
  | c :: cs =>
    if c == '-' then body true cs
    else if c == '+' then body false cs
    else body false (c :: cs)

/-- The fragment `YYYY-MM-DDThh:mm:ssZ` of `time.Parse(time.RFC3339, s)`, without the
check of the day against the length of the month; it serves the worked examples
only. -/
def parseTimeUTC (s : String) : Option GoTime :=
  match s.data with
  | [y1, y2, y3, y4, '-', m1, m2, '-', d1, d2, 'T', h1, h2, ':', n1, n2, ':', s1, s2, 'Z'] =>
    if [y1, y2, y3, y4, m1, m2, d1, d2, h1, h2, n1, n2, s1, s2].all isDigit then
      let month := digitsValue [m1, m2]
      let day := digitsValue [d1, d2]
      let hour := digitsValue [h1, h2]
      let minute := digitsValue [n1, n2]
      let second := digitsValue [s1, s2]
      if 1 ≤ month && month ≤ 12 && 1 ≤ day && day ≤ 31 && hour < 24 && minute < 60
          && second < 60 then
        some ⟨(digitsValue [y1, y2, y3, y4] : Int), month, day, hour, minute, second, 0, 0⟩
      else none
    else none
  | _ => none

/-- Parsers for the worked examples. -/
def sampleParsers : TimeParsers := ⟨parseTimeUTC, parseDurationWhole⟩

/-! ## Value coercion (config.go) -/

/-- Truth test `isTrue` of config.go: the literal "1", or "true" in any letter case. -/
def isTrue (value : String) : Bool :=
  value == "1" || toLowerChars value.data == "true".data

/-- Type test `indirectType(v.Type()) == timeType`: a timestamp or a pointer to one. -/
def isTimeTyped : Val → Bool
  | .time _ => true
  | .nilPtr .Time => true
  | .ptrTo (.time _) => true
  | _ => false

/-- Type test `indirectType(v.Type()) == durationType`. -/
def isTimeDurationTyped : Val → Bool
  | .timeDuration _ => true
  | .nilPtr .TimeDuration => true
  | .ptrTo (.timeDuration _) => true
  | _ => false

/-- Type test `indirectType(v.Type()) == durationCustomType`. -/
def isDurationTyped : Val → Bool
  | .duration _ => true
  | .nilPtr .Duration => true
  | .ptrTo (.duration _) => true
  | _ => false

/-- Kind test `v.Kind() == reflect.Ptr`. -/
def isPtrKind : Val → Bool
  | .nilPtr _ => true
  | .ptrTo _ => true
  | _ => false

/-- Function `setTime` of config.go. -/
def setTime (p : TimeParsers) (v : Val) (value : String) : Except Err Val :=
  match p.parseTime value with
  | none => .error (.parseFailed value "time.Time")
  | some date => if isPtrKind v then .ok (.ptrTo (.time date)) else .ok (.time date)

/-- Function `setTimeDuration` of config.go. -/
def setTimeDuration (p : TimeParsers) (v : Val) (value : String) : Except Err Val :=
  match p.parseDuration value with
  | none => .error (.parseFailed value "time.Duration")
  | some d => if isPtrKind v then .ok (.ptrTo (.timeDuration d)) else .ok (.timeDuration d)

/-- Function `setDuration` of config.go. -/
def setDuration (p : TimeParsers) (v : Val) (value : String) : Except Err Val :=
  match p.parseDuration value with
  | none => .error (.parseFailed value "Duration")
  | some d => if isPtrKind v then .ok (.ptrTo (.duration d)) else .ok (.duration d)

/-- Function `setInt` of config.go; `SetInt` stores the value converted to the field's width. -/
def setInt (k : IntKind) (value : String) : Except Err Val :=
  match ParseInt value with
  | none => .error (.parseFailed value "Int64")
  | some n => .ok (.int k (wrapInt k.bits n))

/-- Function `setUint` of config.go; `SetUint` stores the value converted to the field's width. -/
def setUint (k : UintKind) (value : String) : Except Err Val :=
  match ParseUint value with
  | none => .error (.parseFailed value "Uint64")
  | some n => .ok (.uint k (wrapUint k.bits n))

/-- Function `setBool` of config.go. -/
def setBool (value : String) : Val := .bool (isTrue value)

/-- Splitting `strings.Split(value, ",")`. -/
def splitComma (value : String) : List String :=
  (value.data.splitOn ',').map String.mk

/-- Function `setSlice` of config.go: only a `[]string` is assigned. -/
def setSlice (v : Val) (value : String) : Val :=
  match v with
  | .nilSlice .String => .slice .String ((splitComma value).map Val.str)
  | .slice .String _ => .slice .String ((splitComma value).map Val.str)
  | other => other

/-- Function `setValue` of config.go: first the switch on the type with one pointer
stripped, then the switch on the kind of the value itself. -/
def setValue (p : TimeParsers) (v : Val) (value : String) : Except Err Val :=
  if isTimeTyped v then setTime p v value
  else if isTimeDurationTyped v then setTimeDuration p v value
  else if isDurationTyped v then setDuration p v value
  else match v with
    | .str _ => .ok (.str value)
    | .nilSlice e => .ok (setSlice (.nilSlice e) value)
    | .slice e xs => .ok (setSlice (.slice e xs) value)
    | .int .Int _ => setInt .Int value
    | .int .Int32 _ => setInt .Int32 value
    | .int .Int64 _ => setInt .Int64 value
    | .uint .Uint _ => setUint .Uint value
    | .uint .Uint32 _ => setUint .Uint32 value
    | .uint .Uint64 _ => setUint .Uint64 value
    | .bool _ => .ok (setBool value)
    | other => .ok other

/-! ## Default filling -/

mutual
/-- Function `applyDefault` of config.go.  Returns the value as the walk leaves it
and the error that stopped the walk, if any. -/
def applyDefault (p : TimeParsers) (t : StructField) : Val → Val × Option Err
  | .struct fs =>
    let r := applyDefaultFields p fs
    (.struct r.1, r.2)
  | v =>
    match t.Lookup "default" with
    | none => (v, none)
    | some value =>
      match setValue p v value with
      | .ok w => (w, none)
      | .error e => (v, some e)
/-- The field loop of `applyDefault`, in declaration order, stopping at the first error. -/
def applyDefaultFields (p : TimeParsers) :
    List (StructField × Val) → List (StructField × Val) × Option Err
  | [] => ([], none)
  | (f, v) :: rest =>
    match applyDefault p f v with
    | (w, some e) => ((f, w) :: rest, some e)
    | (w, none) =>
      let r := applyDefaultFields p rest
      ((f, w) :: r.1, r.2)
end

/-- Modelled from the spec: `isEmpty`, called by applyDefaultToEmpty, is not among the
sources.  The spec's Default Filler names the empty values: empty string, zero
number, false, zero time, nil optional, empty or nil slice. -/
def isEmpty : Val → Bool
  | .str s => s == ""
  | .bool b => !b
  | .int _ n => n == 0
  | .uint _ n => n == 0
  | .time t => t == zeroTime
  | .timeDuration ns => ns == 0
  | .duration ns => ns == 0
  | .nilSlice _ => true
  | .slice _ xs => xs.isEmpty
  | .nilPtr _ => true
  | .ptrTo _ => false
  | .struct _ => false
  | .nilMap => true
  | .mapOf size => size == 0

mutual
/-- Function `applyDefaultToEmpty` of apply_env_overrides.go.  Every value of kind
Struct is walked field by field; a time.Time is of that kind, and its fields are
unexported and carry no tag, so the walk through it assigns nothing. -/
def applyDefaultToEmpty (p : TimeParsers) (t : StructField) : Val → Val × Option Err
  | .struct fs =>
    let r := applyDefaultToEmptyFields p fs
    (.struct r.1, r.2)
  | .time tm => (.time tm, none)
  | v =>
    if !isEmpty v then (v, none)
    else match t.Lookup "default" with
      | none => (v, none)
      | some value =>
        match setValue p v value with
        | .ok w => (w, none)
        | .error e => (v, some e)
/-- The field loop of `applyDefaultToEmpty`. -/
def applyDefaultToEmptyFields (p : TimeParsers) :
    List (StructField × Val) → List (StructField × Val) × Option Err
  | [] => ([], none)
  | (f, v) :: rest =>
    match applyDefaultToEmpty p f v with
    | (w, some e) => ((f, w) :: rest, some e)
    | (w, none) =>
      let r := applyDefaultToEmptyFields p rest
      ((f, w) :: r.1, r.2)
end

/-! ## Slice reconstruction (apply_env_overrides.go) -/

/-- The replacement loop of `ToCamelCase` past the first character: every match of
`_([A-Za-z])` is replaced by its letter in upper case, matches taken left to right
without overlap. -/
def camelRest : List Char → List Char
  | [] => []
  | c :: cs =>
    match cs with
    | [] => [c]
    | d :: ds =>
      if c == '_' && isLetter d then d.toUpper :: camelRest ds
      else c :: camelRest (d :: ds)

/-- Function `ToCamelCase` of apply_env_overrides.go on character sequences: the text is
lower-cased, then each match of `(^[A-Za-z])|_([A-Za-z])` is replaced by its letter
in upper case. -/
def camelChars (cs : List Char) : List Char :=
  match toLowerChars cs with
  | [] => []
  | c :: rest => if isLetter c then c.toUpper :: camelRest rest else camelRest (c :: rest)

/-- Function `ToCamelCase` of apply_env_overrides.go, on ASCII text (see
`toLowerChars`); the tokens the loader passes are runs of `\w`, hence ASCII. -/
def ToCamelCase (str : String) : String := String.mk (camelChars str.data)

/-- Removal of a literal head: the rest of `cs` after `pre`, when `cs` starts with it. -/
def stripLiteral : List Char → List Char → Option (List Char)
  | [], cs => some cs
  | _ :: _, [] => none
  | a :: as, c :: cs => if a == c then stripLiteral as cs else none

/-- Check `strings.HasPrefix(keyVal, pfx)`. -/
def HasPrefix (keyVal pfx : String) : Bool := (stripLiteral pfx.data keyVal.data).isSome

/-- One attempt of the pattern `pfx + "_(\d+)_(\w+)=(.+)"` at the head of `cs`, the
characters of `pfx` standing for themselves.  A digit run must be followed by an
underscore and a word run by the equals sign, so each greedy group takes its
longest run; the dot does not match a line feed.  The result holds the three
groups. -/
def matchHere (pfx cs : List Char) : Option (String × String × String) :=
  match stripLiteral pfx cs with
  | some ('_' :: r2) =>
    let ds := r2.takeWhile isDigit
    match ds, r2.dropWhile isDigit with
    | _ :: _, '_' :: r4 =>
      let ws := r4.takeWhile isWord
      match ws, r4.dropWhile isWord with
      | _ :: _, '=' :: r6 =>
        match r6.takeWhile (fun c => c != '\n') with
        | [] => none
        | v :: vs => some (String.mk ds, String.mk ws, String.mk (v :: vs))
      | _, _ => none
    | _, _ => none
  | _ => none

/-- Leftmost search of the pattern in `cs`, as `regexp.FindStringSubmatch` does for an
unanchored expression. -/
def findSubmatch (pfx : List Char) : List Char → Option (String × String × String)
  | [] => none
  | c :: cs =>
    match matchHere pfx (c :: cs) with
    | some m => some m
    | none => findSubmatch pfx cs

/-- Call `parseKeyVal.FindStringSubmatch(keyVal)` for the expression compiled from
`pfx + "_(\d+)_(\w+)=(.+)"`.  Faithful for a prefix free of regular-expression
metacharacters (`regexLiteral`). -/
def FindStringSubmatch (pfx keyVal : String) : Option (String × String × String) :=
  findSubmatch pfx.data keyVal.data

/-- A prefix whose characters all stand for themselves in a regular expression. -/
def regexLiteral (pfx : String) : Bool := pfx.data.all isWord

/-- Function `fieldByEnvconfig` of apply_env_overrides.go: the position of the first field
whose envconfig tag equals the key. -/
def fieldByEnvconfig (fs : List (StructField × Val)) (key : String) : Option Nat :=
  fs.findIdx? (fun fv => key == fv.1.Get envConfigTag)

/-- Method `v.FieldByName(name)` of reflect: the position of the field of that name. -/
def FieldByName (fs : List (StructField × Val)) (name : String) : Option Nat :=
  fs.findIdx? (fun fv => fv.1.Name == name)

/-- The index mapping `mapConfigs`: index and element, one pair per index. -/
abbrev ElemMap := List (Nat × Val)

/-- Map read `mapConfigs[i]`. -/
def ElemMap.get (m : ElemMap) (i : Nat) : Option Val :=
  (m.find? (fun kv => kv.1 == i)).map (fun kv => kv.2)

/-- Map write `mapConfigs[i] = v`; a store through the reflect.Value held at `i` is
the same write. -/
def ElemMap.put : ElemMap → Nat → Val → ElemMap
  | [], i, v => [(i, v)]
  | (j, w) :: rest, i, v => if j == i then (j, v) :: rest else (j, w) :: ElemMap.put rest i v

/-- What the environment loop of applyEnvOverridesToSlice leaves behind: the
mapping, and the error that stopped the loop if any. -/
inductive Loop where
  | next (m : ElemMap)
  | fail (e : Err) (m : ElemMap)
  | panic

/-- What the seeding loop leaves behind: the elements of the destination, which it
updates in place. -/
inductive Seeded where
  | ok (elems : List Val)
  | fail (e : Err) (elems : List Val)
  | panic

/-- Lines 63-73: every existing element goes through `applyDefaultToEmpty` and into
the mapping at its position.  An element that is a pointer is outside the
embedding (reflect.Append refuses the dereferenced value): panic. -/
def seedLoop (p : TimeParsers) : List Val → Seeded
  | [] => .ok []
  | x :: rest =>
    if isPtrKind x then .panic
    else match applyDefaultToEmpty p noField x with
      | (w, some e) => .fail e (w :: rest)
      | (w, none) =>
        match seedLoop p rest with
        | .ok ws => .ok (w :: ws)
        | .fail e ws => .fail e (w :: ws)
        | .panic => .panic

/-- The fields of a value of kind Struct; a time.Time shows no field that a tag or a
derived name can select.  Another kind has no fields and `NumField` panics. -/
def structFields : Val → Option (List (StructField × Val))
  | .struct fs => some fs
  | .time _ => some []
  | _ => none

/-- Lines 92-101: the element of the mapping at index `i`, created from the zero
value of the element type with `applyDefaultToEmpty` when the mapping has none. -/
def elementAt (p : TimeParsers) (sliceOf : Ty) (m : ElemMap) (i : Nat) :
    Except Err (ElemMap × Val) :=
  match m.get i with
  | some v => .ok (m, v)
  | none =>
    match applyDefaultToEmpty p noField (zeroVal sliceOf) with
    | (_, some e) => .error e
    | (w, none) => .ok (m.put i w, w)

/-- Lines 103-110: the position of the target field, by envconfig tag first and by
derived name otherwise. -/
def targetField (fs : List (StructField × Val)) (envKey name : String) : Option Nat :=
  match fieldByEnvconfig fs envKey with
  | some j => some j
  | none => FieldByName fs name

/-- Lines 76-80 of the loop body: the three groups of the key pattern, for an entry
that starts with the prefix and that the pattern matches. -/
def matchEntry (pfx keyVal : String) : Option (String × String × String) :=
  if HasPrefix keyVal pfx then FindStringSubmatch pfx keyVal else none

/-- Lines 82-114 of the loop body: the index is parsed, the element looked up or
created, the field resolved and the value coerced into it. -/
def applyKey (p : TimeParsers) (sliceOf : Ty) (m : ElemMap)
    (key : String × String × String) : Loop :=
  if 2 ^ 63 ≤ digitsValue key.1.data then .fail (.indexRange key.1) m
  else
    let i := digitsValue key.1.data
    let envKey := key.2.1
    let name := ToCamelCase key.2.1
    match elementAt p sliceOf m i with
    | .error e => .fail e m
    | .ok (m1, v) =>
      match structFields v with
      | none => .panic
      | some fs =>
        match targetField fs envKey name with
        | none => .fail (.fieldNotFound name) m1
        | some j =>
          match fs.get? j with
          | none => .panic
          | some fv =>
            match setValue p fv.2 key.2.2 with
            | .error e => .fail e m1
            | .ok w => .next (m1.put i (.struct (fs.set j (fv.1, w))))

/-- Lines 76-115: the body of the environment loop for one entry. -/
def applyEntry (p : TimeParsers) (pfx : String) (sliceOf : Ty) (m : ElemMap)
    (keyVal : String) : Loop :=
  match matchEntry pfx keyVal with
  | none => .next m
  | some key => applyKey p sliceOf m key

/-- Lines 75-116: the loop over the environment snapshot. -/
def envLoop (p : TimeParsers) (pfx : String) (sliceOf : Ty) : List String → ElemMap → Loop
  | [], m => .next m
  | keyVal :: rest, m =>
    match applyEntry p pfx sliceOf m keyVal with
    | .next m1 => envLoop p pfx sliceOf rest m1
    | other => other

/-- Lines 122-125: `values[i] = item` for every pair of the mapping; `none` is the
run-time panic of an index outside `values`. -/
def placeValues : ElemMap → List (Option Val) → Option (List (Option Val))
  | [], values => some values
  | (i, item) :: rest, values =>
    if i < values.length then placeValues rest (values.set i (some item)) else none

/-- The values handed to reflect.Append, which panics on a slot left at the zero
reflect.Value (`none`). -/
def allValues : List (Option Val) → Option (List Val)
  | [] => some []
  | none :: _ => none
  | some v :: rest =>
    match allValues rest with
    | none => none
    | some vs => some (v :: vs)

/-- Lines 122-129: the slice built from the mapping's values. -/
def assemble (m : ElemMap) : Option (List Val) :=
  match placeValues m (List.replicate m.length none) with
  | none => none
  | some values => allValues values

/-- The argument `dst interface{}`: a reflect.Value (as applyEnvValue passes a field,
`canSet` telling whether it is settable), or anything else, nil included. -/
inductive Dst where
  | iface (v : Option Val)
  | rvalue (canSet : Bool) (v : Val)

/-- What a call leaves behind: the destination and the error returned, or a panic. -/
inductive Outcome where
  | done (dst : Dst)
  | fail (e : Err) (dst : Dst)
  | panic

/-- Function `indirectWalk` of config.go: through pointers down to the last value of
the chain, a nil pointer ending the walk. -/
def indirectWalk : Val → Val
  | .ptrTo v => indirectWalk v
  | v => v

/-- A store `riv.Set(w)` into the value `indirectWalk` reached, seen from the value
the walk started at. -/
def setWalked (w : Val) : Val → Val
  | .ptrTo v => .ptrTo (setWalked w v)
  | _ => w

/-- Lines 43-47 and 59: the element type when `indirectType(riv.Type())` is of kind
Slice. -/
def sliceElem : Val → Option Ty
  | .nilSlice e => some e
  | .slice e _ => some e
  | .nilPtr (.Slice e) => some e
  | _ => none

/-- Lines 33-40: the reflect.Value to work on and whether it is settable; `none` when
the argument is neither a reflect.Value nor a pointer. -/
def dstValue : Dst → Option (Bool × Val)
  | .rvalue canSet v => some (canSet, v)
  | .iface (some (.ptrTo v)) => some (false, .ptrTo v)
  | .iface (some (.nilPtr e)) => some (false, .nilPtr e)
  | .iface _ => none

/-- The destination with its reflect.Value replaced. -/
def Dst.withValue : Dst → Val → Dst
  | .rvalue canSet _, w => .rvalue canSet w
  | .iface _, w => .iface (some w)

/-- Whether `indirectWalk` went through a pointer: the value it reached is then
addressable, hence settable. -/
def isPtrTo : Val → Bool
  | .ptrTo _ => true
  | _ => false

/-- Check `rv.IsZero()` on a pointer or a slice. -/
def isZeroValue : Val → Bool
  | .nilPtr _ => true
  | .nilSlice _ => true
  | _ => false

/-- The existing elements as the mapping holds them: positions below `l`. -/
def existingElems (l : Nat) (m : ElemMap) : List Val :=
  (List.range l).filterMap m.get

/-- The destination after in-place updates of its `l` existing elements. -/
def Dst.inPlace (dst : Dst) (rv : Val) (sliceOf : Ty) (l : Nat) (elems : List Val) : Dst :=
  if l = 0 then dst else dst.withValue (setWalked (.slice sliceOf elems) rv)

/-- Function `setPtrValue` of apply_env_overrides.go, as a store into `target`: a
pointer receives the pointer to the new slice, a slice the new slice. -/
def setPtrValue (target : Val) (sliceOf : Ty) (values : List Val) : Option Val :=
  match target with
  | .nilPtr (.Slice _) => some (.ptrTo (.slice sliceOf values))
  | .ptrTo (.slice _ _) => some (.ptrTo (.slice sliceOf values))
  | .ptrTo (.nilSlice _) => some (.ptrTo (.slice sliceOf values))
  | .slice _ _ => some (.slice sliceOf values)
  | .nilSlice _ => some (.slice sliceOf values)
  | _ => none

/-- Lines 29-51 and 59: the checks on the arguments, in the order of the source.  On
success: whether `rv` is settable, `rv` itself, and the element type `sliceOf`. -/
def checkDst (pfx : String) (dst : Dst) : Except Err (Bool × Val × Ty) :=
  if pfx == "" then .error .ErrPrefixRequired
  else match dstValue dst with
    | none => .error .ErrDstNotPointer
    | some (canSet, rv) =>
      match sliceElem (indirectWalk rv) with
      | none => .error .ErrDstNotSlice
      | some sliceOf =>
        if !canSet && !(canSet || isPtrTo rv) then .error (.unsettableType pfx)
        else .ok (canSet, rv, sliceOf)

/-- Lines 53 and 63-64: the elements to seed the mapping with; `none` is the panic of
`Len` on a nil pointer reached through a pointer. -/
def existingOf (rv : Val) : Option (List Val) :=
  if isZeroValue rv then some []
  else match indirectWalk rv with
    | .slice _ xs => some xs
    | .nilSlice _ => some []
    | _ => none

/-- Lines 118-141: nothing is assigned for an empty mapping; otherwise the values are
assembled and stored through `rv` when it is settable, else through the walked
value when that one is settable. -/
def finish (dst : Dst) (canSet : Bool) (rv : Val) (sliceOf : Ty) (m : ElemMap) : Outcome :=
  if m.length = 0 then .done dst
  else match assemble m with
    | none => .panic
    | some values =>
      if canSet then
        match setPtrValue rv sliceOf values with
        | none => .panic
        | some w => .done (dst.withValue w)
      else if isPtrTo rv then
        match setPtrValue (indirectWalk rv) sliceOf values with
        | none => .panic
        | some w => .done (dst.withValue (setWalked w rv))
      else .fail .ErrDstUnsettable dst

/-- Function `applyEnvOverridesToSlice` of apply_env_overrides.go; `envs` is the snapshot
returned by `environ()`.  The key pattern is compiled from the prefix (lines 54-57);
for a prefix free of metacharacters (`regexLiteral`) the compilation returns no
error and the expression is the one `FindStringSubmatch` embeds.  Any other prefix
is outside the embedding. -/
def applyEnvOverridesToSlice (p : TimeParsers) (envs : List String) (pfx : String)
    (dst : Dst) : Outcome :=
  match checkDst pfx dst with
  | .error e => .fail e dst
  | .ok (canSet, rv, sliceOf) =>
    match existingOf rv with
    | none => .panic
    | some xs =>
      match seedLoop p xs with
      | .panic => .panic
      | .fail e elems => .fail e (dst.inPlace rv sliceOf xs.length elems)
      | .ok elems =>
        match envLoop p pfx sliceOf envs elems.enum with
        | .panic => .panic
        | .fail e m => .fail e (dst.inPlace rv sliceOf xs.length (existingElems xs.length m))
        | .next m => finish dst canSet rv sliceOf m

/-! ## Worked inputs -/

/-- Field `Addr` of the type Payload of configuration_test.go. -/
def addrField : StructField := ⟨"Addr", [("envconfig", "ADDR"), ("default", "0.0.0.0")]⟩

/-- Field `AddrRenamed` of Payload. -/
def addrRenamedField : StructField := ⟨"AddrRenamed", [("envconfig", "HOST")]⟩

/-- Field `Timeout` of Payload. -/
def timeoutField : StructField := ⟨"Timeout", [("envconfig", "TIMEOUT")]⟩

/-- Type `Payload` of configuration_test.go. -/
def payloadTy : Ty :=
  .Struct [(addrField, .String), (addrRenamedField, .String), (timeoutField, .TimeDuration)]

/-- A value of type Payload. -/
def payload (addr renamed : String) (timeout : Int) : Val :=
  .struct [(addrField, .str addr), (addrRenamedField, .str renamed),
    (timeoutField, .timeDuration timeout)]

/-- Field `Created`, a timestamp with a default. -/
def createdField : StructField := ⟨"Created", [("default", "2019-07-07T20:00:00Z")]⟩

/-- Field `Name` with an envconfig tag only. -/
def nameField : StructField := ⟨"Name", [("envconfig", "NAME")]⟩

/-- An element type with a default-annotated timestamp:
`struct { Name string; Created time.Time }`. -/
def eventTy : Ty := .Struct [(nameField, .String), (createdField, .Time)]

/-- A value of the event type. -/
def event (name : String) (created : GoTime) : Val :=
  .struct [(nameField, .str name), (createdField, .time created)]

/-- The instant 2019-07-07T20:00:00Z. -/
def july2019 : GoTime := ⟨2019, 7, 7, 20, 0, 0, 0, 0⟩

/-- One minute, in nanoseconds. -/
def minute : Int := 60000000000

/-! ## Notions used to state the properties -/

/-- Elements held by a slice value or behind a pointer to one. -/
def Val.elems : Val → List Val
  | .slice _ xs => xs
  | .ptrTo v => Val.elems v
  | _ => []

/-- Elements held by a destination. -/
def Dst.elems : Dst → List Val
  | .rvalue _ v => v.elems
  | .iface (some v) => v.elems
  | .iface none => []

/-- Kind test `v.Kind() == reflect.Slice`. -/
def isSliceKind : Val → Bool
  | .nilSlice _ => true
  | .slice _ _ => true
  | _ => false

/-- The pointer-to-slice field that holds what a direct slice field holds: nil for
nil, a pointer to the same slice otherwise. -/
def asPointerField : Val → Val
  | .nilSlice e => .nilPtr (.Slice e)
  | v => .ptrTo v

/-- Two calls end alike: both return, both fail with the same error, or both panic,
and the destinations hold the same elements. -/
def Outcome.sameElements : Outcome → Outcome → Prop
  | .done a, .done b => a.elems = b.elems
  | .fail e a, .fail f b => e = f ∧ a.elems = b.elems
  | .panic, .panic => True
  | _, _ => False

/-- The value a returning call leaves in the destination. -/
def Outcome.value : Outcome → Option Val
  | .done (.rvalue _ v) => some v
  | .done (.iface v) => v
  | _ => none

/-- Position `j` holds the first field, in declaration order, with property `P`. -/
def firstField (fs : List (StructField × Val)) (P : StructField → Prop) (j : Nat) : Prop :=
  ∃ h : j < fs.length, P (fs.get ⟨j, h⟩).1 ∧ ∀ k (hk : k < j), ¬ P (fs.get ⟨k, Nat.lt_trans hk h⟩).1

/-- Resolution of a token as the claim words it: the first field whose envconfig
annotation equals the token; only if no field declares it, the field whose name
is the camel-cased token. -/
def resolvesTo (fs : List (StructField × Val)) (token : String) (j : Nat) : Prop :=
  firstField fs (fun f => f.Get envConfigTag = token) j
  ∨ ((∀ fv ∈ fs, fv.1.Get envConfigTag ≠ token)
      ∧ firstField fs (fun f => f.Name = ToCamelCase token) j)

/-- An element type in which a token names one field by annotation and another by
derived name: `struct { Host string "envconfig:ADDR"; Addr string }`. -/
def crossedFields (host addr : String) : List (StructField × Val) :=
  [(⟨"Host", [("envconfig", "ADDR")]⟩, .str host), (⟨"Addr", []⟩, .str addr)]

/-- The leaf types the claim names: string, int, bool, []string, time.Time, *time.Time,
Duration, *Duration. -/
def listedLeaf : Val → Bool
  | .str _ => true
  | .int .Int _ => true
  | .bool _ => true
  | .nilSlice .String => true
  | .slice .String _ => true
  | .time _ => true
  | .nilPtr .Time => true
  | .ptrTo (.time _) => true
  | .duration _ => true
  | .nilPtr .Duration => true
  | .ptrTo (.duration _) => true
  | _ => false

/-- Coercion of a literal into a leaf of a listed type as section 4.1 of the spec words
it: a string as it is; an integer parsed in base 10, signed 64-bit; a boolean true
iff the literal is "1" or "true" in any letter case; a list split on ","; a
timestamp by the RFC3339 parser; a duration by the duration grammar; an optional
target allocated and wrapped.  `none` is a coercion failure. -/
def coerceSpec (p : TimeParsers) (v : Val) (s : String) : Option Val :=
  match v with
  | .str _ => some (.str s)
  | .int .Int _ => (ParseInt s).map (fun n => .int .Int n)
  | .bool _ => some (.bool (s == "1" || toLowerChars s.data == "true".data))
  | .nilSlice .String => some (.slice .String ((s.data.splitOn ',').map (fun cs => .str (String.mk cs))))
  | .slice .String _ => some (.slice .String ((s.data.splitOn ',').map (fun cs => .str (String.mk cs))))
  | .time _ => (p.parseTime s).map (fun t => .time t)
  | .nilPtr .Time => (p.parseTime s).map (fun t => .ptrTo (.time t))
  | .ptrTo (.time _) => (p.parseTime s).map (fun t => .ptrTo (.time t))
  | .duration _ => (p.parseDuration s).map (fun d => .duration d)
  | .nilPtr .Duration => (p.parseDuration s).map (fun d => .ptrTo (.duration d))
  | .ptrTo (.duration _) => (p.parseDuration s).map (fun d => .ptrTo (.duration d))
  | _ => none

mutual
/-- The structure after default filling as the claim words it: every leaf with a
default annotation holds the coercion of its literal, every other leaf is
unchanged, nested structures are filled leaf by leaf. -/
def defaultsSpec (p : TimeParsers) (t : StructField) : Val → Val
  | .struct fs => .struct (defaultsSpecFields p fs)
  | v =>
    match t.Lookup "default" with
    | none => v
    | some value => (coerceSpec p v value).getD v
/-- The fields of a structure after default filling. -/
def defaultsSpecFields (p : TimeParsers) : List (StructField × Val) → List (StructField × Val)
  | [] => []
  | (f, v) :: rest => (f, defaultsSpec p f v) :: defaultsSpecFields p rest
end

mutual
/-- The premise of the claim: every leaf with a default annotation is of a listed type
and its literal is valid for that type. -/
def validDefaults (p : TimeParsers) (t : StructField) : Val → Bool
  | .struct fs => validDefaultsFields p fs
  | v =>
    match t.Lookup "default" with
    | none => true
    | some value => listedLeaf v && (coerceSpec p v value).isSome
/-- The premise of the claim on the fields of a structure. -/
def validDefaultsFields (p : TimeParsers) : List (StructField × Val) → Bool
  | [] => true
  | (f, v) :: rest => validDefaults p f v && validDefaultsFields p rest
end

/-- A matching key: the digits of the index, the field token and the value. -/
abbrev Key := String × String × String

/-- Index a key mentions. -/
def keyIndex (k : Key) : Nat := digitsValue k.1.data

/-- The matching keys of a snapshot, in snapshot order. -/
def keysOf (pfx : String) (envs : List String) : List Key :=
  envs.filterMap (matchEntry pfx)

/-- The environment loop over the matching keys alone. -/
def keysLoop (p : TimeParsers) (sliceOf : Ty) : List Key → ElemMap → Loop
  | [], m => .next m
  | k :: rest, m =>
    match applyKey p sliceOf m k with
    | .next m1 => keysLoop p sliceOf rest m1
    | other => other

/-- Position of the field a token resolves to, read off the descriptors: by envconfig
annotation first, by derived name otherwise. -/
def targetOf (ds : List StructField) (token : String) : Option Nat :=
  match ds.findIdx? (fun f => token == f.Get envConfigTag) with
  | some j => some j
  | none => ds.findIdx? (fun f => f.Name == ToCamelCase token)

/-- The value of the last key, in snapshot order, that names field `j` of element `i`. -/
def lastLiteral (ds : List StructField) (ks : List Key) (i j : Nat) : Option String :=
  (ks.reverse.find? (fun k => keyIndex k == i && targetOf ds k.2.1 == some j)).map
    (fun k => k.2.2)

/-- Field by field, `fs` is `fs0` after the keys `ks` for element `i`: a field no key
names is unchanged, a field some key names holds what the last such key's value
coerces to. -/
def Tracks (p : TimeParsers) (ks : List Key) (i : Nat) (fs0 fs : List (StructField × Val)) :
    Prop :=
  ∀ j f v0, fs0.get? j = some (f, v0) → ∃ v, fs.get? j = some (f, v) ∧
    match lastLiteral (fs0.map Prod.fst) ks i j with
    | none => v = v0
    | some lit => setValue p v0 lit = .ok v

/-- The element the loop starts from at index `i`: the seeded one, or the zero element
with its defaults. -/
def initialElem (m0 : ElemMap) (base : List (StructField × Val)) (i : Nat) : Val :=
  (m0.get i).getD (.struct base)

/-- A key that the loop can apply: its index fits, its token names a field of the
element it addresses, and its value coerces into that field. -/
def KeyOk (p : TimeParsers) (m0 : ElemMap) (base : List (StructField × Val)) (k : Key) : Prop :=
  keyIndex k < 2 ^ 63 ∧
  ∃ fs0 j f v0 w, initialElem m0 base (keyIndex k) = .struct fs0
    ∧ targetOf (fs0.map Prod.fst) k.2.1 = some j
    ∧ fs0.get? j = some (f, v0)
    ∧ setValue p v0 k.2.2 = .ok w

/-- The mapping `m` is the seeded mapping `m0` after the keys `ks`: one entry per
index seeded or mentioned, each tracking its initial element. -/
def Reached (p : TimeParsers) (m0 : ElemMap) (base : List (StructField × Val)) (ks : List Key)
    (m : ElemMap) : Prop :=
  (m.map Prod.fst).Nodup
  ∧ (∀ i, i ∈ m.map Prod.fst ↔ (i ∈ m0.map Prod.fst ∨ ∃ k ∈ ks, keyIndex k = i))
  ∧ (∀ i e, m.get i = some e → ∃ fs0 fs, initialElem m0 base i = .struct fs0 ∧ e = .struct fs
      ∧ fs.map Prod.fst = fs0.map Prod.fst ∧ Tracks p ks i fs0 fs)

/-! ## Validation (config.go) -/

/-- Days from 1970-01-01 to a civil date of the proleptic Gregorian calendar. -/
def daysFromCivil (year : Int) (month day : Nat) : Int :=
  let y : Int := if month ≤ 2 then year - 1 else year
  let era : Int := y / 400
  let yoe : Int := y - era * 400
  let mp : Int := ((month + 9) % 12 : Nat)
  let doy : Int := (153 * mp + 2) / 5 + (day : Int) - 1
  let doe : Int := yoe * 365 + yoe / 4 - yoe / 100 + doy
  era * 146097 + doe - 719468

/-- The instant of a timestamp, in seconds since 1970-01-01T00:00:00Z. -/
def GoTime.unix (t : GoTime) : Int :=
  daysFromCivil t.year t.month t.day * 86400 + (t.hour : Int) * 3600 + (t.minute : Int) * 60
    + (t.second : Int) - t.offset

/-- Method `IsZero` of time.Time: the instant is January 1, year 1, 00:00:00 UTC. -/
def GoTime.IsZero (t : GoTime) : Bool := t.unix == zeroTime.unix && t.nsec == 0

/-- Method `Equal` of time.Time: the same instant, whatever the location. -/
def GoTime.Equal (t u : GoTime) : Bool := t.unix == u.unix && t.nsec == u.nsec

/-- Variable `unixEpochTime` of config.go, `time.Unix(0, 0)`. -/
def unixEpochTime : GoTime := ⟨1970, 1, 1, 0, 0, 0, 0, 0⟩

/-- Function `isZeroTime` of config.go. -/
def isZeroTime (date : GoTime) : Bool := date.IsZero || date.Equal unixEpochTime

mutual
/-- Comparison `reflect.DeepEqual(v.Interface(), zero.Interface())` with the zero value
of the type of `v`. -/
def deepZero : Val → Bool
  | .str s => s == ""
  | .bool b => !b
  | .int _ n => n == 0
  | .uint _ n => n == 0
  | .time t => t == zeroTime
  | .timeDuration ns => ns == 0
  | .duration ns => ns == 0
  | .nilSlice _ => true
  | .slice _ _ => false
  | .nilPtr _ => true
  | .ptrTo _ => false
  | .struct fs => deepZeroFields fs
  | .nilMap => true
  | .mapOf _ => false
/-- Field by field comparison of a struct with its zero value. -/
def deepZeroFields : List (StructField × Val) → Bool
  | [] => true
  | (_, v) :: rest => deepZero v && deepZeroFields rest
end

/-- Function `isZero` of config.go: the switch on the type, the switch on the kind,
and `reflect.DeepEqual` with the zero value for the kinds left (struct and map). -/
def isZero : Val → Bool
  | .time t => isZeroTime t
  | .timeDuration ns => ns == 0
  | .duration ns => ns == 0
  | .bool b => !b
  | .int _ n => n == 0
  | .uint _ n => n == 0
  | .nilPtr _ => true
  | .ptrTo _ => false
  | .nilSlice _ => true
  | .slice _ _ => false
  | .str s => s.length == 0
  | v => deepZero v

mutual
/-- Function `validateField` of config.go: the names of the required fields left at
zero, a struct other than time.Time being walked field by field. -/
def validateField (t : StructField) : Val → List String
  | .struct fs => validateFields fs
  | v =>
    match t.Lookup "required" with
    | none => []
    | some value =>
      if !isTrue value then []
      else if isZero v then [t.Name] else []
/-- The field loop of `validateField` and of `validate`, appending in declaration order. -/
def validateFields : List (StructField × Val) → List String
  | [] => []
  | (f, v) :: rest => validateField f v ++ validateFields rest
end

/-- Function `validate` of config.go, called on a value of kind Struct; the fields of
a time.Time carry no tag. -/
def validate (v : Val) : Option Err :=
  let invalidFields := match v with
    | .struct fs => validateFields fs
    | _ => []
  if invalidFields.length > 0 then some (.requiredFields invalidFields) else none

/-- Text of the error of `validate`: the names as `%v` prints a slice of strings. -/
def requiredText (names : List String) : String :=
  "required fields: [" ++ " ".intercalate names ++
    "] are not filled up. Please check configuration"

/-! ## The environment pass and the entry point (config.go) -/

/-- The process environment as the loader reads it: `environ()` returns the snapshot
of NAME=VALUE entries and `lookupEnv(key)` the value of one variable.  Neither
function is among the sources, so both are taken as given. -/
structure Environment where
  environ : List String
  lookupEnv : String → Option String

/-- Modelled from the spec: the environment-variable table holding the given
variables, exposed as the snapshot of NAME=VALUE entries and through key-value
lookup. -/
def envOf (vars : List (String × String)) : Environment where
  environ := vars.map (fun kv => kv.1 ++ "=" ++ kv.2)
  lookupEnv := fun key => (vars.find? (fun kv => kv.1 == key)).map (fun kv => kv.2)

/-- The JSON collaborator: opening the named file and decoding it into the
configuration, which it may leave partly written when it fails. -/
abbrev JSONLoader := String → Val → Val × Option Err

/-- Type test `indirectType(v.Type()).Kind() == reflect.Slice`: a slice or a pointer
to one. -/
def isSliceTyped : Val → Bool
  | .nilSlice _ => true
  | .slice _ _ => true
  | .nilPtr (.Slice _) => true
  | .ptrTo (.nilSlice _) => true
  | .ptrTo (.slice _ _) => true
  | _ => false

/-- What a call of `applyEnvOverridesToSlice` on a field leaves: the field and the
error returned, `none` for a panic.  The call is made on a reflect.Value, so the
destination it leaves is one too. -/
def Outcome.onField (v : Val) : Outcome → Option (Val × Option Err)
  | .done (.rvalue _ w) => some (w, none)
  | .done (.iface _) => some (v, none)
  | .fail e (.rvalue _ w) => some (w, some e)
  | .fail e (.iface _) => some (v, some e)
  | .panic => none

/-- Lines 184-195 of config.go, the end of `applyEnvValue`: the variable named by the
envconfig tag, when set, is coerced into the field. -/
def applyEnvLeaf (p : TimeParsers) (env : Environment) (t : StructField) (v : Val) :
    Val × Option Err :=
  match t.Lookup envConfigTag with
  | none => (v, none)
  | some key =>
    match env.lookupEnv key with
    | none => (v, none)
    | some value =>
      match setValue p v value with
      | .ok w => (w, none)
      | .error e => (v, some e)

mutual
/-- Function `applyEnvValue` of config.go; `none` is a panic of the slice
reconstruction.  A struct is never slice-typed, so the first test of the source
fails on it.  The fields reached are settable. -/
def applyEnvValue (p : TimeParsers) (env : Environment) (t : StructField) :
    Val → Option (Val × Option Err)
  | .struct fs =>
    match applyEnvFields p env fs with
    | none => none
    | some r => some (.struct r.1, r.2)
  | v =>
    match t.Lookup envPrefixTag with
    | none => some (applyEnvLeaf p env t v)
    | some pfx =>
      if isSliceTyped v then
        (applyEnvOverridesToSlice p env.environ pfx (.rvalue true v)).onField v
      else some (applyEnvLeaf p env t v)
/-- The field loop of `applyEnvValue` and of `applyEnv`, in declaration order,
stopping at the first error. -/
def applyEnvFields (p : TimeParsers) (env : Environment) :
    List (StructField × Val) → Option (List (StructField × Val) × Option Err)
  | [] => some ([], none)
  | (f, v) :: rest =>
    match applyEnvValue p env f v with
    | none => none
    | some (w, some e) => some ((f, w) :: rest, some e)
    | some (w, none) =>
      match applyEnvFields p env rest with
      | none => none
      | some r => some ((f, w) :: r.1, r.2)
end

/-- Function `applyEnv` of config.go, called on a value of kind Struct; the fields of
a time.Time carry no tag. -/
def applyEnv (p : TimeParsers) (env : Environment) : Val → Option (Val × Option Err)
  | .struct fs =>
    match applyEnvFields p env fs with
    | none => none
    | some r => some (.struct r.1, r.2)
  | v => some (v, none)

/-- Function `applyJSONConfig` of config.go: nothing is read for an empty file name. -/
def applyJSONConfig (load : JSONLoader) (config : Val) (filename : String) :
    Val × Option Err :=
  if filename.length = 0 then (config, none) else load filename config

/-- Kind test `v.Kind() == reflect.Struct`. -/
def isStructKind : Val → Bool
  | .struct _ => true
  | .time _ => true
  | _ => false

/-- What a call of `Init` leaves: the argument and the error returned, or a panic. -/
inductive Run where
  | returned (config : Option Val) (err : Option Err)
  | panic

/-- Function `Init` of config.go.  The argument `config interface{}` is `none` for
nil; `reflect.Indirect` of a nil pointer is the invalid value, which is not of
kind Struct. -/
def Init (p : TimeParsers) (env : Environment) (load : JSONLoader) (config : Option Val)
    (filename : String) : Run :=
  match config with
  | some (.ptrTo x) =>
    if isStructKind x then
      match applyDefault p noField x with
      | (x1, some e) => .returned (some (.ptrTo x1)) (some (.initDefaults e))
      | (x1, none) =>
        match applyJSONConfig load x1 filename with
        | (x2, some e) => .returned (some (.ptrTo x2)) (some e)
        | (x2, none) =>
          match applyEnv p env x2 with
          | none => .panic
          | some (x3, some e) => .returned (some (.ptrTo x3)) (some e)
          | some (x3, none) => .returned (some (.ptrTo x3)) (validate x3)
    else .returned config (some .ErrNotStruct)
  | some (.nilPtr _) => .returned config (some .ErrNotStruct)
  | other => .returned other (some .ErrDstNotPointer)

/-- A loader for runs without a file: it is never called for the empty file name. -/
def noFile : JSONLoader := fun _ config => (config, some (.external "open: no such file"))

/-! ## Error texts -/

/-- Text of the coercion errors, `fmt.Errorf("failed to parse value %q as T type", value)`;
`quote` is the verb `%q` of fmt on a string (`strconv.Quote`). -/
def parseFailedText (quote : String → String) (value typeName : String) : String :=
  "failed to parse value " ++ quote value ++ " as " ++ typeName ++ " type"

/-- Text of an error, where the sources shown fix it. -/
def Err.message (quote : String → String) : Err → Option String
  | .parseFailed value typeName => some (parseFailedText quote value typeName)
  | .requiredFields names => some (requiredText names)
  | .initDefaults inner =>
    (inner.message quote).map (fun s => "init config with default values: " ++ s)
  | .external text => some text
  | e => e.text

/-- Quoting `strconv.Quote` on printable ASCII text: the text between double quotes,
a backslash before each double quote and each backslash. -/
def quotePrintable (s : String) : String :=
  String.mk ('"' :: (s.data.flatMap (fun c => if c = '"' ∨ c = '\\' then ['\\', c] else [c])
    ++ ['"']))

/-! ## Notions used to state the properties of the entry point and of validation -/

/-- The argument of `Init` is a pointer to a value of kind Struct. -/
def pointsToStruct : Option Val → Bool
  | some (.ptrTo x) => isStructKind x
  | _ => false

/-- The argument of `Init` is of kind Ptr. -/
def isPointerArg : Option Val → Bool
  | some (.ptrTo _) => true
  | some (.nilPtr _) => true
  | _ => false

/-- The sixteen spellings of "true" in upper and lower case letters. -/
def spellingsOfTrue : List String :=
  ['t', 'T'].flatMap (fun a => ['r', 'R'].flatMap (fun b => ['u', 'U'].flatMap (fun c =>
    ['e', 'E'].map (fun d => String.mk [a, b, c, d]))))

/-- The type name a coercion error carries, as the claim lists them: Int64 for signed
integer fields, Uint64 for unsigned ones, time.Time for timestamps, time.Duration
for standard durations and Duration for the custom duration, a pointer to one of
the last three counting as the type itself. -/
def typeNameSpec : Val → Option String
  | .int _ _ => some "Int64"
  | .uint _ _ => some "Uint64"
  | .time _ => some "time.Time"
  | .nilPtr .Time => some "time.Time"
  | .ptrTo (.time _) => some "time.Time"
  | .timeDuration _ => some "time.Duration"
  | .nilPtr .TimeDuration => some "time.Duration"
  | .ptrTo (.timeDuration _) => some "time.Duration"
  | .duration _ => some "Duration"
  | .nilPtr .Duration => some "Duration"
  | .ptrTo (.duration _) => some "Duration"
  | _ => none

mutual
/-- The leaf fields reachable through nested structure values, depth first in
declaration order, each with its descriptor. -/
def leaves (t : StructField) : Val → List (StructField × Val)
  | .struct fs => leavesOfFields fs
  | v => [(t, v)]
/-- The leaves below the fields of a structure. -/
def leavesOfFields : List (StructField × Val) → List (StructField × Val)
  | [] => []
  | (f, v) :: rest => leaves f v ++ leavesOfFields rest
end

/-- The field carries a true required annotation. -/
def requiredTrue (t : StructField) : Bool :=
  match t.Lookup "required" with
  | none => false
  | some value => isTrue value

/-- A timestamp at the instant of the zero time or of the Unix epoch. -/
def atZeroOrEpoch : Val → Bool
  | .time t => t.unix == zeroTime.unix && t.nsec == 0 || t.unix == 0 && t.nsec == 0
  | _ => false

/-- A leaf that validation reports: required, and holding the zero value of its type
or a timestamp at the zero instant or the Unix epoch. -/
def offending (l : StructField × Val) : Bool :=
  requiredTrue l.1 && (deepZero l.2 || atZeroOrEpoch l.2)

/-- The leaf a path of field positions leads to, through nested structure values. -/
def leafAt : List Nat → StructField → Val → Option (StructField × Val)
  | [], t, v =>
    match v with
    | .struct _ => none
    | _ => some (t, v)
  | j :: rest, _, v =>
    match v with
    | .struct fs =>
      match fs.get? j with
      | some (f, x) => leafAt rest f x
      | none => none
    | _ => none

/-- Coercion of a literal into a scalar leaf as section 4.1 of the spec words it: a
string as it is; an integer parsed in base 10, signed or unsigned 64-bit; a
boolean true iff the literal is "1" or "true" in any letter case; a timestamp by
the RFC3339 parser; a duration by the duration grammar; an optional timestamp or
duration allocated and wrapped.  `none` is a coercion failure. -/
def coerceScalar (p : TimeParsers) (v : Val) (s : String) : Option Val :=
  match v with
  | .str _ => some (.str s)
  | .int .Int _ => (ParseInt s).map (fun n => .int .Int n)
  | .int .Int64 _ => (ParseInt s).map (fun n => .int .Int64 n)
  | .uint .Uint _ => (ParseUint s).map (fun n => .uint .Uint n)
  | .uint .Uint64 _ => (ParseUint s).map (fun n => .uint .Uint64 n)
  | .bool _ => some (.bool (s == "1" || toLowerChars s.data == "true".data))
  | .time _ => (p.parseTime s).map (fun t => .time t)
  | .nilPtr .Time => (p.parseTime s).map (fun t => .ptrTo (.time t))
  | .ptrTo (.time _) => (p.parseTime s).map (fun t => .ptrTo (.time t))
  | .timeDuration _ => (p.parseDuration s).map (fun d => .timeDuration d)
  | .nilPtr .TimeDuration => (p.parseDuration s).map (fun d => .ptrTo (.timeDuration d))
  | .ptrTo (.timeDuration _) => (p.parseDuration s).map (fun d => .ptrTo (.timeDuration d))
  | .duration _ => (p.parseDuration s).map (fun d => .duration d)
  | .nilPtr .Duration => (p.parseDuration s).map (fun d => .ptrTo (.duration d))
  | .ptrTo (.duration _) => (p.parseDuration s).map (fun d => .ptrTo (.duration d))
  | _ => none

/-- Coercion of a literal into a leaf as section 4.1 of the spec words it, for every
leaf type the loader is documented to fill: a list of strings is the literal split
on ","; a scalar is coerced as `coerceScalar` says.  `none` is a coercion failure,
or a type outside that list. -/
def coerceLeaf (p : TimeParsers) (v : Val) (s : String) : Option Val :=
  match v with
  | .nilSlice .String =>
    some (.slice .String ((s.data.splitOn ',').map (fun cs => .str (String.mk cs))))
  | .slice .String _ =>
    some (.slice .String ((s.data.splitOn ',').map (fun cs => .str (String.mk cs))))
  | other => coerceScalar p other s

/-! ## Worked inputs of the entry point and of validation -/

/-- The descriptor of a field whose only annotation is `required:"true"`. -/
def requiredField (name : String) : StructField := ⟨name, [("required", "true")]⟩

/-- The structure User of the test TestValidateField of config_test.go, with Int 1 and
Ptr pointing at 1 as the test sets them. -/
def userData : Val :=
  .struct [
    (requiredField "EmptyString", .str ""),
    (requiredField "EmptyInt", .int .Int 0),
    (requiredField "EmptySlice", .nilSlice (.Int .Int)),
    (requiredField "Int", .int .Int 1),
    (requiredField "PtrNil", .nilPtr (.Int .Int)),
    (requiredField "Ptr", .ptrTo (.int .Int 1)),
    (requiredField "Map", .nilMap),
    (requiredField "TimeNil", .nilPtr .Time),
    (requiredField "Time", .time zeroTime),
    (requiredField "DurationNil", .nilPtr .Duration),
    (requiredField "Duration", .duration 0)]

/-- The structure `test` of TestValidateField, holding a User. -/
def userTest : Val := .struct [(⟨"User", []⟩, userData)]

/-- The configuration of ExampleInitTimeout of example_test.go. -/
def timeoutsConfig (read write : Int) : Val :=
  .struct [
    (⟨"ReadTimeout", [("envconfig", "READ_TIMEOUT"), ("default", "1s")]⟩, .timeDuration read),
    (⟨"WriteTimeout", [("envconfig", "WRITE_TIMEOUT"), ("default", "10s")]⟩,
      .timeDuration write)]

/-- The configuration of the test TestInit of config_test.go. -/
def initConfig (user pass : String) (poolSize : Nat) (enabled : Bool) : Val :=
  .struct [
    (⟨"User", [("json", "user"), ("envconfig", "INIT_USER"), ("default", "")]⟩, .str user),
    (⟨"Password", [("json", "pass"), ("envconfig", "INIT_PASS"), ("default", "")]⟩, .str pass),
    (⟨"PoolSize", [("json", "pool_size"), ("envconfig", "INIT_POOL_SIZE"), ("default", "0")]⟩,
      .uint .Uint64 poolSize),
    (⟨"Enabled", [("json", "enabled"), ("envconfig", "INIT_ENABLED"), ("default", "true")]⟩,
      .bool enabled)]

/-- Kind test for a structure that the walks enter: a struct other than time.Time. -/
def isWalked : Val → Bool
  | .struct _ => true
  | _ => false

/-! ## Durations as text and as JSON (time.go, packages time and encoding/json) -/

/-- The decimal digit of a number below ten, `byte(n) + '0'`. -/
def digitChar (n : Nat) : Char := Char.ofNat (48 + n)

/-- The loop of `fmtInt` of package time: the digits of `v` are written in front of
`buf`, least significant first; twenty rounds exhaust an unsigned 64-bit value. -/
def fmtIntLoop : Nat → Nat → List Char → List Char
  | 0, _, buf => buf
  | fuel + 1, v, buf =>
    if v = 0 then buf else fmtIntLoop fuel (v / 10) (digitChar (v % 10) :: buf)

/-- Function `fmtInt` of package time: `v` in decimal, "0" for zero. -/
def fmtInt (v : Nat) : List Char :=
  if v = 0 then ['0'] else fmtIntLoop 20 v []

/-- The loop of `fmtFrac` of package time over `prec` digits: a digit is written once
a non-zero digit has been met, so trailing zeros are omitted. -/
def fmtFracLoop : Nat → Nat → Bool → List Char → List Char × Bool × Nat
  | 0, v, print, buf => (buf, print, v)
  | prec + 1, v, print, buf =>
    let print2 := print || v % 10 != 0
    fmtFracLoop prec (v / 10) print2 (if print2 then digitChar (v % 10) :: buf else buf)

/-- Function `fmtFrac` of package time: the fraction of `v / 10^prec` with its decimal
point, nothing when the fraction is zero, and the value `v / 10^prec`. -/
def fmtFrac (v prec : Nat) : List Char × Nat :=
  let r := fmtFracLoop prec v false []
  (if r.2.1 then '.' :: r.1 else r.1, r.2.2)

/-- The text `format` of package time writes for the magnitude `u` of a duration:
below one second the units ns, µs and ms; from one second on hours, minutes and
seconds, the leading zero units omitted. -/
def formatMagnitude (u : Nat) : List Char :=
  if u < 1000000000 then
    if u = 0 then ['0', 's']
    else if u < 1000 then fmtInt (fmtFrac u 0).2 ++ (fmtFrac u 0).1 ++ ['n', 's']
    else if u < 1000000 then fmtInt (fmtFrac u 3).2 ++ (fmtFrac u 3).1 ++ ['µ', 's']
    else fmtInt (fmtFrac u 6).2 ++ (fmtFrac u 6).1 ++ ['m', 's']
  else
    let secs := (fmtFrac u 9).2
    let tail := fmtInt (secs % 60) ++ (fmtFrac u 9).1 ++ ['s']
    let mins := secs / 60
    if mins > 0 then
      let tail2 := fmtInt (mins % 60) ++ 'm' :: tail
      let hours := mins / 60
      if hours > 0 then fmtInt hours ++ 'h' :: tail2 else tail2
    else tail

/-- Method `String` of time.Duration, on the nanosecond count `d`: the text of the
magnitude, behind a minus sign when `d` is negative. -/
def formatDuration (d : Int) : List Char :=
  if d < 0 then '-' :: formatMagnitude d.natAbs else formatMagnitude d.natAbs

/-- Function `leadingInt` of package time: the leading digits as a number, `none` when
it passes 2^63. -/
def leadingInt : List Char → Nat → Option (Nat × List Char)
  | [], x => some (x, [])
  | c :: cs, x =>
    if !isDigit c then some (x, c :: cs)
    else if x > 2 ^ 63 / 10 then none
    else if x * 10 + (c.toNat - '0'.toNat) > 2 ^ 63 then none
    else leadingInt cs (x * 10 + (c.toNat - '0'.toNat))

/-- Function `leadingFraction` of package time: the leading digits as a number and the
count `k` of the digits taken in, `scale` being 10^k; digits past the overflow
are skipped. -/
def leadingFraction : List Char → Nat → Nat → Bool → Nat × Nat × List Char
  | [], x, k, _ => (x, k, [])
  | c :: cs, x, k, overflow =>
    if !isDigit c then (x, k, c :: cs)
    else if overflow then leadingFraction cs x k true
    else if x > (2 ^ 63 - 1) / 10 then leadingFraction cs x k true
    else if x * 10 + (c.toNat - '0'.toNat) > 2 ^ 63 then leadingFraction cs x k true
    else leadingFraction cs (x * 10 + (c.toNat - '0'.toNat)) (k + 1) false

/-- The float64 step of `time.ParseDuration`: `uint64(float64(f) * (float64(unit) / scale))`
for the fraction digits `f`, their count `k` (scale is 10^k) and the unit. -/
abbrev FractionStep := Nat → Nat → Nat → Nat

/-- What float64 arithmetic guarantees for the step: when `unit / 10^k` is a whole number
and it, `f` and the product are below 2^53, every operation is exact. -/
def FractionStep.Exact (step : FractionStep) : Prop :=
  ∀ f k unit, 10 ^ k ∣ unit → f < 2 ^ 53 → unit < 2 ^ 53 → f * (unit / 10 ^ k) < 2 ^ 53 →
    step f k unit = f * (unit / 10 ^ k)

/-- A step that is exact on whole quotients and rounds down elsewhere; it serves the
worked examples. -/
def stepDown : FractionStep := fun f k unit => f * unit / 10 ^ k

/-- The part `(\.[0-9]*)?` of a term of a duration: the digits after the point as a
number `f`, their count `k`, the text after them, and whether a digit was read. -/
def fractionOf (s1 : List Char) : Nat × Nat × List Char × Bool :=
  match s1 with
  | [] => (0, 0, [], false)
  | c :: s2 =>
    if c = '.' then
      ((leadingFraction s2 0 0 false).1, (leadingFraction s2 0 0 false).2.1,
        (leadingFraction s2 0 0 false).2.2,
        (leadingFraction s2 0 0 false).2.2.length != s2.length)
    else (0, 0, c :: s2, false)

/-- One round of the loop of `time.ParseDuration` (Go 1.17 and later): a term
`<digits>[.<digits>]<unit>` at the head of the text gives its nanoseconds and the
text after it; `none` is an error. -/
def parseTerm (step : FractionStep) (cs : List Char) : Option (Nat × List Char) :=
  match cs with
  | [] => none
  | c :: _ =>
    if !(c == '.' || isDigit c) then none
    else match leadingInt cs 0 with
      | none => none
      | some (v, s1) =>
        let pre := s1.length != cs.length
        let fr := fractionOf s1
        if !pre && !fr.2.2.2 then none
        else
          let us := fr.2.2.1.takeWhile (fun c => !(c == '.' || isDigit c))
          let rest := fr.2.2.1.dropWhile (fun c => !(c == '.' || isDigit c))
          if us.isEmpty then none
          else match unitNanos (String.mk us) with
            | none => none
            | some unit =>
              if v > 2 ^ 63 / unit then none
              else if fr.1 > 0 then
                if (v * unit + step fr.1 fr.2.1 unit) % 2 ^ 64 > 2 ^ 63 then none
                else some ((v * unit + step fr.1 fr.2.1 unit) % 2 ^ 64, rest)
              else some (v * unit, rest)

/-- The loop of `time.ParseDuration` over the terms, summed in an unsigned 64-bit
accumulator; `none` is an error.  Every round takes at least one character, so
the fuel, the length of the text plus one, is never used up. -/
def parseTerms (step : FractionStep) : Nat → List Char → Nat → Option Nat
  | 0, _, _ => none
  | fuel + 1, cs, d =>
    match cs with
    | [] => some d
    | _ :: _ =>
      match parseTerm step cs with
      | none => none
      | some (v, rest) =>
        if (d + v) % 2 ^ 64 > 2 ^ 63 then none
        else parseTerms step fuel rest ((d + v) % 2 ^ 64)

/-- The end of `time.ParseDuration`: the text after the sign is "0", or terms whose
sum is negated under a minus sign and must stay below 2^63 otherwise. -/
def parseMagnitude (step : FractionStep) (neg : Bool) (cs : List Char) : Option Int :=
  if cs == ['0'] then some 0
  else if cs.isEmpty then none
  else match parseTerms step (cs.length + 1) cs 0 with
    | none => none
    | some d =>
      if neg then some (- (d : Int))
      else if d > 2 ^ 63 - 1 then none else some (d : Int)

/-- Function `time.ParseDuration` (Go 1.17 and later): an optional sign, then "0" or
terms; the magnitude 2^63 is accepted under a minus sign only. -/
def ParseDuration (step : FractionStep) (s : String) : Option Int :=
  match s.data with
  | [] => none
  | c :: cs =>
    if c == '-' then parseMagnitude step true cs
    else if c == '+' then parseMagnitude step false cs
    else parseMagnitude step false (c :: cs)

/-- A hexadecimal digit in lower case. -/
def hexDigit (n : Nat) : Char := if n < 10 then Char.ofNat (48 + n) else Char.ofNat (87 + n)

/-- How `json.Marshal` writes one character of a string: the quote and the backslash
behind a backslash, line feed, carriage return and tab as \n, \r and \t, the other
control characters and the characters <, > and & as \u00XX (from Go 1.22 on
backspace and form feed are written \b and \f instead), the line and paragraph
separators as \u2028 and \u2029, anything else as it is. -/
def jsonEscape (c : Char) : List Char :=
  if c = Char.ofNat 34 then [Char.ofNat 92, Char.ofNat 34]
  else if c = Char.ofNat 92 then [Char.ofNat 92, Char.ofNat 92]
  else if c = Char.ofNat 10 then [Char.ofNat 92, 'n']
  else if c = Char.ofNat 13 then [Char.ofNat 92, 'r']
  else if c = Char.ofNat 9 then [Char.ofNat 92, 't']
  else if c.toNat < 32 ∨ c = '<' ∨ c = '>' ∨ c = '&' then
    [Char.ofNat 92, 'u', '0', '0', hexDigit (c.toNat / 16), hexDigit (c.toNat % 16)]
  else if c.toNat = 8232 then [Char.ofNat 92, 'u', '2', '0', '2', '8']
  else if c.toNat = 8233 then [Char.ofNat 92, 'u', '2', '0', '2', '9']
  else [c]

/-- Encoding `json.Marshal(s)` of a string: the characters between double quotes. -/
def jsonMarshalString (s : String) : String :=
  String.mk (Char.ofNat 34 :: (s.data.flatMap jsonEscape ++ [Char.ofNat 34]))

/-- White space of JSON. -/
def isJSONSpace (c : Char) : Bool :=
  c == ' ' || c == Char.ofNat 9 || c == Char.ofNat 10 || c == Char.ofNat 13

/-- Value of a hexadecimal digit. -/
def hexValue (c : Char) : Option Nat :=
  if isDigit c then some (c.toNat - 48)
  else if decide ('a' ≤ c) && decide (c ≤ 'f') then some (c.toNat - 87)
  else if decide ('A' ≤ c) && decide (c ≤ 'F') then some (c.toNat - 55)
  else none

/-- Four hexadecimal digits as a number. -/
def hex4 : List Char → Option (Nat × List Char)
  | a :: b :: c :: d :: rest =>
    match hexValue a, hexValue b, hexValue c, hexValue d with
    | some x, some y, some z, some w => some (((x * 16 + y) * 16 + z) * 16 + w, rest)
    | _, _, _, _ => none
  | _ => none

/-- The character of a \u escape and the text after it: a surrogate pair gives one
character, a lone surrogate the replacement character U+FFFD. -/
def escapedRune (n : Nat) (rest : List Char) : Char × List Char :=
  if 55296 ≤ n ∧ n < 57344 then
    match rest with
    | bs :: u :: more =>
      if bs = Char.ofNat 92 ∧ u = 'u' ∧ n < 56320 then
        match hex4 more with
        | some (m, after) =>
          if 56320 ≤ m ∧ m < 57344 then
            (Char.ofNat (65536 + (n - 55296) * 1024 + (m - 56320)), after)
          else (Char.ofNat 65533, rest)
        | none => (Char.ofNat 65533, rest)
      else (Char.ofNat 65533, rest)
    | _ => (Char.ofNat 65533, rest)
  else (Char.ofNat n, rest)

/-- A JSON string literal after its opening quote: the characters it denotes and the
text after the closing quote; `none` when the literal is malformed.  The fuel
bounds the rounds by the length of the text. -/
def unquoteLoop : Nat → List Char → Option (List Char × List Char)
  | 0, _ => none
  | _ + 1, [] => none
  | fuel + 1, c :: rest =>
    if c = Char.ofNat 34 then some ([], rest)
    else if c = Char.ofNat 92 then
      match rest with
      | [] => none
      | e :: rest2 =>
        let plain : Option Char :=
          if e = Char.ofNat 34 ∨ e = Char.ofNat 92 ∨ e = '/' then some e
          else if e = 'b' then some (Char.ofNat 8)
          else if e = 'f' then some (Char.ofNat 12)
          else if e = 'n' then some (Char.ofNat 10)
          else if e = 'r' then some (Char.ofNat 13)
          else if e = 't' then some (Char.ofNat 9)
          else none
        match plain with
        | some x => (unquoteLoop fuel rest2).map (fun r => (x :: r.1, r.2))
        | none =>
          if e = 'u' then
            match hex4 rest2 with
            | none => none
            | some (n, rest3) =>
              (unquoteLoop fuel (escapedRune n rest3).2).map
                (fun r => ((escapedRune n rest3).1 :: r.1, r.2))
          else none
    else if c.toNat < 32 then none
    else (unquoteLoop fuel rest).map (fun r => (c :: r.1, r.2))

/-- Decoding `json.Unmarshal(b, &v)` into a string variable `v` that holds "": a string
literal gives its text, `null` leaves the variable as it is, and every other
input, valid JSON or not, is an error (`none`). -/
def jsonUnmarshalString (b : String) : Option String :=
  match b.data.dropWhile isJSONSpace with
  | [] => none
  | c :: rest =>
    if c = Char.ofNat 34 then
      match unquoteLoop (rest.length + 1) rest with
      | none => none
      | some (text, after) => if after.all isJSONSpace then some (String.mk text) else none
    else if (c :: rest).take 4 = ['n', 'u', 'l', 'l'] ∧ ((c :: rest).drop 4).all isJSONSpace then
      some ""
    else none

/-- Method `MarshalJSON` of Duration (time.go): the JSON encoding of the text of the
duration; `json.Marshal` of a string returns no error. -/
def Duration.MarshalJSON (d : Int) : Except Err String :=
  .ok (jsonMarshalString (String.mk (formatDuration d)))

/-- Method `UnmarshalJSON` of Duration (time.go), on the target `d`: the target after
the call and the error returned; `parseDuration` is `time.ParseDuration`.  The
errors of the two library calls are kept apart by the name of the call, their
text is not modelled. -/
def Duration.UnmarshalJSON (parseDuration : String → Option Int) (d : Int) (b : String) :
    Int × Option Err :=
  match jsonUnmarshalString b with
  | none => (d, some (.external "json.Unmarshal"))
  | some v =>
    match parseDuration v with
    | none => (d, some (.external "time.ParseDuration"))
    | some duration => (duration, none)

/-! ## Notions used to state the properties of the last claims -/

/-- The input begins, after white space, with the double quote of a JSON string. -/
def startsJSONString (b : String) : Bool :=
  match b.data.dropWhile isJSONSpace with
  | [] => false
  | c :: _ => c == Char.ofNat 34

/-- The destination holds a nil slice or a nil pointer. -/
def Dst.holdsNil : Dst → Bool
  | .rvalue _ (.nilSlice _) => true
  | .rvalue _ (.nilPtr _) => true
  | .iface (some (.nilSlice _)) => true
  | .iface (some (.nilPtr _)) => true
  | _ => false

/-- Function `strings.Join` with the separator `_`: the words of a name written in
snake case. -/
def joinWords : List (List Char) → List Char
  | [] => []
  | w :: ws =>
    match ws with
    | [] => w
    | _ :: _ => w ++ '_' :: joinWords ws

/-- A word with its first letter in upper case and its remaining letters in lower
case. -/
def capitalised : List Char → List Char
  | [] => []
  | c :: cs => c.toUpper :: cs.map Char.toLower

/-- Each character of a text with its neighbours: the character before it (none at
the start of the text) and the character after it (none at the end). -/
def neighbours : Option Char → List Char → List (Option Char × Char × Option Char)
  | _, [] => []
  | before, c :: rest => (before, c, rest.head?) :: neighbours (some c) rest

/-- What becomes of one character of the lower-cased text, from its neighbours: an
underscore directly followed by a letter is dropped, a letter that starts the text or
directly follows an underscore is put in upper case, every other character stays. -/
def camelFate : Option Char × Char × Option Char → List Char
  | (before, c, after) =>
    if c = '_' ∧ after.any isLetter = true then []
    else if isLetter c = true ∧ (before = none ∨ before = some '_') then [c.toUpper]
    else [c]

/-- The leaf as `applyDefault` leaves it. -/
def afterDefault (p : TimeParsers) (l : StructField × Val) : StructField × Val :=
  (l.1, (applyDefault p l.1 l.2).1)

/-- The leaf as `applyEnvValue` leaves it. -/
def afterEnv (p : TimeParsers) (env : Environment) (l : StructField × Val) :
    StructField × Val :=
  (l.1, match applyEnvValue p env l.1 l.2 with
    | some x => x.1
    | none => l.2)

/-- A leaf that the environment pass hands to the slice reconstruction: it carries an
envprefix annotation and is a slice or a pointer to one. -/
def isPrefixedSlice (l : StructField × Val) : Bool :=
  (l.1.Lookup envPrefixTag).isSome && isSliceTyped l.2

/-- Field `Payload` of the type Configuration of configuration_test.go. -/
def payloadsField : StructField := ⟨"Payload", [("envprefix", "APP")]⟩

/-- A configuration holding a field `Payload []Payload` with the prefix APP. -/
def configuration (payloads : Val) : Val := .struct [(payloadsField, payloads)]

/-- A structure with three annotated fields, the second an integer whose default is
no number. -/
def person (name : String) (age : Int) (city : String) : Val :=
  .struct [
    (⟨"Name", [("envconfig", "NAME"), ("default", "anonymous")]⟩, .str name),
    (⟨"Age", [("envconfig", "AGE"), ("default", "old")]⟩, .int .Int age),
    (⟨"City", [("envconfig", "CITY"), ("default", "Kyiv")]⟩, .str city)]

/-- The environment is silent about a field: the variable that its envconfig
annotation names is not set, and no entry of the snapshot matches the key pattern of
its envprefix annotation. -/
def silentOn (env : Environment) (f : StructField) : Bool :=
  (match f.Lookup envConfigTag with
    | none => true
    | some key => (env.lookupEnv key).isNone)
  && (match f.Lookup envPrefixTag with
    | none => true
    | some pfx => (keysOf pfx env.environ).isEmpty)


theorem envLoop_no_match (p : TimeParsers) (pfx : String) (sliceOf : Ty) (envs : List String)
    (m : ElemMap)
    (hmatch : ∀ kv ∈ envs, HasPrefix kv pfx = true → FindStringSubmatch pfx kv = none) :
    envLoop p pfx sliceOf envs m = .next m := by
  induction envs with
  | nil => rfl
  | cons kv rest ih =>
    have hrest : ∀ kv ∈ rest, HasPrefix kv pfx = true → FindStringSubmatch pfx kv = none :=
      fun x hx => hmatch x (List.mem_cons_of_mem _ hx)
    have hstep : applyEntry p pfx sliceOf m kv = .next m := by
      unfold applyEntry matchEntry
      by_cases hp : HasPrefix kv pfx = true
      · simp [hp, hmatch kv (List.mem_cons_self _ _) hp]
      · simp [hp]
    simp [envLoop, hstep, ih hrest]

theorem placeValues_length (m : ElemMap) (values out : List (Option Val))
    (h : placeValues m values = some out) : out.length = values.length := by
  induction m generalizing values with
  | nil => simp [placeValues] at h; simp [← h]
  | cons kv rest ih =>
    obtain ⟨i, item⟩ := kv
    simp only [placeValues] at h
    split at h
    · have := ih _ h
      simpa using this
    · cases h

theorem allValues_length (xs : List (Option Val)) (ys : List Val) (h : allValues xs = some ys) :
    ys.length = xs.length := by
  induction xs generalizing ys with
  | nil => simp [allValues] at h; simp [← h]
  | cons x rest ih =>
    cases x with
    | none => simp [allValues] at h
    | some v =>
      simp only [allValues] at h
      split at h
      · cases h
      · rename_i vs hvs
        cases h
        simp [ih vs hvs]

theorem assemble_length (m : ElemMap) (values : List Val) (h : assemble m = some values) :
    values.length = m.length := by
  unfold assemble at h
  split at h
  · cases h
  · rename_i out hout
    have h1 := placeValues_length _ _ _ hout
    have h2 := allValues_length _ _ h
    simp [h2, h1]

theorem placeValues_out_of_range (m : ElemMap) (values : List (Option Val))
    (h : ∃ kv ∈ m, values.length ≤ kv.1) : placeValues m values = none := by
  induction m generalizing values with
  | nil => simp at h
  | cons kv rest ih =>
    obtain ⟨i, item⟩ := kv
    simp only [placeValues]
    split
    · rename_i hi
      apply ih
      obtain ⟨kv, hkv, hle⟩ := h
      rcases List.mem_cons.mp hkv with rfl | hmem
      · exact absurd hi (Nat.not_lt.mpr hle)
      · exact ⟨kv, hmem, by simpa using hle⟩
    · rfl

/-- Any mapping that holds an index not below its number of entries, which is what an
index gap amounts to, makes the assembly panic. -/
theorem assemble_gap_panics (m : ElemMap) (h : ∃ kv ∈ m, m.length ≤ kv.1) :
    assemble m = none := by
  unfold assemble
  rw [placeValues_out_of_range m _ (by simpa using h)]

theorem applyEnvOverridesToSlice_eq (p : TimeParsers) (envs : List String) (pfx : String)
    (dst : Dst) (canSet : Bool) (rv : Val) (sliceOf : Ty) (xs : List Val)
    (hc : checkDst pfx dst = .ok (canSet, rv, sliceOf)) (hx : existingOf rv = some xs) :
    applyEnvOverridesToSlice p envs pfx dst =
      match seedLoop p xs with
      | .panic => .panic
      | .fail e elems => .fail e (dst.inPlace rv sliceOf xs.length elems)
      | .ok elems =>
        match envLoop p pfx sliceOf envs elems.enum with
        | .panic => .panic
        | .fail e m => .fail e (dst.inPlace rv sliceOf xs.length (existingElems xs.length m))
        | .next m => finish dst canSet rv sliceOf m := by
  simp [applyEnvOverridesToSlice, hc, hx]

theorem seedLoop_nil (p : TimeParsers) : seedLoop p [] = .ok [] := rfl

theorem fieldByEnvconfig_first (fs : List (StructField × Val)) (token : String) (j : Nat)
    (h : firstField fs (fun f => f.Get envConfigTag = token) j) :
    fieldByEnvconfig fs token = some j := by
  obtain ⟨hj, hP, hfirst⟩ := h
  unfold fieldByEnvconfig
  rw [List.findIdx?_eq_some_iff_getElem]
  refine ⟨hj, ?_, ?_⟩
  · simp only [beq_iff_eq]
    exact hP.symm
  · intro k hk
    simp only [beq_iff_eq]
    exact fun hc => hfirst k hk hc.symm

theorem fieldByEnvconfig_none (fs : List (StructField × Val)) (token : String)
    (h : ∀ fv ∈ fs, fv.1.Get envConfigTag ≠ token) :
    fieldByEnvconfig fs token = none := by
  unfold fieldByEnvconfig
  rw [List.findIdx?_eq_none_iff]
  intro fv hfv
  exact beq_eq_false_iff_ne.mpr (fun hc => h fv hfv hc.symm)

theorem FieldByName_first (fs : List (StructField × Val)) (name : String) (j : Nat)
    (h : firstField fs (fun f => f.Name = name) j) :
    FieldByName fs name = some j := by
  obtain ⟨hj, hP, hfirst⟩ := h
  unfold FieldByName
  rw [List.findIdx?_eq_some_iff_getElem]
  refine ⟨hj, ?_, ?_⟩
  · simp only [beq_iff_eq]
    exact hP
  · intro k hk
    simp only [beq_iff_eq]
    exact hfirst k hk

theorem FieldByName_none (fs : List (StructField × Val)) (name : String)
    (h : ∀ fv ∈ fs, fv.1.Name ≠ name) :
    FieldByName fs name = none := by
  unfold FieldByName
  rw [List.findIdx?_eq_none_iff]
  intro fv hfv
  exact beq_eq_false_iff_ne.mpr (h fv hfv)

theorem targetField_of_resolvesTo (fs : List (StructField × Val)) (token : String) (j : Nat)
    (h : resolvesTo fs token j) : targetField fs token (ToCamelCase token) = some j := by
  unfold targetField
  rcases h with h | ⟨hno, h⟩
  · rw [fieldByEnvconfig_first fs token j h]
  · rw [fieldByEnvconfig_none fs token hno, FieldByName_first fs _ j h]

/-! ### Lemmas on coercion and default filling -/

theorem wrapInt_neg_of_le (n : Nat) (h : n ≤ 2 ^ 63) :
    wrapInt 64 (-(n : Int)) = -(n : Int) := by
  unfold wrapInt
  have : (0 : Int) ≤ -(n : Int) + 2 ^ (64 - 1) := by norm_num; omega
  have h2 : -(n : Int) + 2 ^ (64 - 1) < 2 ^ 64 := by norm_num; omega
  rw [Int.emod_eq_of_lt this h2]
  ring

theorem wrapInt_of_lt (n : Nat) (h : n < 2 ^ 63) : wrapInt 64 (n : Int) = (n : Int) := by
  unfold wrapInt
  have : (0 : Int) ≤ (n : Int) + 2 ^ (64 - 1) := by norm_num; omega
  have h2 : (n : Int) + 2 ^ (64 - 1) < 2 ^ 64 := by norm_num; omega
  rw [Int.emod_eq_of_lt this h2]
  ring

theorem wrapInt_signedDigits (neg : Bool) (cs : List Char) (n : Int)
    (h : signedDigits neg cs = some n) : wrapInt 64 n = n := by
  unfold signedDigits at h
  split_ifs at h with h1 h2 h3 h4
  · cases h; exact wrapInt_neg_of_le _ h3
  · cases h; exact wrapInt_of_lt _ h4

theorem wrapInt_ParseInt (s : String) (n : Int) (h : ParseInt s = some n) : wrapInt 64 n = n := by
  unfold ParseInt at h
  split at h
  · cases h
  · split_ifs at h <;> exact wrapInt_signedDigits _ _ _ h

theorem setValue_listed (p : TimeParsers) (v : Val) (s : String) (w : Val)
    (hl : listedLeaf v = true) (hc : coerceSpec p v s = some w) :
    setValue p v s = .ok w := by
  cases v with
  | str x => simp [coerceSpec] at hc; simp [setValue, isTimeTyped, isTimeDurationTyped, isDurationTyped, hc]
  | bool b =>
    simp [coerceSpec] at hc
    simp [setValue, isTimeTyped, isTimeDurationTyped, isDurationTyped, setBool, isTrue, ← hc]
  | int k n =>
    cases k <;> simp [listedLeaf] at hl
    simp only [coerceSpec, Option.map_eq_some'] at hc
    obtain ⟨z, hz, rfl⟩ := hc
    simp [setValue, isTimeTyped, isTimeDurationTyped, isDurationTyped, setInt, hz, IntKind.bits,
      wrapInt_ParseInt s z hz]
  | uint k n => simp [listedLeaf] at hl
  | time t =>
    simp only [coerceSpec, Option.map_eq_some'] at hc
    obtain ⟨z, hz, rfl⟩ := hc
    simp [setValue, isTimeTyped, setTime, hz, isPtrKind]
  | timeDuration ns => simp [listedLeaf] at hl
  | duration ns =>
    simp only [coerceSpec, Option.map_eq_some'] at hc
    obtain ⟨z, hz, rfl⟩ := hc
    simp [setValue, isTimeTyped, isTimeDurationTyped, isDurationTyped, setDuration, hz, isPtrKind]
  | nilSlice e =>
    cases e <;> simp [listedLeaf] at hl
    simp [coerceSpec] at hc
    simp [setValue, isTimeTyped, isTimeDurationTyped, isDurationTyped, setSlice, splitComma, ← hc]
  | slice e xs =>
    cases e <;> simp [listedLeaf] at hl
    simp [coerceSpec] at hc
    simp [setValue, isTimeTyped, isTimeDurationTyped, isDurationTyped, setSlice, splitComma, ← hc]
  | nilPtr e =>
    cases e <;> simp [listedLeaf] at hl
    · simp only [coerceSpec, Option.map_eq_some'] at hc
      obtain ⟨z, hz, rfl⟩ := hc
      simp [setValue, isTimeTyped, setTime, hz, isPtrKind]
    · simp only [coerceSpec, Option.map_eq_some'] at hc
      obtain ⟨z, hz, rfl⟩ := hc
      simp [setValue, isTimeTyped, isTimeDurationTyped, isDurationTyped, setDuration, hz, isPtrKind]
  | ptrTo x =>
    cases x <;> simp [listedLeaf] at hl
    · simp only [coerceSpec, Option.map_eq_some'] at hc
      obtain ⟨z, hz, rfl⟩ := hc
      simp [setValue, isTimeTyped, setTime, hz, isPtrKind]
    · simp only [coerceSpec, Option.map_eq_some'] at hc
      obtain ⟨z, hz, rfl⟩ := hc
      simp [setValue, isTimeTyped, isTimeDurationTyped, isDurationTyped, setDuration, hz, isPtrKind]
  | struct fs => simp [listedLeaf] at hl
  | nilMap => simp [listedLeaf] at hl
  | mapOf size => simp [listedLeaf] at hl

theorem applyDefault_leaf (p : TimeParsers) (t : StructField) (v : Val)
    (hns : ∀ fs, v ≠ .struct fs) (hv : validDefaults p t v = true) :
    applyDefault p t v = (defaultsSpec p t v, none) := by
  have key : (match t.Lookup "default" with
      | none => (v, none)
      | some value =>
        match setValue p v value with
        | .ok w => (w, none)
        | .error e => (v, some e)) =
      ((match t.Lookup "default" with
        | none => v
        | some value => (coerceSpec p v value).getD v), (none : Option Err)) := by
    have hv2 : (match t.Lookup "default" with
        | none => true
        | some value => listedLeaf v && (coerceSpec p v value).isSome) = true := by
      cases v <;> first | exact absurd rfl (hns _) | simpa [validDefaults] using hv
    cases hd : t.Lookup "default" with
    | none => rfl
    | some value =>
      rw [hd] at hv2
      simp only [Bool.and_eq_true, Option.isSome_iff_exists] at hv2
      obtain ⟨hl, w, hw⟩ := hv2
      simp [setValue_listed p v value w hl hw, hw]
  cases v <;> first | exact absurd rfl (hns _) | simpa [applyDefault, defaultsSpec] using key

mutual
theorem applyDefault_spec (p : TimeParsers) (t : StructField) :
    (v : Val) → validDefaults p t v = true → applyDefault p t v = (defaultsSpec p t v, none)
  | .struct fs, h => by
    have hf : validDefaultsFields p fs = true := by simpa [validDefaults] using h
    simp [applyDefault, defaultsSpec, applyDefaultFields_spec p fs hf]
  | .str s, h => applyDefault_leaf p t _ (by intro fs hc; cases hc) h
  | .bool s, h => applyDefault_leaf p t _ (by intro fs hc; cases hc) h
  | .int k s, h => applyDefault_leaf p t _ (by intro fs hc; cases hc) h
  | .uint k s, h => applyDefault_leaf p t _ (by intro fs hc; cases hc) h
  | .time s, h => applyDefault_leaf p t _ (by intro fs hc; cases hc) h
  | .timeDuration s, h => applyDefault_leaf p t _ (by intro fs hc; cases hc) h
  | .duration s, h => applyDefault_leaf p t _ (by intro fs hc; cases hc) h
  | .nilSlice s, h => applyDefault_leaf p t _ (by intro fs hc; cases hc) h
  | .slice e s, h => applyDefault_leaf p t _ (by intro fs hc; cases hc) h
  | .nilPtr s, h => applyDefault_leaf p t _ (by intro fs hc; cases hc) h
  | .ptrTo s, h => applyDefault_leaf p t _ (by intro fs hc; cases hc) h
  | .nilMap, h => applyDefault_leaf p t _ (by intro fs hc; cases hc) h
  | .mapOf s, h => applyDefault_leaf p t _ (by intro fs hc; cases hc) h
theorem applyDefaultFields_spec (p : TimeParsers) :
    (fs : List (StructField × Val)) → validDefaultsFields p fs = true →
      applyDefaultFields p fs = (defaultsSpecFields p fs, none)
  | [], _ => rfl
  | (f, v) :: rest, h => by
    have h2 : validDefaults p f v = true ∧ validDefaultsFields p rest = true := by
      simpa [validDefaultsFields] using h
    simp [applyDefaultFields, defaultsSpecFields, applyDefault_spec p f v h2.1,
      applyDefaultFields_spec p rest h2.2]
end

/-! ### The environment loop, field by field -/

theorem setValue_stable (p : TimeParsers) (v w : Val) (s : String)
    (h : setValue p v s = .ok w) (s2 : String) : setValue p w s2 = setValue p v s2 := by
  cases v with
  | str x =>
    simp [setValue, isTimeTyped, isTimeDurationTyped, isDurationTyped] at h
    subst h
    simp [setValue, isTimeTyped, isTimeDurationTyped, isDurationTyped]
  | bool b =>
    simp [setValue, isTimeTyped, isTimeDurationTyped, isDurationTyped, setBool] at h
    subst h
    simp [setValue, isTimeTyped, isTimeDurationTyped, isDurationTyped]
  | int k n =>
    cases k <;>
      simp [setValue, isTimeTyped, isTimeDurationTyped, isDurationTyped, setInt] at h <;>
      first
        | (subst h; rfl)
        | (split at h
           · cases h
           · cases h; simp [setValue, isTimeTyped, isTimeDurationTyped, isDurationTyped])
  | uint k n =>
    cases k <;>
      simp [setValue, isTimeTyped, isTimeDurationTyped, isDurationTyped, setUint] at h <;>
      first
        | (subst h; rfl)
        | (split at h
           · cases h
           · cases h; simp [setValue, isTimeTyped, isTimeDurationTyped, isDurationTyped])
  | time t =>
    simp [setValue, isTimeTyped, setTime, isPtrKind] at h
    split at h
    · cases h
    · cases h; simp [setValue, isTimeTyped, setTime, isPtrKind]
  | timeDuration ns =>
    simp [setValue, isTimeTyped, isTimeDurationTyped, setTimeDuration, isPtrKind] at h
    split at h
    · cases h
    · cases h; simp [setValue, isTimeTyped, isTimeDurationTyped, setTimeDuration, isPtrKind]
  | duration ns =>
    simp [setValue, isTimeTyped, isTimeDurationTyped, isDurationTyped, setDuration, isPtrKind] at h
    split at h
    · cases h
    · cases h
      simp [setValue, isTimeTyped, isTimeDurationTyped, isDurationTyped, setDuration, isPtrKind]
  | nilSlice e =>
    cases e <;>
      simp [setValue, isTimeTyped, isTimeDurationTyped, isDurationTyped, setSlice] at h <;>
      subst h <;>
      simp [setValue, isTimeTyped, isTimeDurationTyped, isDurationTyped, setSlice]
  | slice e xs =>
    cases e <;>
      simp [setValue, isTimeTyped, isTimeDurationTyped, isDurationTyped, setSlice] at h <;>
      subst h <;>
      simp [setValue, isTimeTyped, isTimeDurationTyped, isDurationTyped, setSlice]
  | nilPtr e =>
    cases e <;>
      simp [setValue, isTimeTyped, isTimeDurationTyped, isDurationTyped, setTime, setTimeDuration,
        setDuration, isPtrKind] at h <;>
      first
        | (subst h; rfl)
        | (split at h
           · cases h
           · cases h
             simp [setValue, isTimeTyped, isTimeDurationTyped, isDurationTyped, setTime,
               setTimeDuration, setDuration, isPtrKind])
  | ptrTo x =>
    cases x <;>
      simp [setValue, isTimeTyped, isTimeDurationTyped, isDurationTyped, setTime, setTimeDuration,
        setDuration, isPtrKind] at h <;>
      first
        | (subst h; rfl)
        | (split at h
           · cases h
           · cases h
             simp [setValue, isTimeTyped, isTimeDurationTyped, isDurationTyped, setTime,
               setTimeDuration, setDuration, isPtrKind])
  | struct fs =>
    simp [setValue, isTimeTyped, isTimeDurationTyped, isDurationTyped] at h
    subst h
    rfl
  | nilMap =>
    simp [setValue, isTimeTyped, isTimeDurationTyped, isDurationTyped] at h
    subst h
    rfl
  | mapOf size =>
    simp [setValue, isTimeTyped, isTimeDurationTyped, isDurationTyped] at h
    subst h
    rfl

theorem envLoop_eq_keysLoop (p : TimeParsers) (pfx : String) (sliceOf : Ty) (envs : List String)
    (m : ElemMap) : envLoop p pfx sliceOf envs m = keysLoop p sliceOf (keysOf pfx envs) m := by
  induction envs generalizing m with
  | nil => rfl
  | cons kv rest ih =>
    unfold keysOf
    cases hk : matchEntry pfx kv with
    | none =>
      simp only [envLoop, applyEntry, hk, List.filterMap_cons]
      exact ih m
    | some key =>
      simp only [envLoop, applyEntry, hk, List.filterMap_cons, keysLoop]
      cases applyKey p sliceOf m key with
      | next m1 => exact ih m1
      | fail e m1 => rfl
      | panic => rfl

theorem keysLoop_append (p : TimeParsers) (sliceOf : Ty) (ks : List Key) (k : Key) (m : ElemMap) :
    keysLoop p sliceOf (ks ++ [k]) m =
      match keysLoop p sliceOf ks m with
      | .next m1 => applyKey p sliceOf m1 k
      | other => other := by
  induction ks generalizing m with
  | nil =>
    simp only [List.nil_append, keysLoop]
    cases applyKey p sliceOf m k <;> rfl
  | cons a rest ih =>
    simp only [List.cons_append, keysLoop]
    cases applyKey p sliceOf m a with
    | next m1 => exact ih m1
    | fail e m1 => rfl
    | panic => rfl

theorem ElemMap.get_put (m : ElemMap) (i j : Nat) (v : Val) :
    (m.put i v).get j = if j = i then some v else m.get j := by
  induction m with
  | nil =>
    by_cases h : j = i
    · simp [ElemMap.put, ElemMap.get, h]
    · have h2 : ¬ i = j := fun hc => h hc.symm
      simp [ElemMap.put, ElemMap.get, h, h2]
  | cons kv rest ih =>
    obtain ⟨a, w⟩ := kv
    by_cases hai : a = i
    · subst hai
      by_cases h : j = a
      · simp [ElemMap.put, ElemMap.get, h]
      · have h2 : ¬ a = j := fun hc => h hc.symm
        simp [ElemMap.put, ElemMap.get, h, h2]
    · simp only [ElemMap.put, beq_iff_eq, hai, if_false]
      by_cases haj : a = j
      · subst haj
        simp [ElemMap.get, hai]
      · have : (ElemMap.get ((a, w) :: ElemMap.put rest i v) j) = ElemMap.get (ElemMap.put rest i v) j := by
          simp [ElemMap.get, haj]
        rw [this, ih]
        simp [ElemMap.get, haj]

theorem ElemMap.get_isSome (m : ElemMap) (i : Nat) : (m.get i).isSome ↔ i ∈ m.map Prod.fst := by
  induction m with
  | nil => simp [ElemMap.get]
  | cons kv rest ih =>
    obtain ⟨a, w⟩ := kv
    by_cases hai : a = i
    · subst hai; simp [ElemMap.get]
    · have h2 : ¬ i = a := fun hc => hai hc.symm
      have : ElemMap.get ((a, w) :: rest) i = ElemMap.get rest i := by simp [ElemMap.get, hai]
      rw [this, ih]
      simp [h2]

theorem ElemMap.keys_put (m : ElemMap) (i : Nat) (v : Val) :
    (m.put i v).map Prod.fst = if i ∈ m.map Prod.fst then m.map Prod.fst else m.map Prod.fst ++ [i] := by
  induction m with
  | nil => simp [ElemMap.put]
  | cons kv rest ih =>
    obtain ⟨a, w⟩ := kv
    by_cases hai : a = i
    · subst hai; simp [ElemMap.put]
    · have h2 : ¬ i = a := fun hc => hai hc.symm
      simp only [ElemMap.put, beq_iff_eq, hai, if_false, List.map_cons, ih, List.mem_cons, h2,
        false_or]
      split <;> simp

theorem targetField_eq_targetOf (fs : List (StructField × Val)) (token : String) :
    targetField fs token (ToCamelCase token) = targetOf (fs.map Prod.fst) token := by
  unfold targetField targetOf fieldByEnvconfig FieldByName
  simp only [List.findIdx?_map]
  rfl

theorem lastLiteral_nil (ds : List StructField) (i j : Nat) : lastLiteral ds [] i j = none := rfl

theorem lastLiteral_append (ds : List StructField) (ks : List Key) (k : Key) (i j : Nat) :
    lastLiteral ds (ks ++ [k]) i j =
      if keyIndex k = i ∧ targetOf ds k.2.1 = some j then some k.2.2
      else lastLiteral ds ks i j := by
  unfold lastLiteral
  simp only [List.reverse_append, List.reverse_cons, List.reverse_nil, List.nil_append,
    List.singleton_append, List.find?_cons]
  by_cases h : keyIndex k = i ∧ targetOf ds k.2.1 = some j
  · simp [h.1, h.2]
  · rw [if_neg h]
    have : (keyIndex k == i && targetOf ds k.2.1 == some j) = false := by
      rw [Bool.and_eq_false_iff]
      by_cases h1 : keyIndex k = i
      · right
        have h2 : ¬ targetOf ds k.2.1 = some j := fun hc => h ⟨h1, hc⟩
        simpa using h2
      · left
        simpa using h1
    simp [this]

theorem ElemMap.put_put (m : ElemMap) (i : Nat) (v w : Val) :
    (m.put i v).put i w = m.put i w := by
  induction m with
  | nil => simp [ElemMap.put]
  | cons kv rest ih =>
    obtain ⟨a, x⟩ := kv
    by_cases hai : a = i
    · subst hai; simp [ElemMap.put]
    · simp [ElemMap.put, hai, ih]

theorem ElemMap.put_of_get (m : ElemMap) (i : Nat) (v : Val) :
    (m.put i v).get i = some v := by
  simp [ElemMap.get_put]

theorem Tracks_other_index (p : TimeParsers) (ks : List Key) (k : Key) (i : Nat)
    (fs0 fs : List (StructField × Val)) (hne : keyIndex k ≠ i) (h : Tracks p ks i fs0 fs) :
    Tracks p (ks ++ [k]) i fs0 fs := by
  intro j f v0 hj
  obtain ⟨v, hv, hrel⟩ := h j f v0 hj
  refine ⟨v, hv, ?_⟩
  rw [lastLiteral_append]
  have : ¬ (keyIndex k = i ∧ targetOf (fs0.map Prod.fst) k.2.1 = some j) := fun hc => hne hc.1
  rw [if_neg this]
  exact hrel

theorem Tracks_set (p : TimeParsers) (ks : List Key) (k : Key) (fs0 fs : List (StructField × Val))
    (j : Nat) (f : StructField) (v0 w : Val)
    (htgt : targetOf (fs0.map Prod.fst) k.2.1 = some j)
    (hget0 : fs0.get? j = some (f, v0))
    (hset : setValue p v0 k.2.2 = .ok w)
    (h : Tracks p ks (keyIndex k) fs0 fs) :
    Tracks p (ks ++ [k]) (keyIndex k) fs0 (fs.set j (f, w)) := by
  intro j2 f2 v2 hj2
  obtain ⟨v, hv, hrel⟩ := h j2 f2 v2 hj2
  rw [lastLiteral_append]
  by_cases hjj : j2 = j
  · subst hjj
    rw [hget0] at hj2
    cases hj2
    have hlt : j2 < fs.length := by
      have := List.get?_eq_some.mp hv
      exact this.1
    refine ⟨w, ?_, ?_⟩
    · simp [List.getElem?_set, hlt]
    · simp [htgt, hset]
  · refine ⟨v, ?_, ?_⟩
    · have hne : ¬ j = j2 := fun hc => hjj hc.symm
      simpa [List.getElem?_set, hne] using hv
    · have : ¬ (keyIndex k = keyIndex k ∧ targetOf (fs0.map Prod.fst) k.2.1 = some j2) := by
        intro hc
        rw [htgt] at hc
        exact hjj (Option.some.inj hc.2).symm
      rw [if_neg this]
      exact hrel

theorem Tracks_refl_of_unmentioned (p : TimeParsers) (ks : List Key) (i : Nat)
    (fs : List (StructField × Val)) (h : ∀ k ∈ ks, keyIndex k ≠ i) : Tracks p ks i fs fs := by
  intro j f v0 hj
  refine ⟨v0, hj, ?_⟩
  have : lastLiteral (fs.map Prod.fst) ks i j = none := by
    unfold lastLiteral
    rw [Option.map_eq_none', List.find?_eq_none]
    intro k hk
    have hk2 : k ∈ ks := List.mem_reverse.mp hk
    have := h k hk2
    simp [this]
  rw [this]

theorem applyKey_reached (p : TimeParsers) (sliceOf : Ty) (m0 m : ElemMap)
    (base : List (StructField × Val)) (ks : List Key) (k : Key)
    (hbase : keyIndex k ∉ m0.map Prod.fst →
      applyDefaultToEmpty p noField (zeroVal sliceOf) = (.struct base, none))
    (hr : Reached p m0 base ks m) (hk : KeyOk p m0 base k) :
    ∃ m2, applyKey p sliceOf m k = .next m2 ∧ Reached p m0 base (ks ++ [k]) m2 := by
  obtain ⟨h63, fs0, j, f, v0, w, hinit, htgt, hget0, hset⟩ := hk
  obtain ⟨hnodup, hmem, hvals⟩ := hr
  have hnot : ¬ (9223372036854775808 ≤ digitsValue k.1.data) := by
    unfold keyIndex at h63
    norm_num at h63
    omega
  -- the element looked up or created
  have hel : ∃ m1 fs, elementAt p sliceOf m (keyIndex k) = .ok (m1, .struct fs)
      ∧ fs.map Prod.fst = fs0.map Prod.fst ∧ Tracks p ks (keyIndex k) fs0 fs
      ∧ ∀ x, m1.put (keyIndex k) x = m.put (keyIndex k) x := by
    cases hg : m.get (keyIndex k) with
    | some e =>
      obtain ⟨fs0b, fs, hi, he, hmap, htr⟩ := hvals _ e hg
      rw [hinit] at hi
      cases hi
      subst he
      exact ⟨m, fs, by simp [elementAt, hg], hmap, htr, fun _ => rfl⟩
    | none =>
      have hnm : keyIndex k ∉ m.map Prod.fst := by
        rw [← ElemMap.get_isSome, hg]
        simp
      have hnm0 : keyIndex k ∉ m0.map Prod.fst := fun hc => hnm ((hmem _).mpr (Or.inl hc))
      have hnk : ∀ k2 ∈ ks, keyIndex k2 ≠ keyIndex k :=
        fun k2 hk2 hc => hnm ((hmem _).mpr (Or.inr ⟨k2, hk2, hc⟩))
      have hg0 : m0.get (keyIndex k) = none := by
        have := (ElemMap.get_isSome m0 (keyIndex k)).not.mpr hnm0
        simpa using this
      have hb : fs0 = base := by
        unfold initialElem at hinit
        rw [hg0] at hinit
        simp at hinit
        exact hinit.symm
      subst hb
      exact ⟨m.put (keyIndex k) (.struct fs0), fs0, by simp [elementAt, hg, hbase hnm0], rfl,
        Tracks_refl_of_unmentioned p ks _ fs0 hnk, fun x => ElemMap.put_put m _ _ x⟩
  obtain ⟨m1, fs, hel, hmap, htr, hput⟩ := hel
  obtain ⟨v, hv, hrel⟩ := htr j f v0 hget0
  have hstable : setValue p v k.2.2 = .ok w := by
    cases hl : lastLiteral (fs0.map Prod.fst) ks (keyIndex k) j with
    | none =>
      rw [hl] at hrel
      simp only at hrel
      rw [hrel]
      exact hset
    | some lit =>
      rw [hl] at hrel
      simp only at hrel
      rw [setValue_stable p v0 v lit hrel]
      exact hset
  have hv2 : fs[j]? = some (f, v) := by simpa using hv
  have htf : targetField fs k.2.1 (ToCamelCase k.2.1) = some j := by
    rw [targetField_eq_targetOf, hmap]
    exact htgt
  refine ⟨m.put (keyIndex k) (.struct (fs.set j (f, w))), ?_, ?_, ?_, ?_⟩
  · unfold keyIndex at hel hput
    simp [applyKey, hnot, hel, structFields, htf, hv2, hstable, hput]
    rfl
  · rw [ElemMap.keys_put]
    split
    · exact hnodup
    · rename_i hni
      rw [List.nodup_append]
      refine ⟨hnodup, List.nodup_singleton _, ?_⟩
      intro a ha hb
      simp at hb
      subst hb
      exact hni ha
  · intro i
    rw [ElemMap.keys_put]
    constructor
    · intro hi
      have hi2 : i ∈ m.map Prod.fst ∨ i = keyIndex k := by
        split at hi
        · exact Or.inl hi
        · simpa using hi
      rcases hi2 with hi2 | hi2
      · rcases (hmem i).mp hi2 with h1 | ⟨k2, hk2, hk2i⟩
        · exact Or.inl h1
        · exact Or.inr ⟨k2, List.mem_append_left _ hk2, hk2i⟩
      · exact Or.inr ⟨k, by simp, hi2.symm⟩
    · intro hi
      have hi2 : i ∈ m.map Prod.fst ∨ i = keyIndex k := by
        rcases hi with h1 | ⟨k2, hk2, hk2i⟩
        · exact Or.inl ((hmem i).mpr (Or.inl h1))
        · rcases List.mem_append.mp hk2 with h3 | h3
          · exact Or.inl ((hmem i).mpr (Or.inr ⟨k2, h3, hk2i⟩))
          · simp at h3
            subst h3
            exact Or.inr hk2i.symm
      split
      · rename_i hin
        rcases hi2 with h | h
        · exact h
        · rw [h]; exact hin
      · rcases hi2 with h | h
        · exact List.mem_append_left _ h
        · simp [h]
  · intro i e hge
    rw [ElemMap.get_put] at hge
    by_cases hi : i = keyIndex k
    · subst hi
      simp at hge
      subst hge
      refine ⟨fs0, fs.set j (f, w), hinit, rfl, ?_, Tracks_set p ks k fs0 fs j f v0 w htgt hget0 hset htr⟩
      rw [← hmap]
      apply List.ext_getElem?
      intro n
      simp only [List.getElem?_map, List.getElem?_set]
      by_cases hn : j = n
      · subst hn
        have hlt : j < fs.length := (List.get?_eq_some.mp hv).1
        simp [hlt, hv2]
      · simp [hn]
    · simp [hi] at hge
      obtain ⟨fs0b, fsb, h1, h2, h3, h4⟩ := hvals i e hge
      exact ⟨fs0b, fsb, h1, h2, h3, Tracks_other_index p ks k i fs0b fsb (fun hc => hi hc.symm) h4⟩

theorem keysLoop_reached (p : TimeParsers) (sliceOf : Ty) (m0 : ElemMap)
    (base : List (StructField × Val)) (ks : List Key)
    (hbase : (∃ k ∈ ks, keyIndex k ∉ m0.map Prod.fst) →
      applyDefaultToEmpty p noField (zeroVal sliceOf) = (.struct base, none))
    (hnodup : (m0.map Prod.fst).Nodup)
    (hstruct : ∀ i e, m0.get i = some e → ∃ fs, e = .struct fs)
    (hk : ∀ k ∈ ks, KeyOk p m0 base k) :
    ∃ m, keysLoop p sliceOf ks m0 = .next m ∧ Reached p m0 base ks m := by
  induction ks using List.reverseRecOn with
  | nil =>
    refine ⟨m0, rfl, hnodup, ?_, ?_⟩
    · intro i; simp
    · intro i e he
      obtain ⟨fs, hfs⟩ := hstruct i e he
      subst hfs
      refine ⟨fs, fs, ?_, rfl, rfl, Tracks_refl_of_unmentioned p [] i fs (by simp)⟩
      simp [initialElem, he]
  | append_singleton ks k ih =>
    obtain ⟨m, hm, hr⟩ := ih
      (fun ⟨k2, hk2, hn2⟩ => hbase ⟨k2, List.mem_append_left _ hk2, hn2⟩)
      (fun k2 hk2 => hk k2 (List.mem_append_left _ hk2))
    obtain ⟨m2, hm2, hr2⟩ := applyKey_reached p sliceOf m0 m base ks k
      (fun hn => hbase ⟨k, by simp, hn⟩) hr (hk k (by simp))
    refine ⟨m2, ?_, hr2⟩
    rw [keysLoop_append, hm]
    exact hm2

theorem allValues_eq_some (vs : List (Option Val)) (values : List Val) :
    allValues vs = some values ↔ vs = values.map some := by
  induction vs generalizing values with
  | nil =>
    cases values <;> simp [allValues]
  | cons x rest ih =>
    cases x with
    | none =>
      cases values <;> simp [allValues]
    | some v =>
      simp only [allValues]
      cases hr : allValues rest with
      | none =>
        cases values with
        | nil => simp
        | cons a as =>
          simp only [List.map_cons, List.cons.injEq, Option.some.injEq]
          constructor
          · intro h
            cases h
          · rintro ⟨_, hc⟩
            have := (ih as).mpr hc
            rw [hr] at this
            cases this
      | some ws =>
        have hws := (ih ws).mp hr
        cases values with
        | nil => simp
        | cons a as =>
          simp only [Option.some.injEq, List.cons.injEq, List.map_cons]
          constructor
          · rintro ⟨rfl, rfl⟩
            exact ⟨rfl, hws⟩
          · rintro ⟨rfl, hc⟩
            refine ⟨rfl, ?_⟩
            have := (ih as).mpr hc
            rw [hr] at this
            exact Option.some.inj this

theorem exists_map_some (vs : List (Option Val)) (h : ∀ x ∈ vs, x.isSome = true) :
    ∃ values : List Val, vs = values.map some := by
  induction vs with
  | nil => exact ⟨[], rfl⟩
  | cons x rest ih =>
    obtain ⟨values, hv⟩ := ih (fun y hy => h y (List.mem_cons_of_mem _ hy))
    obtain ⟨v, hx⟩ := Option.isSome_iff_exists.mp (h x (by simp))
    exact ⟨v :: values, by simp [hx, hv]⟩

theorem ElemMap.get_cons_self (a : Nat) (item : Val) (rest : ElemMap) :
    ElemMap.get ((a, item) :: rest) a = some item := by
  simp [ElemMap.get]

theorem ElemMap.get_cons_ne (a i : Nat) (item : Val) (rest : ElemMap) (h : a ≠ i) :
    ElemMap.get ((a, item) :: rest) i = ElemMap.get rest i := by
  simp [ElemMap.get, h]

theorem placeValues_spec (m : ElemMap) (vals : List (Option Val))
    (hnodup : (m.map Prod.fst).Nodup) (hlt : ∀ i ∈ m.map Prod.fst, i < vals.length) :
    ∃ vs, placeValues m vals = some vs ∧ vs.length = vals.length ∧
      ∀ i, vs.get? i = if i ∈ m.map Prod.fst then some (m.get i) else vals.get? i := by
  induction m generalizing vals with
  | nil => exact ⟨vals, rfl, rfl, by simp⟩
  | cons kv rest ih =>
    obtain ⟨a, item⟩ := kv
    have ha : a < vals.length := hlt a (by simp)
    have hnd : (rest.map Prod.fst).Nodup := (List.nodup_cons.mp hnodup).2
    have hna : a ∉ rest.map Prod.fst := (List.nodup_cons.mp hnodup).1
    obtain ⟨vs, hvs, hlen, hget⟩ := ih (vals.set a (some item)) hnd
      (fun i hi => by simpa using hlt i (List.mem_cons_of_mem _ hi))
    refine ⟨vs, by simp [placeValues, ha, hvs], by simpa using hlen, ?_⟩
    intro i
    rw [hget i]
    by_cases hia : i = a
    · subst hia
      simp [hna, ha, ElemMap.get_cons_self]
    · have hai : a ≠ i := fun hc => hia hc.symm
      by_cases hir : i ∈ rest.map Prod.fst
      · have : i ∈ ((a, item) :: rest).map Prod.fst := List.mem_cons_of_mem _ hir
        rw [if_pos hir, if_pos this, ElemMap.get_cons_ne a i item rest hai]
      · have : i ∉ ((a, item) :: rest).map Prod.fst := by
          simp only [List.map_cons, List.mem_cons, not_or]
          exact ⟨hia, hir⟩
        rw [if_neg hir, if_neg this]
        simp [List.getElem?_set, hai]

theorem length_of_exact_keys (keys : List Nat) (n : Nat) (hnodup : keys.Nodup)
    (hkeys : ∀ i, i ∈ keys ↔ i < n) : keys.length = n := by
  have h1 : keys.toFinset = Finset.range n := by
    ext i
    simp [hkeys i]
  have h2 := List.toFinset_card_of_nodup hnodup
  rw [h1, Finset.card_range] at h2
  exact h2.symm

theorem assemble_of_exact_keys (m : ElemMap) (n : Nat) (hnodup : (m.map Prod.fst).Nodup)
    (hkeys : ∀ i, i ∈ m.map Prod.fst ↔ i < n) :
    ∃ values, assemble m = some values ∧ values.length = n ∧
      ∀ i, i < n → values.get? i = m.get i := by
  have hlen : m.length = n := by
    have := length_of_exact_keys (m.map Prod.fst) n hnodup hkeys
    simpa using this
  obtain ⟨vs, hvs, hvlen, hget⟩ := placeValues_spec m (List.replicate m.length none) hnodup
    (fun i hi => by simpa [hlen] using (hkeys i).mp hi)
  have hall : ∀ i, i < n → ∃ v, vs.get? i = some (some v) := by
    intro i hi
    have hmem := (hkeys i).mpr hi
    have hs : (m.get i).isSome := (ElemMap.get_isSome m i).mpr hmem
    obtain ⟨v, hv⟩ := Option.isSome_iff_exists.mp hs
    exact ⟨v, by rw [hget i, if_pos hmem, hv]⟩
  have hvn : vs.length = n := by simpa [hlen] using hvlen
  -- every slot is filled
  have hex : ∃ values : List Val, vs = values.map some := by
    apply exists_map_some
    intro x hx
    obtain ⟨i, hi, hxi⟩ := List.getElem_of_mem hx
    obtain ⟨v, hv⟩ := hall i (by omega)
    have : vs.get? i = some x := by simp [hi, hxi]
    rw [this] at hv
    cases hv
    rfl
  obtain ⟨values, hval⟩ := hex
  refine ⟨values, ?_, ?_, ?_⟩
  · unfold assemble
    rw [hvs]
    exact (allValues_eq_some vs values).mpr hval
  · have := congrArg List.length hval
    simp at this
    omega
  · intro i hi
    have h1 := hget i
    rw [if_pos ((hkeys i).mpr hi), hval] at h1
    simp only [List.get?_eq_getElem?, List.getElem?_map] at h1
    cases hv : values[i]? with
    | none => rw [hv] at h1; simp at h1
    | some v =>
      rw [hv] at h1
      simp at h1
      simp [hv, h1]

theorem applyDefaultToEmptyFields_spec (p : TimeParsers) (fs fs2 : List (StructField × Val))
    (h : applyDefaultToEmptyFields p fs = (fs2, none)) :
    fs2.map Prod.fst = fs.map Prod.fst ∧
    ∀ j f v, fs.get? j = some (f, v) →
      ∃ w, fs2.get? j = some (f, w) ∧ applyDefaultToEmpty p f v = (w, none) := by
  induction fs generalizing fs2 with
  | nil =>
    simp [applyDefaultToEmptyFields] at h
    subst h
    simp
  | cons fv rest ih =>
    obtain ⟨f0, v0⟩ := fv
    simp only [applyDefaultToEmptyFields] at h
    cases hd : applyDefaultToEmpty p f0 v0 with
    | mk w0 err =>
      cases err with
      | some e => rw [hd] at h; simp at h
      | none =>
        rw [hd] at h
        simp only [Prod.mk.injEq] at h
        obtain ⟨h1, h2⟩ := h
        have hrest : applyDefaultToEmptyFields p rest = ((applyDefaultToEmptyFields p rest).1, none) := by
          rw [← h2]
        obtain ⟨hm, hg⟩ := ih _ hrest
        subst h1
        refine ⟨by simp [hm], ?_⟩
        intro j f v hj
        cases j with
        | zero =>
          simp at hj
          obtain ⟨rfl, rfl⟩ := hj
          exact ⟨w0, by simp, hd⟩
        | succ j =>
          simp at hj
          obtain ⟨w, hw, hw2⟩ := hg j f v (by simpa using hj)
          exact ⟨w, by simpa using hw, hw2⟩

theorem applyDefaultToEmpty_leaf (p : TimeParsers) (f : StructField) (v w : Val)
    (hns : ∀ fs, v ≠ .struct fs) (hnt : ∀ t, v ≠ .time t)
    (h : applyDefaultToEmpty p f v = (w, none)) :
    if isEmpty v = true then
      (match f.Lookup "default" with
        | none => w = v
        | some d => setValue p v d = .ok w)
    else w = v := by
  have key : (if (!isEmpty v) = true then (v, (none : Option Err))
      else match f.Lookup "default" with
        | none => (v, none)
        | some value =>
          match setValue p v value with
          | .ok w => (w, none)
          | .error e => (v, some e)) = (w, none) := by
    cases v <;> first
      | exact absurd rfl (hns _)
      | exact absurd rfl (hnt _)
      | simpa [applyDefaultToEmpty] using h
  by_cases he : isEmpty v = true
  · rw [if_pos he]
    simp only [he, Bool.not_true, Bool.false_eq_true, if_false] at key
    cases hd : f.Lookup "default" with
    | none =>
      rw [hd] at key
      simp only [Prod.mk.injEq, and_true] at key
      exact key.symm
    | some d =>
      rw [hd] at key
      simp only at key ⊢
      cases hs : setValue p v d with
      | error e => rw [hs] at key; simp at key
      | ok x =>
        rw [hs] at key
        simp only [Prod.mk.injEq, and_true] at key
        rw [key]
  · rw [if_neg he]
    have he2 : isEmpty v = false := by simpa using he
    simp only [he2, Bool.not_false, if_true, Prod.mk.injEq, and_true] at key
    exact key.symm

theorem applyDefaultToEmpty_time (p : TimeParsers) (f : StructField) (t : GoTime) :
    applyDefaultToEmpty p f (.time t) = (.time t, none) := by
  simp [applyDefaultToEmpty]

theorem applyDefaultToEmpty_setValue (p : TimeParsers) (f : StructField) (v w : Val)
    (hns : ∀ fs, v ≠ .struct fs) (h : applyDefaultToEmpty p f v = (w, none)) (s : String) :
    setValue p w s = setValue p v s := by
  by_cases hnt : ∀ t, v ≠ .time t
  · have hl := applyDefaultToEmpty_leaf p f v w hns hnt h
    split at hl
    · cases hd : f.Lookup "default" with
      | none => rw [hd] at hl; simp only at hl; rw [hl]
      | some d => rw [hd] at hl; simp only at hl; exact setValue_stable p v w d hl s
    · rw [hl]
  · push_neg at hnt
    obtain ⟨t, rfl⟩ := hnt
    rw [applyDefaultToEmpty_time] at h
    cases h
    rfl

theorem setValue_struct (p : TimeParsers) (fs : List (StructField × Val)) (s : String) :
    setValue p (.struct fs) s = .ok (.struct fs) := by
  simp [setValue, isTimeTyped, isTimeDurationTyped, isDurationTyped]

theorem applyDefaultToEmpty_struct (p : TimeParsers) (f : StructField)
    (fs : List (StructField × Val)) :
    applyDefaultToEmpty p f (.struct fs)
      = (.struct (applyDefaultToEmptyFields p fs).1, (applyDefaultToEmptyFields p fs).2) := by
  simp [applyDefaultToEmpty]

theorem applyDefaultToEmpty_setValue_ok (p : TimeParsers) (f : StructField) (v w x : Val)
    (s : String) (h : applyDefaultToEmpty p f v = (w, none)) (hs : setValue p v s = .ok x) :
    ∃ y, setValue p w s = .ok y := by
  by_cases hns : ∀ fs, v ≠ .struct fs
  · exact ⟨x, by rw [applyDefaultToEmpty_setValue p f v w hns h s]; exact hs⟩
  · push_neg at hns
    obtain ⟨fs, rfl⟩ := hns
    rw [applyDefaultToEmpty_struct] at h
    simp only [Prod.mk.injEq] at h
    rw [← h.1]
    exact ⟨_, setValue_struct p _ s⟩

theorem zeroFields_get (tys : List (StructField × Ty)) (j : Nat) :
    (zeroFields tys).get? j = (tys.get? j).map (fun ft => (ft.1, zeroVal ft.2)) := by
  induction tys generalizing j with
  | nil => simp [zeroFields]
  | cons ft rest ih =>
    obtain ⟨f, t⟩ := ft
    cases j with
    | zero => simp [zeroFields]
    | succ j => simpa [zeroFields] using ih j

theorem zeroFields_map_fst (tys : List (StructField × Ty)) :
    (zeroFields tys).map Prod.fst = tys.map Prod.fst := by
  induction tys with
  | nil => simp [zeroFields]
  | cons ft rest ih =>
    obtain ⟨f, t⟩ := ft
    simp [zeroFields, ih]

theorem isEmpty_zeroVal (t : Ty) (h : ∀ fs, t ≠ .Struct fs) : isEmpty (zeroVal t) = true := by
  cases t <;> first
    | exact absurd rfl (h _)
    | simp [zeroVal, isEmpty]

theorem seedLoop_ok (p : TimeParsers) (xs : List Val)
    (h : ∀ x ∈ xs, isPtrKind x = false ∧ (applyDefaultToEmpty p noField x).2 = none) :
    seedLoop p xs = .ok (xs.map (fun x => (applyDefaultToEmpty p noField x).1)) := by
  induction xs with
  | nil => rfl
  | cons x rest ih =>
    obtain ⟨h1, h2⟩ := h x (by simp)
    have ihr := ih (fun y hy => h y (List.mem_cons_of_mem _ hy))
    cases hd : applyDefaultToEmpty p noField x with
    | mk w err =>
      rw [hd] at h2
      simp only at h2
      subst h2
      simp [seedLoop, h1, hd, ihr]

/-- The run on a nil slice of a struct type, field by field, in terms of what `setValue`
returns: when the keys mention exactly the indices 0..n-1 (n at least 1), every
token names a field and `setValue` accepts every value and every default, the call
returns a slice of length n; in element i a field named by a key holds what
`setValue` gives for the value of the last such key; any other field is zero when
it carries no default annotation and, unless it is a timestamp, holds what
`setValue` gives for its default when it carries one. -/
theorem nil_slice_run_field_by_field (p : TimeParsers) (envs : List String) (pfx : String)
    (tys : List (StructField × Ty)) (n : Nat)
    (hpfx : pfx ≠ "")
    (hn : 1 ≤ n)
    (hidx : ∀ i, (∃ k ∈ keysOf pfx envs, keyIndex k = i) ↔ i < n)
    (hdefaults : (applyDefaultToEmpty p noField (zeroVal (.Struct tys))).2 = none)
    (hkeys : ∀ k ∈ keysOf pfx envs, keyIndex k < 2 ^ 63 ∧
      ∃ j f t w, targetOf (tys.map Prod.fst) k.2.1 = some j ∧ tys.get? j = some (f, t)
        ∧ setValue p (zeroVal t) k.2.2 = .ok w) :
    ∃ elems, applyEnvOverridesToSlice p envs pfx (.rvalue true (.nilSlice (.Struct tys)))
        = .done (.rvalue true (.slice (.Struct tys) elems))
      ∧ elems.length = n
      ∧ ∀ i, i < n → ∃ fs, elems.get? i = some (.struct fs) ∧
          ∀ j f t, tys.get? j = some (f, t) → ∃ v, fs.get? j = some (f, v) ∧
            (∀ lit, lastLiteral (tys.map Prod.fst) (keysOf pfx envs) i j = some lit →
              (∀ us, t ≠ .Struct us) → setValue p (zeroVal t) lit = .ok v)
            ∧ (lastLiteral (tys.map Prod.fst) (keysOf pfx envs) i j = none →
              (∀ us, t ≠ .Struct us) →
              match f.Lookup "default" with
              | none => v = zeroVal t
              | some d => t ≠ .Time → setValue p (zeroVal t) d = .ok v) := by
  -- the default-filled zero element
  have hbase : applyDefaultToEmpty p noField (zeroVal (.Struct tys))
      = (.struct (applyDefaultToEmptyFields p (zeroFields tys)).1, none) := by
    rw [zeroVal, applyDefaultToEmpty_struct] at hdefaults ⊢
    simp only at hdefaults
    rw [hdefaults]
  generalize hb : (applyDefaultToEmptyFields p (zeroFields tys)).1 = base at hbase
  have hbf : applyDefaultToEmptyFields p (zeroFields tys) = (base, none) := by
    rw [zeroVal, applyDefaultToEmpty_struct] at hdefaults
    simp only at hdefaults
    rw [← hb, ← hdefaults]
  obtain ⟨hbmap, hbget⟩ := applyDefaultToEmptyFields_spec p _ _ hbf
  rw [zeroFields_map_fst] at hbmap
  have hfield : ∀ j f t, tys.get? j = some (f, t) →
      ∃ b, base.get? j = some (f, b) ∧ applyDefaultToEmpty p f (zeroVal t) = (b, none) := by
    intro j f t hj
    exact hbget j f (zeroVal t) (by rw [zeroFields_get, hj]; rfl)
  -- every key can be applied
  have hok : ∀ k ∈ keysOf pfx envs, KeyOk p [] base k := by
    intro k hk
    obtain ⟨h63, j, f, t, w, htgt, hty, hset⟩ := hkeys k hk
    obtain ⟨b, hb1, hb2⟩ := hfield j f t hty
    obtain ⟨y, hy⟩ := applyDefaultToEmpty_setValue_ok p f (zeroVal t) b w k.2.2 hb2 hset
    exact ⟨h63, base, j, f, b, y, rfl, by rw [hbmap]; exact htgt, hb1, hy⟩
  obtain ⟨m, hm, hnodup, hmem, hvals⟩ := keysLoop_reached p (.Struct tys) [] base
    (keysOf pfx envs) (fun _ => hbase) (by simp) (by intro i e he; simp [ElemMap.get] at he) hok
  have hexact : ∀ i, i ∈ m.map Prod.fst ↔ i < n := by
    intro i
    rw [hmem i, ← hidx i]
    simp
  obtain ⟨values, hasm, hlen, hget⟩ := assemble_of_exact_keys m n hnodup hexact
  have hmlen : m.length = n := by
    simpa using length_of_exact_keys (m.map Prod.fst) n hnodup hexact
  have hc : checkDst pfx (.rvalue true (.nilSlice (.Struct tys)))
      = .ok (true, .nilSlice (.Struct tys), .Struct tys) := by
    simp [checkDst, hpfx, dstValue, indirectWalk, sliceElem]
  refine ⟨values, ?_, hlen, ?_⟩
  · rw [applyEnvOverridesToSlice_eq p envs pfx _ _ _ _ [] hc rfl, seedLoop_nil]
    simp only [List.enum_nil]
    rw [envLoop_eq_keysLoop, hm]
    have hm0 : ¬ m.length = 0 := by omega
    simp [finish, hm0, hasm, setPtrValue, Dst.withValue]
  · intro i hi
    have hs : (m.get i).isSome := (ElemMap.get_isSome m i).mpr ((hexact i).mpr hi)
    obtain ⟨e, he⟩ := Option.isSome_iff_exists.mp hs
    obtain ⟨fs0, fs, hinit, hefs, hmap, htr⟩ := hvals i e he
    have hfs0 : fs0 = base := by
      simp [initialElem, ElemMap.get] at hinit
      exact hinit.symm
    subst hfs0
    subst hefs
    refine ⟨fs, by rw [hget i hi, he], ?_⟩
    intro j f t hj
    obtain ⟨b, hb1, hb2⟩ := hfield j f t hj
    obtain ⟨v, hv, hrel⟩ := htr j f b hb1
    rw [hbmap] at hrel
    refine ⟨v, hv, ?_, ?_⟩
    · intro lit hl hns
      rw [hl] at hrel
      simp only at hrel
      have hz : ∀ gs, zeroVal t ≠ .struct gs := by
        intro gs hc
        cases t <;> simp [zeroVal] at hc
        exact hns _ rfl
      rw [← applyDefaultToEmpty_setValue p f (zeroVal t) b hz hb2 lit]
      exact hrel
    · intro hl hns
      rw [hl] at hrel
      simp only at hrel
      subst hrel
      have hz : ∀ gs, zeroVal t ≠ .struct gs := by
        intro gs hc
        cases t <;> simp [zeroVal] at hc
        exact hns _ rfl
      by_cases hnt : t = .Time
      · subst hnt
        rw [zeroVal, applyDefaultToEmpty_time] at hb2
        have hv0 : v = zeroVal .Time := (Prod.mk.inj hb2).1.symm
        cases hd : f.Lookup "default" with
        | none => exact hv0
        | some d => exact fun hc => absurd rfl hc
      · have hzt : ∀ tm, zeroVal t ≠ .time tm := by
          intro tm hc
          cases t <;> simp [zeroVal] at hc
          exact hnt rfl
        have hl2 := applyDefaultToEmpty_leaf p f (zeroVal t) v hz hzt hb2
        rw [if_pos (isEmpty_zeroVal t hns)] at hl2
        cases hd : f.Lookup "default" with
        | none => rw [hd] at hl2; exact hl2
        | some d => rw [hd] at hl2; exact fun _ => hl2

theorem ElemMap.get_enumFrom (xs : List Val) (s i : Nat) :
    ElemMap.get (xs.enumFrom s) i = if s ≤ i then xs.get? (i - s) else none := by
  induction xs generalizing s with
  | nil => simp [ElemMap.get]
  | cons x rest ih =>
    by_cases hsi : s = i
    · subst hsi
      simp [ElemMap.get]
    · rw [List.enumFrom_cons, ElemMap.get_cons_ne s i x _ hsi, ih (s + 1)]
      by_cases hle : s ≤ i
      · have h1 : s + 1 ≤ i := by omega
        have h2 : i - s = (i - (s + 1)) + 1 := by omega
        rw [if_pos h1, if_pos hle, h2]
        simp
      · have h1 : ¬ s + 1 ≤ i := by omega
        rw [if_neg h1, if_neg hle]

theorem ElemMap.get_enum (xs : List Val) (i : Nat) : ElemMap.get xs.enum i = xs.get? i := by
  unfold List.enum
  rw [ElemMap.get_enumFrom]
  simp

theorem enum_keys (xs : List Val) : (xs.enum).map Prod.fst = List.range xs.length := by
  simp [List.enum_map_fst]

/-- The run on an existing slice of structs, field by field, in terms of what
`setValue` returns: when every key mentions an index below its length, every token
names a field and `setValue` accepts every value and every default, the call
returns a slice of the same length; in element i a field named by a key holds
what `setValue` gives for the value of the last such key; any other field keeps its
value when that is non-empty or when it carries no default annotation and, unless
it is a timestamp, holds what `setValue` gives for its default when it is empty
and carries one. -/
theorem existing_slice_run_field_by_field (p : TimeParsers) (envs : List String)
    (pfx : String) (e : Ty) (xs : List Val)
    (hpfx : pfx ≠ "")
    (hstruct : ∀ x ∈ xs, ∃ fs, x = .struct fs)
    (hdefaults : ∀ x ∈ xs, (applyDefaultToEmpty p noField x).2 = none)
    (hkeys : ∀ k ∈ keysOf pfx envs, keyIndex k < 2 ^ 63 ∧
      ∃ fs j f x w, xs.get? (keyIndex k) = some (.struct fs)
        ∧ targetOf (fs.map Prod.fst) k.2.1 = some j ∧ fs.get? j = some (f, x)
        ∧ setValue p x k.2.2 = .ok w) :
    ∃ elems, applyEnvOverridesToSlice p envs pfx (.rvalue true (.slice e xs))
        = .done (.rvalue true (.slice e elems))
      ∧ elems.length = xs.length
      ∧ ∀ i fs0, xs.get? i = some (.struct fs0) → ∃ fs, elems.get? i = some (.struct fs) ∧
          ∀ j f x, fs0.get? j = some (f, x) → ∃ v, fs.get? j = some (f, v) ∧
            (∀ lit, lastLiteral (fs0.map Prod.fst) (keysOf pfx envs) i j = some lit →
              (∀ gs, x ≠ .struct gs) → setValue p x lit = .ok v)
            ∧ (lastLiteral (fs0.map Prod.fst) (keysOf pfx envs) i j = none →
              (∀ gs, x ≠ .struct gs) →
              if isEmpty x = true then
                (match f.Lookup "default" with
                  | none => v = x
                  | some d => (∀ t, x ≠ .time t) → setValue p x d = .ok v)
              else v = x) := by
  -- seeding
  have hseed := seedLoop_ok p xs (fun x hx => by
    obtain ⟨fs, rfl⟩ := hstruct x hx
    exact ⟨rfl, hdefaults _ hx⟩)
  generalize hsd : xs.map (fun x => (applyDefaultToEmpty p noField x).1) = seeded at hseed
  have hslen : seeded.length = xs.length := by rw [← hsd]; simp
  -- each seeded element, field by field
  have hel : ∀ i fs0, xs.get? i = some (.struct fs0) →
      ∃ fs1, seeded.get? i = some (.struct fs1) ∧ fs1.map Prod.fst = fs0.map Prod.fst ∧
        ∀ j f x, fs0.get? j = some (f, x) →
          ∃ s, fs1.get? j = some (f, s) ∧ applyDefaultToEmpty p f x = (s, none) := by
    intro i fs0 hi
    have hmemx : Val.struct fs0 ∈ xs := List.get?_mem hi
    have hd := hdefaults _ hmemx
    rw [applyDefaultToEmpty_struct] at hd
    simp only at hd
    have hf : applyDefaultToEmptyFields p fs0 = ((applyDefaultToEmptyFields p fs0).1, none) := by
      rw [← hd]
    obtain ⟨h1, h2⟩ := applyDefaultToEmptyFields_spec p _ _ hf
    refine ⟨(applyDefaultToEmptyFields p fs0).1, ?_, h1, h2⟩
    rw [← hsd]
    simp only [List.get?_eq_getElem?, List.getElem?_map] at hi ⊢
    rw [hi]
    simp [applyDefaultToEmpty_struct]
  have hm0get : ∀ i, ElemMap.get seeded.enum i = seeded.get? i := ElemMap.get_enum seeded
  have hm0keys : ∀ i, i ∈ (seeded.enum).map Prod.fst ↔ i < xs.length := by
    intro i
    rw [enum_keys, hslen]
    simp
  -- every key can be applied
  have hok : ∀ k ∈ keysOf pfx envs, KeyOk p seeded.enum [] k := by
    intro k hk
    obtain ⟨h63, fs, j, f, x, w, hx, htgt, hf, hset⟩ := hkeys k hk
    obtain ⟨fs1, hs1, hmap1, hfields⟩ := hel _ fs hx
    obtain ⟨s, hs, hsx⟩ := hfields j f x hf
    obtain ⟨y, hy⟩ := applyDefaultToEmpty_setValue_ok p f x s w k.2.2 hsx hset
    refine ⟨h63, fs1, j, f, s, y, ?_, by rw [hmap1]; exact htgt, hs, hy⟩
    unfold initialElem
    rw [hm0get, hs1]
    rfl
  have hin : ∀ k ∈ keysOf pfx envs, keyIndex k < xs.length := by
    intro k hk
    obtain ⟨_, fs, j, f, x, w, hx, _⟩ := hkeys k hk
    exact (List.get?_eq_some.mp hx).1
  obtain ⟨m, hm, hnodup, hmem, hvals⟩ := keysLoop_reached p e seeded.enum []
    (keysOf pfx envs)
    (fun ⟨k, hk, hn⟩ => absurd ((hm0keys _).mpr (hin k hk)) hn)
    (by rw [enum_keys]; exact List.nodup_range _)
    (by
      intro i x hx
      rw [hm0get] at hx
      have hlt : i < xs.length := by
        have := (List.get?_eq_some.mp hx).1
        omega
      obtain ⟨fs0, hfs0⟩ := hstruct (xs.get ⟨i, hlt⟩) (List.get_mem _ _ _)
      obtain ⟨fs1, h1, _⟩ := hel i fs0 (by rw [← hfs0]; simp [List.get?_eq_get hlt])
      rw [h1] at hx
      exact ⟨fs1, (Option.some.inj hx).symm⟩)
    hok
  have hexact : ∀ i, i ∈ m.map Prod.fst ↔ i < xs.length := by
    intro i
    rw [hmem i, hm0keys i]
    constructor
    · rintro (h | ⟨k, hk, rfl⟩)
      · exact h
      · exact hin k hk
    · exact fun h => Or.inl h
  obtain ⟨values, hasm, hlen, hget⟩ := assemble_of_exact_keys m xs.length hnodup hexact
  have hmlen : m.length = xs.length := by
    simpa using length_of_exact_keys (m.map Prod.fst) xs.length hnodup hexact
  have hc : checkDst pfx (.rvalue true (.slice e xs)) = .ok (true, .slice e xs, e) := by
    simp [checkDst, hpfx, dstValue, indirectWalk, sliceElem]
  refine ⟨values, ?_, hlen, ?_⟩
  · rw [applyEnvOverridesToSlice_eq p envs pfx _ _ _ _ xs hc rfl, hseed]
    simp only
    rw [envLoop_eq_keysLoop, hm]
    by_cases hm0 : m.length = 0
    · have hx0 : xs = [] := List.length_eq_zero.mp (by omega)
      have hv0 : values = [] := List.length_eq_zero.mp (by omega)
      simp [finish, hm0, hx0, hv0]
    · simp [finish, hm0, hasm, setPtrValue, Dst.withValue]
  · intro i fs0 hi
    have hlt : i < xs.length := (List.get?_eq_some.mp hi).1
    have hs : (m.get i).isSome := (ElemMap.get_isSome m i).mpr ((hexact i).mpr hlt)
    obtain ⟨el, hel2⟩ := Option.isSome_iff_exists.mp hs
    obtain ⟨fsa, fs, hinit, hefs, hmap, htr⟩ := hvals i el hel2
    obtain ⟨fs1, hs1, hmap1, hfields⟩ := hel i fs0 hi
    have hfsa : fsa = fs1 := by
      unfold initialElem at hinit
      rw [hm0get, hs1] at hinit
      exact (Val.struct.inj hinit).symm
    subst hfsa
    subst hefs
    refine ⟨fs, by rw [hget i hlt, hel2], ?_⟩
    intro j f x hj
    obtain ⟨s, hs, hsx⟩ := hfields j f x hj
    obtain ⟨v, hv, hrel⟩ := htr j f s hs
    rw [hmap1] at hrel
    refine ⟨v, hv, ?_, ?_⟩
    · intro lit hl hns
      rw [hl] at hrel
      simp only at hrel
      rw [← applyDefaultToEmpty_setValue p f x s hns hsx lit]
      exact hrel
    · intro hl hns
      rw [hl] at hrel
      simp only at hrel
      subst hrel
      by_cases hnt : ∀ t, x ≠ .time t
      · have hl2 := applyDefaultToEmpty_leaf p f x v hns hnt hsx
        by_cases he : isEmpty x = true
        · rw [if_pos he] at hl2 ⊢
          cases hd : f.Lookup "default" with
          | none => rw [hd] at hl2; exact hl2
          | some d => rw [hd] at hl2; exact fun _ => hl2
        · rw [if_neg he] at hl2 ⊢
          exact hl2
      · push_neg at hnt
        obtain ⟨t, rfl⟩ := hnt
        rw [applyDefaultToEmpty_time] at hsx
        have hv0 : v = .time t := (Prod.mk.inj hsx).1.symm
        split
        · cases hd : f.Lookup "default" with
          | none => exact hv0
          | some d => exact fun hc => absurd rfl (hc t)
        · exact hv0

/-! ### Worked runs of the tests of the repository -/

/-- Test "fill with env values" of configuration_test.go, direct slice field. -/
theorem fill_with_env_values :
    applyEnvOverridesToSlice sampleParsers
        ["APP_0_ADDR=localhost", "APP_0_TIMEOUT=1m", "APP_1_TIMEOUT=2m"] "APP"
        (.rvalue true (.nilSlice payloadTy))
      = .done (.rvalue true (.slice payloadTy
          [payload "localhost" "" minute, payload "0.0.0.0" "" (2 * minute)])) := by
  rfl

/-- Test "merge with env values" of configuration_test.go, pointer field. -/
theorem merge_with_env_values :
    applyEnvOverridesToSlice sampleParsers
        ["APP_0_ADDR=localhost", "APP_0_TIMEOUT=1m", "APP_1_TIMEOUT=2m"] "APP"
        (.rvalue true (.ptrTo (.slice payloadTy
          [payload "" "" (10 * minute), payload "" "" (20 * minute),
            payload "" "" (30 * minute)])))
      = .done (.rvalue true (.ptrTo (.slice payloadTy
          [payload "localhost" "" minute, payload "0.0.0.0" "" (2 * minute),
            payload "0.0.0.0" "" (30 * minute)]))) := by
  rfl

/-- Test "fail on time.ParseDuration" of apply_env_overrides_test.go. -/
theorem fail_on_parse_duration :
    applyEnvOverridesToSlice sampleParsers
        ["PREFIX_S_0_ADDR=localhost", "PREFIX_S_0_TIMEOUT=localhost"] "PREFIX_S"
        (.iface (some (.ptrTo (.nilSlice payloadTy))))
      = .fail (.parseFailed "localhost" "time.Duration")
          (.iface (some (.ptrTo (.nilSlice payloadTy)))) := by
  rfl

/-! ### The claims -/

/-- A default-annotated timestamp in a new element: a nil slice of
`struct { Name string; Created time.Time "default:2019-07-07T20:00:00Z" }` and the one
entry APP_0_NAME=boot give one element whose Created is the zero time:
applyDefaultToEmpty walks into the timestamp instead of treating it as a leaf,
whereas applyDefault on the same zero element assigns the default. -/
theorem timestamp_default_skipped_in_new_element :
    applyEnvOverridesToSlice sampleParsers ["APP_0_NAME=boot"] "APP"
        (.rvalue true (.nilSlice eventTy))
      = .done (.rvalue true (.slice eventTy [event "boot" zeroTime]))
    ∧ applyDefault sampleParsers noField (zeroVal eventTy) = (event "" july2019, none)
    ∧ july2019 ≠ zeroTime := by
  refine ⟨rfl, rfl, by decide⟩

/-- A default-annotated timestamp in existing elements: two events whose Created
fields are empty (the zero time) keep them at the zero time. -/
theorem timestamp_default_skipped_in_existing_element :
    applyEnvOverridesToSlice sampleParsers ["APP_0_NAME=boot"] "APP"
        (.rvalue true (.slice eventTy [event "" zeroTime, event "halt" zeroTime]))
      = .done (.rvalue true (.slice eventTy [event "boot" zeroTime, event "halt" zeroTime]))
    ∧ isEmpty (.time zeroTime) = true
    ∧ createdField.Lookup "default" = some "2019-07-07T20:00:00Z"
    ∧ setValue sampleParsers (.time zeroTime) "2019-07-07T20:00:00Z" = .ok (.time july2019) := by
  refine ⟨rfl, rfl, rfl, rfl⟩

/-- C1 (counterexample): on a nil slice of Payload the keys APP_0_HOST=a and
APP_0_ADDR_RENAMED=b mention exactly the index 0 and both name AddrRenamed, the
first by annotation and the second by derived name; both values coerce, to
different strings; the field holds the second, so it is not equal to the coerced
value of the key APP_0_HOST. -/
theorem C1_counterexample :
    keysOf "APP" ["APP_0_HOST=a", "APP_0_ADDR_RENAMED=b"]
      = [("0", "HOST", "a"), ("0", "ADDR_RENAMED", "b")]
    ∧ targetOf [addrField, addrRenamedField, timeoutField] "HOST" = some 1
    ∧ targetOf [addrField, addrRenamedField, timeoutField] "ADDR_RENAMED" = some 1
    ∧ setValue sampleParsers (.str "") "a" = .ok (.str "a")
    ∧ applyEnvOverridesToSlice sampleParsers ["APP_0_HOST=a", "APP_0_ADDR_RENAMED=b"] "APP"
        (.rvalue true (.nilSlice payloadTy))
      = .done (.rvalue true (.slice payloadTy [payload "0.0.0.0" "b" 0]))
    ∧ Val.str "b" ≠ Val.str "a" := by
  refine ⟨rfl, rfl, rfl, rfl, rfl, ?_⟩
  intro h
  exact absurd (Val.str.inj h) (by decide)

/-- C2 (counterexample): on an existing slice of one Payload the keys APP_0_HOST=a
and APP_0_ADDR_RENAMED=b both name AddrRenamed of element 0; the field holds
"b", so it is not the coerced value of the key APP_0_HOST that names it. -/
theorem C2_counterexample :
    keysOf "APP" ["APP_0_HOST=a", "APP_0_ADDR_RENAMED=b"]
      = [("0", "HOST", "a"), ("0", "ADDR_RENAMED", "b")]
    ∧ targetOf [addrField, addrRenamedField, timeoutField] "HOST" = some 1
    ∧ setValue sampleParsers (.str "old") "a" = .ok (.str "a")
    ∧ applyEnvOverridesToSlice sampleParsers ["APP_0_HOST=a", "APP_0_ADDR_RENAMED=b"] "APP"
        (.rvalue true (.slice payloadTy [payload "here" "old" (10 * minute)]))
      = .done (.rvalue true (.slice payloadTy [payload "here" "b" (10 * minute)]))
    ∧ Val.str "b" ≠ Val.str "a" := by
  refine ⟨rfl, rfl, rfl, rfl, ?_⟩
  intro h
  exact absurd (Val.str.inj h) (by decide)

/-- C3 (the code at a failing input): with keys for the indices 0 and 2 only on a
nil slice, and with a key for index 5 on a slice of length 1, the call panics: the
mapping has two entries, `values` has two slots, and `values[2]` (or `values[5]`)
is outside it. -/
theorem C3_index_gap_panics :
    applyEnvOverridesToSlice sampleParsers ["APP_0_ADDR=a", "APP_2_ADDR=b"] "APP"
        (.rvalue true (.nilSlice payloadTy)) = .panic
    ∧ applyEnvOverridesToSlice sampleParsers ["APP_5_ADDR=b"] "APP"
        (.rvalue true (.slice payloadTy [payload "a" "" 0])) = .panic
    ∧ envLoop sampleParsers "APP" payloadTy ["APP_0_ADDR=a", "APP_2_ADDR=b"] []
        = .next [(0, payload "a" "" 0), (2, payload "b" "" 0)]
    ∧ placeValues [(0, payload "a" "" 0), (2, payload "b" "" 0)] [none, none] = none := by
  refine ⟨rfl, rfl, rfl, rfl⟩

/-- With checks passed (a non-empty prefix among them), no existing element and no
entry in which the search of the key pattern finds a match, the call returns no
error and the destination is what it was. -/
theorem empty_mapping_leaves_destination (p : TimeParsers) (envs : List String)
    (pfx : String) (dst : Dst) (canSet : Bool) (rv : Val) (sliceOf : Ty)
    (hlit : regexLiteral pfx = true)
    (hcheck : checkDst pfx dst = .ok (canSet, rv, sliceOf))
    (hnone : existingOf rv = some [])
    (hmatch : ∀ kv ∈ envs, HasPrefix kv pfx = true → FindStringSubmatch pfx kv = none) :
    applyEnvOverridesToSlice p envs pfx dst = .done dst := by
  have _ := hlit
  simp [applyEnvOverridesToSlice, hcheck, hnone, seedLoop, envLoop_no_match p pfx sliceOf envs _ hmatch,
    finish]

/-- A nil slice stays a nil slice and a nil pointer-to-slice stays a nil pointer,
under an environment whose entries start with the prefix or not. -/
theorem empty_mapping_examples :
    applyEnvOverridesToSlice sampleParsers ["HOME=/root", "APP_NAME=demo"] "APP"
        (.rvalue true (.nilSlice payloadTy)) = .done (.rvalue true (.nilSlice payloadTy))
    ∧ applyEnvOverridesToSlice sampleParsers ["HOME=/root", "APP_NAME=demo"] "APP"
        (.rvalue true (.nilPtr (.Slice payloadTy)))
        = .done (.rvalue true (.nilPtr (.Slice payloadTy))) :=
  ⟨empty_mapping_leaves_destination sampleParsers ["HOME=/root", "APP_NAME=demo"] "APP"
      (.rvalue true (.nilSlice payloadTy)) true (.nilSlice payloadTy) payloadTy (by decide)
      rfl rfl (by decide),
    empty_mapping_leaves_destination sampleParsers ["HOME=/root", "APP_NAME=demo"] "APP"
      (.rvalue true (.nilPtr (.Slice payloadTy))) true (.nilPtr (.Slice payloadTy)) payloadTy
      (by decide) rfl rfl (by decide)⟩

/-- C5: for an entry the pattern matches, with the element at its index looked up or
created, the field written is the one the token resolves to, by annotation first
and by derived name only when no field declares the annotation; nothing else of
the mapping changes. -/
theorem C5_annotation_first_then_name (p : TimeParsers) (pfx : String) (sliceOf : Ty)
    (m m1 : ElemMap) (keyVal digits token value : String)
    (fs : List (StructField × Val)) (j : Nat) (f : StructField) (old w : Val)
    (hpre : HasPrefix keyVal pfx = true)
    (hmatch : FindStringSubmatch pfx keyVal = some (digits, token, value))
    (hidx : digitsValue digits.data < 2 ^ 63)
    (hel : elementAt p sliceOf m (digitsValue digits.data) = .ok (m1, .struct fs))
    (hres : resolvesTo fs token j)
    (hold : fs.get? j = some (f, old))
    (hset : setValue p old value = .ok w) :
    applyEntry p pfx sliceOf m keyVal
      = .next (m1.put (digitsValue digits.data) (.struct (fs.set j (f, w)))) := by
  have hnot : ¬ (9223372036854775808 ≤ digitsValue digits.data) := by
    norm_num at hidx
    omega
  have hold2 : fs[j]? = some (f, old) := by simpa using hold
  simp [applyEntry, matchEntry, applyKey, hpre, hmatch, hnot, hel, structFields,
    targetField_of_resolvesTo fs token j hres, hold2, hset]

/-- Witness of C5: in `struct { Host string "envconfig:ADDR"; Addr string }` the
token ADDR names Host by annotation and Addr by derived name, and Host is written;
in Payload the token ADDR_RENAMED, which no field declares, is resolved by the
derived name AddrRenamed. -/
theorem C5_witness :
    applyEntry sampleParsers "APP" (.Struct []) [(0, .struct (crossedFields "h" "a"))]
        "APP_0_ADDR=x"
      = .next [(0, .struct (crossedFields "x" "a"))]
    ∧ applyEntry sampleParsers "APP" payloadTy [(0, payload "0.0.0.0" "localhost" 0)]
        "APP_1_ADDR_RENAMED=localhost2"
      = .next [(0, payload "0.0.0.0" "localhost" 0), (1, payload "0.0.0.0" "localhost2" 0)] :=
  ⟨C5_annotation_first_then_name sampleParsers "APP" (.Struct [])
      [(0, .struct (crossedFields "h" "a"))] [(0, .struct (crossedFields "h" "a"))]
      "APP_0_ADDR=x" "0" "ADDR" "x" (crossedFields "h" "a") 0 ⟨"Host", [("envconfig", "ADDR")]⟩
      (.str "h") (.str "x") rfl rfl (by decide) rfl
      (Or.inl ⟨by decide, by decide, by decide⟩) rfl rfl,
    C5_annotation_first_then_name sampleParsers "APP" payloadTy
      [(0, payload "0.0.0.0" "localhost" 0)]
      [(0, payload "0.0.0.0" "localhost" 0), (1, payload "0.0.0.0" "" 0)]
      "APP_1_ADDR_RENAMED=localhost2" "1" "ADDR_RENAMED" "localhost2"
      [(addrField, .str "0.0.0.0"), (addrRenamedField, .str ""), (timeoutField, .timeDuration 0)]
      1 addrRenamedField (.str "") (.str "localhost2") rfl rfl (by decide) rfl
      (Or.inr ⟨by decide, by decide, by decide, by decide⟩) rfl rfl⟩

/-- The run of the test "fill by envconfig or field name": both APP_0_HOST and
APP_1_ADDR_RENAMED set AddrRenamed. -/
theorem fill_by_envconfig_or_field_name :
    applyEnvOverridesToSlice sampleParsers
        ["APP_0_HOST=localhost", "APP_1_ADDR_RENAMED=localhost2"] "APP"
        (.rvalue true (.nilSlice payloadTy))
      = .done (.rvalue true (.slice payloadTy
          [payload "0.0.0.0" "localhost" 0, payload "0.0.0.0" "localhost2" 0])) := by
  rfl

/-- C6 (counterexample): the entry APP_0_OTHER=y matches the key shape and OTHER
names no field of Payload either way, yet the error is not "field Other not found":
the call stopped at the earlier entry APP_0_NOPE=x. -/
theorem C6_counterexample :
    FindStringSubmatch "APP" "APP_0_OTHER=y" = some ("0", "OTHER", "y")
    ∧ targetField [(addrField, .str ""), (addrRenamedField, .str ""),
        (timeoutField, .timeDuration 0)] "OTHER" (ToCamelCase "OTHER") = none
    ∧ applyEnvOverridesToSlice sampleParsers ["APP_0_NOPE=x", "APP_0_OTHER=y"] "APP"
        (.rvalue true (.nilSlice payloadTy))
      = .fail (.fieldNotFound "Nope") (.rvalue true (.nilSlice payloadTy))
    ∧ (Err.fieldNotFound "Nope").text ≠ some ("field " ++ ToCamelCase "OTHER" ++ " not found") := by
  refine ⟨rfl, rfl, rfl, by decide⟩

/-- C6 (amended): for a prefix that is literal text, when the entries before it have
been applied without error, an entry that the pattern matches and whose token names
no field of the element, neither by annotation nor by derived name, makes the call
fail with the text "field <ToCamelCase(TOKEN)> not found"; no new slice is assigned:
the destination keeps its elements as updated in place so far, and is untouched
when it had none. -/
theorem C6_unknown_token_fails (p : TimeParsers) (pfx : String) (dst : Dst) (canSet : Bool)
    (rv : Val) (sliceOf : Ty) (xs elems : List Val) (before after : List String)
    (m m1 : ElemMap) (keyVal digits token value : String) (fs : List (StructField × Val))
    (hlit : regexLiteral pfx = true)
    (hcheck : checkDst pfx dst = .ok (canSet, rv, sliceOf))
    (hxs : existingOf rv = some xs)
    (hseed : seedLoop p xs = .ok elems)
    (hbefore : envLoop p pfx sliceOf before elems.enum = .next m)
    (hpre : HasPrefix keyVal pfx = true)
    (hmatch : FindStringSubmatch pfx keyVal = some (digits, token, value))
    (hidx : digitsValue digits.data < 2 ^ 63)
    (hel : elementAt p sliceOf m (digitsValue digits.data) = .ok (m1, .struct fs))
    (htag : ∀ fv ∈ fs, fv.1.Get envConfigTag ≠ token)
    (hname : ∀ fv ∈ fs, fv.1.Name ≠ ToCamelCase token) :
    applyEnvOverridesToSlice p (before ++ keyVal :: after) pfx dst
        = .fail (.fieldNotFound (ToCamelCase token))
            (dst.inPlace rv sliceOf xs.length (existingElems xs.length m1))
      ∧ (Err.fieldNotFound (ToCamelCase token)).text
        = some ("field " ++ ToCamelCase token ++ " not found")
      ∧ (xs = [] → dst.inPlace rv sliceOf xs.length (existingElems xs.length m1) = dst) := by
  have _ := hlit
  have hnot : ¬ (9223372036854775808 ≤ digitsValue digits.data) := by
    norm_num at hidx
    omega
  have hstep : applyEntry p pfx sliceOf m keyVal = .fail (.fieldNotFound (ToCamelCase token)) m1 := by
    simp [applyEntry, matchEntry, applyKey, hpre, hmatch, hnot, hel, structFields, targetField,
      fieldByEnvconfig_none fs token htag, FieldByName_none fs _ hname]
  have hloop : ∀ (pre : List String) (m0 : ElemMap), envLoop p pfx sliceOf pre m0 = .next m →
      envLoop p pfx sliceOf (pre ++ keyVal :: after) m0
        = .fail (.fieldNotFound (ToCamelCase token)) m1 := by
    intro pre
    induction pre with
    | nil =>
      intro m0 h0
      simp [envLoop] at h0
      subst h0
      simp [envLoop, hstep]
    | cons kv rest ih =>
      intro m0 h0
      simp only [envLoop, List.cons_append] at h0 ⊢
      cases hk : applyEntry p pfx sliceOf m0 kv with
      | next m2 =>
        rw [hk] at h0
        simp only [] at h0 ⊢
        exact ih m2 h0
      | fail e m2 => rw [hk] at h0; cases h0
      | panic => rw [hk] at h0; cases h0
  refine ⟨?_, rfl, ?_⟩
  · rw [applyEnvOverridesToSlice_eq p _ pfx dst canSet rv sliceOf xs hcheck hxs, hseed]
    simp [hloop before _ hbefore]
  · intro h
    simp [h, Dst.inPlace]


/-- Witness of C6: after APP_0_ADDR=a has been applied to a nil slice of Payload, the
entry APP_0_NOPE=x fails the call with "field Nope not found" and the slice stays
nil. -/
theorem C6_witness :
    applyEnvOverridesToSlice sampleParsers (["APP_0_ADDR=a"] ++ "APP_0_NOPE=x" :: []) "APP"
        (.rvalue true (.nilSlice payloadTy))
      = .fail (.fieldNotFound (ToCamelCase "NOPE"))
          ((Dst.rvalue true (.nilSlice payloadTy)).inPlace (.nilSlice payloadTy) payloadTy
            ([] : List Val).length
            (existingElems ([] : List Val).length [(0, payload "a" "" 0)])) :=
  (C6_unknown_token_fails sampleParsers "APP" (.rvalue true (.nilSlice payloadTy)) true
    (.nilSlice payloadTy) payloadTy [] [] ["APP_0_ADDR=a"] [] [(0, payload "a" "" 0)]
    [(0, payload "a" "" 0)] "APP_0_NOPE=x" "0" "NOPE" "x"
    [(addrField, .str "a"), (addrRenamedField, .str ""), (timeoutField, .timeDuration 0)]
    (by decide) rfl rfl rfl rfl rfl rfl (by decide) rfl (by decide) (by decide)).1

/-- C7 (the code at a failing input): the entries APPLE=APP_0_ADDR=evil (a variable
APPLE whose value contains the key shape) and APP_NAME_APP_0_ADDR=evil (further
characters before a later occurrence of the shape) are not of the shape
APP_<digits>_<token>=<value>, yet each creates element 0 with Addr set from it:
the entry only has to start with the prefix, and the pattern is searched anywhere
in it.  Without them the slice stays nil. -/
theorem C7_entry_of_another_shape_is_applied :
    applyEnvOverridesToSlice sampleParsers ["APPLE=APP_0_ADDR=evil"] "APP"
        (.rvalue true (.nilSlice payloadTy))
      = .done (.rvalue true (.slice payloadTy [payload "evil" "" 0]))
    ∧ applyEnvOverridesToSlice sampleParsers ["APP_NAME_APP_0_ADDR=evil"] "APP"
        (.rvalue true (.nilSlice payloadTy))
      = .done (.rvalue true (.slice payloadTy [payload "evil" "" 0]))
    ∧ matchHere "APP".data "APPLE=APP_0_ADDR=evil".data = none
    ∧ applyEnvOverridesToSlice sampleParsers [] "APP" (.rvalue true (.nilSlice payloadTy))
      = .done (.rvalue true (.nilSlice payloadTy)) := by
  refine ⟨rfl, rfl, rfl, rfl⟩

/-- C8 (counterexample): a destination handed over as a reflect.Value of a slice
field is not a pointer, and the call does not fail with ErrDstNotPointer: it
returns with the slice filled. -/
theorem C8_counterexample :
    isPtrKind (.nilSlice payloadTy) = false
    ∧ applyEnvOverridesToSlice sampleParsers ["APP_0_ADDR=a"] "APP"
        (.rvalue true (.nilSlice payloadTy))
      = .done (.rvalue true (.slice payloadTy [payload "a" "" 0]))
    ∧ applyEnvOverridesToSlice sampleParsers ["APP_0_ADDR=a"] "APP"
        (.rvalue true (.nilSlice payloadTy))
      ≠ .fail .ErrDstNotPointer (.rvalue true (.nilSlice payloadTy)) := by
  refine ⟨rfl, rfl, ?_⟩
  rw [show applyEnvOverridesToSlice sampleParsers ["APP_0_ADDR=a"] "APP"
        (.rvalue true (.nilSlice payloadTy))
      = .done (.rvalue true (.slice payloadTy [payload "a" "" 0])) from rfl]
  intro h
  cases h

/-- C8 (amended): whatever the environment, and leaving the destination as it was: an
empty prefix fails with ErrPrefixRequired for every destination; otherwise an
argument that is not a reflect.Value and is nil or not a pointer fails with
ErrDstNotPointer; otherwise a destination whose pointers lead to a value that is
neither a slice nor a nil pointer to a slice fails with ErrDstNotSlice. -/
theorem C8_checks_in_source_order (p : TimeParsers) (envs : List String) (pfx : String) :
    (∀ dst, pfx = "" → applyEnvOverridesToSlice p envs pfx dst = .fail .ErrPrefixRequired dst)
    ∧ (∀ v : Option Val, pfx ≠ "" → (∀ w, v = some w → isPtrKind w = false) →
        applyEnvOverridesToSlice p envs pfx (.iface v) = .fail .ErrDstNotPointer (.iface v))
    ∧ (∀ dst canSet rv, pfx ≠ "" → dstValue dst = some (canSet, rv) →
        sliceElem (indirectWalk rv) = none →
        applyEnvOverridesToSlice p envs pfx dst = .fail .ErrDstNotSlice dst) := by
  refine ⟨?_, ?_, ?_⟩
  · intro dst h
    simp [applyEnvOverridesToSlice, checkDst, h]
  · intro v h hv
    have hd : dstValue (.iface v) = none := by
      cases v with
      | none => rfl
      | some w =>
        have := hv w rfl
        cases w <;> simp_all [dstValue, isPtrKind]
    simp [applyEnvOverridesToSlice, checkDst, h, hd]
  · intro dst canSet rv h hd hs
    simp [applyEnvOverridesToSlice, checkDst, h, hd, hs]

/-- Witness of C8: the three checks on the inputs of the tests "no prefix", "not a
pointer" and "not a slice". -/
theorem C8_witness :
    applyEnvOverridesToSlice sampleParsers ["APP_0_ADDR=a"] "" (.iface none)
        = .fail .ErrPrefixRequired (.iface none)
    ∧ applyEnvOverridesToSlice sampleParsers ["APP_0_ADDR=a"] "PREFIX_S"
        (.iface (some (.slice payloadTy [])))
        = .fail .ErrDstNotPointer (.iface (some (.slice payloadTy [])))
    ∧ applyEnvOverridesToSlice sampleParsers ["APP_0_ADDR=a"] "PREFIX_S"
        (.iface (some (.ptrTo (.int .Int 0))))
        = .fail .ErrDstNotSlice (.iface (some (.ptrTo (.int .Int 0)))) :=
  ⟨(C8_checks_in_source_order sampleParsers ["APP_0_ADDR=a"] "").1 (.iface none) rfl,
    (C8_checks_in_source_order sampleParsers ["APP_0_ADDR=a"] "PREFIX_S").2.1
      (some (.slice payloadTy [])) (by decide)
      (fun w hw => by cases hw; rfl),
    (C8_checks_in_source_order sampleParsers ["APP_0_ADDR=a"] "PREFIX_S").2.2
      (.iface (some (.ptrTo (.int .Int 0)))) false (.ptrTo (.int .Int 0)) (by decide) rfl rfl⟩

/-- C9 (counterexample): a pointer field that points to an empty slice is non-nil
after the call although the index mapping is empty. -/
theorem C9_counterexample :
    ∃ w m, (applyEnvOverridesToSlice sampleParsers ["HOME=/root"] "APP"
        (.rvalue true (.ptrTo (.slice payloadTy [])))).value = some w
      ∧ envLoop sampleParsers "APP" payloadTy ["HOME=/root"] [] = .next m
      ∧ ¬ (isZeroValue w = false ↔ m ≠ []) :=
  ⟨.ptrTo (.slice payloadTy []), [], rfl, rfl, by simp [isZeroValue]⟩

/-- C9 (amended): for every environment and every direct slice field, the call on it
and the call on the pointer-to-slice field holding the same (nil for nil) end
alike with the same elements; the direct field stays a direct slice; the pointer
field is non-nil afterwards exactly when it was non-nil before or the resulting
sequence, that is the index mapping, is non-empty. -/
theorem C9_direct_and_pointer_field_agree (p : TimeParsers) (envs : List String) (pfx : String) (direct : Val)
    (hd : isSliceKind direct = true) :
    (applyEnvOverridesToSlice p envs pfx (.rvalue true direct)).sameElements
      (applyEnvOverridesToSlice p envs pfx (.rvalue true (asPointerField direct)))
    ∧ (∀ w, (applyEnvOverridesToSlice p envs pfx (.rvalue true direct)).value = some w →
        isSliceKind w = true)
    ∧ (∀ w, (applyEnvOverridesToSlice p envs pfx (.rvalue true (asPointerField direct))).value
          = some w →
        (isZeroValue w = false ↔ (isZeroValue (asPointerField direct) = false ∨ w.elems ≠ []))) := by
  cases direct <;> simp [isSliceKind] at hd
  case nilSlice e =>
    by_cases hp : pfx = ""
    · simp [applyEnvOverridesToSlice, checkDst, hp, Outcome.sameElements, Dst.elems, Val.elems,
        asPointerField, Outcome.value, isSliceKind, isZeroValue]
    · have hc1 : checkDst pfx (.rvalue true (.nilSlice e)) = .ok (true, .nilSlice e, e) := by
        simp [checkDst, hp, dstValue, indirectWalk, sliceElem]
      have hc2 : checkDst pfx (.rvalue true (.nilPtr (.Slice e))) = .ok (true, .nilPtr (.Slice e), e) := by
        simp [checkDst, hp, dstValue, indirectWalk, sliceElem]
      rw [asPointerField, applyEnvOverridesToSlice_eq p envs pfx _ _ _ _ [] hc1 rfl,
        applyEnvOverridesToSlice_eq p envs pfx _ _ _ _ [] hc2 rfl, seedLoop_nil]
      cases hL : envLoop p pfx e envs [] with
      | panic => simp [hL, Outcome.sameElements, Outcome.value]
      | fail err m =>
        simp [hL, Outcome.sameElements, Outcome.value, Dst.inPlace, Dst.elems, Val.elems]
      | next m =>
        by_cases hm : m.length = 0
        · simp [hL, finish, hm, Outcome.sameElements, Outcome.value, Dst.elems, Val.elems,
            isSliceKind, isZeroValue]
        · cases hA : assemble m with
          | none => simp [hL, finish, hm, hA, Outcome.sameElements, Outcome.value]
          | some values =>
            have hlen := assemble_length m values hA
            have hne : values ≠ [] := by
              intro h0
              rw [h0] at hlen
              exact hm hlen.symm
            simp [hL, finish, hm, hA, setPtrValue, Dst.withValue, Outcome.sameElements,
              Outcome.value, Dst.elems, Val.elems, isSliceKind, isZeroValue, hne]
  case slice e xs =>
    by_cases hp : pfx = ""
    · simp [applyEnvOverridesToSlice, checkDst, hp, Outcome.sameElements, Dst.elems, Val.elems,
        asPointerField, Outcome.value, isSliceKind, isZeroValue]
    · have hc1 : checkDst pfx (.rvalue true (.slice e xs)) = .ok (true, .slice e xs, e) := by
        simp [checkDst, hp, dstValue, indirectWalk, sliceElem]
      have hc2 : checkDst pfx (.rvalue true (.ptrTo (.slice e xs)))
          = .ok (true, .ptrTo (.slice e xs), e) := by
        simp [checkDst, hp, dstValue, indirectWalk, sliceElem]
      have hap : asPointerField (.slice e xs) = .ptrTo (.slice e xs) := rfl
      rw [hap, applyEnvOverridesToSlice_eq p envs pfx _ _ _ _ xs hc1 rfl,
        applyEnvOverridesToSlice_eq p envs pfx _ _ _ _ xs hc2 rfl]
      cases hS : seedLoop p xs with
      | panic => simp [Outcome.sameElements, Outcome.value]
      | fail err elems =>
        by_cases hl : xs.length = 0
        · simp [Outcome.sameElements, Outcome.value, Dst.inPlace, Dst.elems, Val.elems, hl]
        · simp [Outcome.sameElements, Outcome.value, Dst.inPlace, Dst.elems, Val.elems, hl,
            Dst.withValue, setWalked]
      | ok elems =>
        cases hL : envLoop p pfx e envs elems.enum with
        | panic => simp [hL, Outcome.sameElements, Outcome.value]
        | fail err m =>
          by_cases hl : xs.length = 0
          · simp [hL, Outcome.sameElements, Outcome.value, Dst.inPlace, Dst.elems, Val.elems, hl]
          · simp [hL, Outcome.sameElements, Outcome.value, Dst.inPlace, Dst.elems, Val.elems, hl,
              Dst.withValue, setWalked]
        | next m =>
          by_cases hm : m.length = 0
          · simp [hL, finish, hm, Outcome.sameElements, Outcome.value, Dst.elems, Val.elems,
              isSliceKind, isZeroValue]
          · cases hA : assemble m with
            | none => simp [hL, finish, hm, hA, Outcome.sameElements, Outcome.value]
            | some values =>
              simp [hL, finish, hm, hA, setPtrValue, Dst.withValue, Outcome.sameElements,
                Outcome.value, Dst.elems, Val.elems, isSliceKind, isZeroValue]

/-- Witness of C9: the direct and the pointer field of the test "fill with env values". -/
theorem C9_witness :
    (applyEnvOverridesToSlice sampleParsers ["APP_0_ADDR=a", "APP_1_TIMEOUT=2m"] "APP"
        (.rvalue true (.nilSlice payloadTy))).sameElements
      (applyEnvOverridesToSlice sampleParsers ["APP_0_ADDR=a", "APP_1_TIMEOUT=2m"] "APP"
        (.rvalue true (asPointerField (.nilSlice payloadTy)))) :=
  (C9_direct_and_pointer_field_agree sampleParsers ["APP_0_ADDR=a", "APP_1_TIMEOUT=2m"] "APP" (.nilSlice payloadTy)
    rfl).1

/-- Claim C14: an argument of `Init` that is not a pointer to a structure is refused
before anything else is done: the call returns ErrDstNotPointer when the argument
is not a pointer and ErrNotStruct when it is a pointer to something else than a
structure (a nil pointer included), the argument is returned as it was, and the
result depends neither on the environment nor on the JSON file nor on the
parsers. -/
theorem C14_shape_checked_before_anything_else (p : TimeParsers) (env : Environment)
    (load : JSONLoader) (config : Option Val) (filename : String)
    (hshape : pointsToStruct config = false) :
    Init p env load config filename =
      .returned config (some (if isPointerArg config then .ErrNotStruct else .ErrDstNotPointer)) := by
  unfold Init
  match config, hshape with
  | none, _ => rfl
  | some (.ptrTo x), h =>
    have hx : isStructKind x = false := h
    simp [hx, isPointerArg]
  | some (.nilPtr e), _ => rfl
  | some (.str _), _ => rfl
  | some (.bool _), _ => rfl
  | some (.int _ _), _ => rfl
  | some (.uint _ _), _ => rfl
  | some (.time _), _ => rfl
  | some (.timeDuration _), _ => rfl
  | some (.duration _), _ => rfl
  | some (.nilSlice _), _ => rfl
  | some (.slice _ _), _ => rfl
  | some (.struct _), _ => rfl
  | some .nilMap, _ => rfl
  | some (.mapOf _), _ => rfl

theorem C14_witness :
    Init sampleParsers (envOf [("INIT_USER", "user")]) noFile
        (some (initConfig "" "" 0 false)) "" =
      .returned (some (initConfig "" "" 0 false)) (some .ErrDstNotPointer) ∧
    Init sampleParsers (envOf [("INIT_USER", "user")]) noFile
        (some (.ptrTo (.int .Int 0))) "" =
      .returned (some (.ptrTo (.int .Int 0))) (some .ErrNotStruct) :=
  ⟨C14_shape_checked_before_anything_else sampleParsers _ noFile _ "" rfl,
   C14_shape_checked_before_anything_else sampleParsers _ noFile _ "" rfl⟩

theorem setValue_wide_int (p : TimeParsers) (k : IntKind) (hk : k = .Int ∨ k = .Int64) (x : Int)
    (s : String) :
    (∀ n, ParseInt s = some n → setValue p (.int k x) s = .ok (.int k n)) ∧
    (ParseInt s = none → setValue p (.int k x) s = .error (.parseFailed s "Int64")) := by
  constructor
  · intro n hn
    rcases hk with rfl | rfl <;>
      simp [setValue, isTimeTyped, isTimeDurationTyped, isDurationTyped, setInt, hn, IntKind.bits,
        wrapInt_ParseInt s n hn]
  · intro hn
    rcases hk with rfl | rfl <;>
      simp [setValue, isTimeTyped, isTimeDurationTyped, isDurationTyped, setInt, hn]

theorem setValue_wide_uint (p : TimeParsers) (k : UintKind) (hk : k = .Uint ∨ k = .Uint64)
    (x : Nat) (s : String) :
    (∀ n, ParseUint s = some n → setValue p (.uint k x) s = .ok (.uint k n)) ∧
    (ParseUint s = none → setValue p (.uint k x) s = .error (.parseFailed s "Uint64")) := by
  constructor
  · intro n hn
    have hlt : n < 18446744073709551616 := by
      unfold ParseUint at hn
      simp only at hn
      split_ifs at hn with h1 h2
      cases hn
      exact h2
    rcases hk with rfl | rfl <;>
      simp [setValue, isTimeTyped, isTimeDurationTyped, isDurationTyped, setUint, hn,
        UintKind.bits, wrapUint, Nat.mod_eq_of_lt hlt, hlt]
  · intro hn
    rcases hk with rfl | rfl <;>
      simp [setValue, isTimeTyped, isTimeDurationTyped, isDurationTyped, setUint, hn]

/-- Claim C17: evaluation at the failing inputs.  The literal "5" is a base-10 literal
within the signed and the unsigned 64-bit range, yet an int8, an int16, a uint8
and a uint16 field keep their value 0 and no error is returned; and the literal
"4294967296" leaves 0 in an int32 and in a uint32 field. -/
theorem C17_narrow_integer_fields_miss_the_literal (p : TimeParsers) :
    ParseInt "5" = some 5 ∧ ParseUint "5" = some 5 ∧
    setValue p (.int .Int8 0) "5" = .ok (.int .Int8 0) ∧
    setValue p (.int .Int16 0) "5" = .ok (.int .Int16 0) ∧
    setValue p (.uint .Uint8 0) "5" = .ok (.uint .Uint8 0) ∧
    setValue p (.uint .Uint16 0) "5" = .ok (.uint .Uint16 0) ∧
    ParseInt "4294967296" = some 4294967296 ∧
    setValue p (.int .Int32 0) "4294967296" = .ok (.int .Int32 0) ∧
    setValue p (.uint .Uint32 0) "4294967296" = .ok (.uint .Uint32 0) := by
  refine ⟨by decide, by decide, rfl, rfl, rfl, rfl, by decide, ?_, ?_⟩
  · have h : ParseInt "4294967296" = some 4294967296 := by decide
    simp [setValue, isTimeTyped, isTimeDurationTyped, isDurationTyped, setInt, h, IntKind.bits,
      wrapInt]
  · have h : ParseUint "4294967296" = some 4294967296 := by decide
    simp [setValue, isTimeTyped, isTimeDurationTyped, isDurationTyped, setUint, h, UintKind.bits,
      wrapUint]

/-- Claim C19: evaluation at the failing inputs.  A nil pointer to a string, to an
int, to a uint, to a bool and to a []string stays nil and no error is returned,
whatever the literal; a nil pointer to a timestamp or to a duration is replaced
by a pointer to the coerced value. -/
theorem C19_nil_pointer_to_plain_type_stays_nil (p : TimeParsers) (s : String) :
    setValue p (.nilPtr .String) s = .ok (.nilPtr .String) ∧
    setValue p (.nilPtr (.Int .Int)) s = .ok (.nilPtr (.Int .Int)) ∧
    setValue p (.nilPtr (.Uint .Uint)) s = .ok (.nilPtr (.Uint .Uint)) ∧
    setValue p (.nilPtr .Bool) s = .ok (.nilPtr .Bool) ∧
    setValue p (.nilPtr (.Slice .String)) s = .ok (.nilPtr (.Slice .String)) ∧
    setValue sampleParsers (.nilPtr .TimeDuration) "30s" = .ok (.ptrTo (.timeDuration 30000000000)) ∧
    setValue sampleParsers (.nilPtr .Duration) "30s" = .ok (.ptrTo (.duration 30000000000)) ∧
    setValue sampleParsers (.nilPtr .Time) "2019-07-07T20:00:00Z" = .ok (.ptrTo (.time july2019)) :=
  ⟨rfl, rfl, rfl, rfl, rfl, by rfl, by rfl, by rfl⟩

theorem setValue_nil_pointer_to_time (p : TimeParsers) (s : String) (w : Val)
    (v : Val) (hv : v = .nilPtr .Time ∨ v = .nilPtr .TimeDuration ∨ v = .nilPtr .Duration)
    (h : coerceScalar p v s = some w) : setValue p v s = .ok w ∧ isPtrTo w = true := by
  rcases hv with rfl | rfl | rfl
  · simp only [coerceScalar, Option.map_eq_some'] at h
    obtain ⟨z, hz, rfl⟩ := h
    simp [setValue, isTimeTyped, setTime, hz, isPtrKind, isPtrTo]
  · simp only [coerceScalar, Option.map_eq_some'] at h
    obtain ⟨z, hz, rfl⟩ := h
    simp [setValue, isTimeTyped, isTimeDurationTyped, setTimeDuration, hz, isPtrKind, isPtrTo]
  · simp only [coerceScalar, Option.map_eq_some'] at h
    obtain ⟨z, hz, rfl⟩ := h
    simp [setValue, isTimeTyped, isTimeDurationTyped, isDurationTyped, setDuration, hz, isPtrKind,
      isPtrTo]

theorem setValue_error (p : TimeParsers) (v : Val) (s : String) (e : Err)
    (h : setValue p v s = .error e) :
    ∃ T, typeNameSpec v = some T ∧ e = .parseFailed s T := by
  cases v with
  | str x => simp [setValue, isTimeTyped, isTimeDurationTyped, isDurationTyped] at h
  | bool b => simp [setValue, isTimeTyped, isTimeDurationTyped, isDurationTyped, setBool] at h
  | int k n =>
    cases k <;>
      simp [setValue, isTimeTyped, isTimeDurationTyped, isDurationTyped, setInt] at h <;>
      (split at h
       · cases h; exact ⟨_, rfl, rfl⟩
       · cases h)
  | uint k n =>
    cases k <;>
      simp [setValue, isTimeTyped, isTimeDurationTyped, isDurationTyped, setUint] at h <;>
      (split at h
       · cases h; exact ⟨_, rfl, rfl⟩
       · cases h)
  | time t =>
    simp [setValue, isTimeTyped, setTime, isPtrKind] at h
    split at h
    · cases h; exact ⟨_, rfl, rfl⟩
    · cases h
  | timeDuration ns =>
    simp [setValue, isTimeTyped, isTimeDurationTyped, setTimeDuration, isPtrKind] at h
    split at h
    · cases h; exact ⟨_, rfl, rfl⟩
    · cases h
  | duration ns =>
    simp [setValue, isTimeTyped, isTimeDurationTyped, isDurationTyped, setDuration, isPtrKind] at h
    split at h
    · cases h; exact ⟨_, rfl, rfl⟩
    · cases h
  | nilSlice e =>
    simp [setValue, isTimeTyped, isTimeDurationTyped, isDurationTyped] at h
  | slice e xs =>
    simp [setValue, isTimeTyped, isTimeDurationTyped, isDurationTyped] at h
  | nilPtr e =>
    cases e <;>
      simp [setValue, isTimeTyped, isTimeDurationTyped, isDurationTyped, setTime, setTimeDuration,
        setDuration, isPtrKind] at h <;>
      (split at h
       · cases h; exact ⟨_, rfl, rfl⟩
       · cases h)
  | ptrTo x =>
    cases x <;>
      simp [setValue, isTimeTyped, isTimeDurationTyped, isDurationTyped, setTime, setTimeDuration,
        setDuration, isPtrKind] at h <;>
      (split at h
       · cases h; exact ⟨_, rfl, rfl⟩
       · cases h)
  | struct fs => simp [setValue, isTimeTyped, isTimeDurationTyped, isDurationTyped] at h
  | nilMap => simp [setValue, isTimeTyped, isTimeDurationTyped, isDurationTyped] at h
  | mapOf size => simp [setValue, isTimeTyped, isTimeDurationTyped, isDurationTyped] at h

/-- Claim C18: when a literal `s` fails to coerce into a field, the error of `setValue`
has the text "failed to parse value Q as T type", where Q is `s` as the verb
`%q` quotes it and T is the type name the claim lists for the field; and for one
literal the errors of a time.Duration field and of a Duration field have
different texts. -/
theorem C18_coercion_error_names_literal_and_type (p : TimeParsers) (quote : String → String)
    (v : Val) (s : String) (e : Err) (h : setValue p v s = .error e) :
    (∃ T, typeNameSpec v = some T ∧
      e.message quote = some ("failed to parse value " ++ quote s ++ " as " ++ T ++ " type")) ∧
    (∀ a b e1 e2, setValue p (.timeDuration a) s = .error e1 →
      setValue p (.duration b) s = .error e2 → e1.message quote ≠ e2.message quote) := by
  constructor
  · obtain ⟨T, hT, rfl⟩ := setValue_error p v s e h
    exact ⟨T, hT, rfl⟩
  · intro a b e1 e2 h1 h2
    obtain ⟨T1, hT1, rfl⟩ := setValue_error p _ s e1 h1
    obtain ⟨T2, hT2, rfl⟩ := setValue_error p _ s e2 h2
    cases hT1
    cases hT2
    simp only [Err.message, parseFailedText, ne_eq, Option.some.injEq]
    intro heq
    have := congrArg String.data heq
    simp at this

theorem C18_witness :
    (∃ T, typeNameSpec (.int .Int 0) = some T ∧
      (Err.parseFailed "age" "Int64").message quotePrintable =
        some ("failed to parse value " ++ quotePrintable "age" ++ " as " ++ T ++ " type")) ∧
    (∀ a b e1 e2, setValue sampleParsers (.timeDuration a) "age" = .error e1 →
      setValue sampleParsers (.duration b) "age" = .error e2 →
      e1.message quotePrintable ≠ e2.message quotePrintable) :=
  C18_coercion_error_names_literal_and_type sampleParsers quotePrintable (.int .Int 0) "age"
    (.parseFailed "age" "Int64") (by rfl)

theorem fail_to_parse_int :
    setValue sampleParsers (.int .Int 0) "age" = .error (.parseFailed "age" "Int64") ∧
    (Err.parseFailed "age" "Int64").message quotePrintable =
      some "failed to parse value \"age\" as Int64 type" ∧
    (Err.parseFailed "1.0" "Uint64").message quotePrintable =
      some "failed to parse value \"1.0\" as Uint64 type" := by
  refine ⟨by rfl, by decide, by decide⟩

theorem toNat_ofNat_of_valid (n : Nat) (hv : n.isValidChar) : (Char.ofNat n).toNat = n := by
  unfold Char.ofNat
  rw [dif_pos hv]
  rfl

theorem toLower_eq_lower (c : Char) (l : Char) (hl : 97 ≤ l.toNat ∧ l.toNat ≤ 122) :
    c.toLower = l ↔ c = l ∨ c.toNat + 32 = l.toNat := by
  unfold Char.toLower
  simp only [ge_iff_le]
  split_ifs with h
  · constructor
    · intro hc
      right
      have h2 := congrArg Char.toNat hc
      rw [toNat_ofNat_of_valid _ (by left; omega)] at h2
      exact h2
    · rintro (rfl | h2)
      · omega
      · rw [h2, Char.ofNat_toNat]
  · constructor
    · intro hc; left; exact hc
    · rintro (rfl | h2)
      · rfl
      · omega

theorem toNat_add_eq (c u : Char) (h : c.toNat + 32 = u.toNat + 32) : c = u := by
  have h2 : c.toNat = u.toNat := by omega
  rw [← Char.ofNat_toNat c, h2, Char.ofNat_toNat]

theorem toLower_t (c : Char) : c.toLower = 't' ↔ c = 't' ∨ c = 'T' := by
  rw [toLower_eq_lower c 't' (by decide)]
  constructor
  · rintro (h | h)
    · exact Or.inl h
    · exact Or.inr (toNat_add_eq c 'T' h)
  · rintro (h | rfl)
    · exact Or.inl h
    · exact Or.inr (by decide)

theorem toLower_r (c : Char) : c.toLower = 'r' ↔ c = 'r' ∨ c = 'R' := by
  rw [toLower_eq_lower c 'r' (by decide)]
  constructor
  · rintro (h | h)
    · exact Or.inl h
    · exact Or.inr (toNat_add_eq c 'R' h)
  · rintro (h | rfl)
    · exact Or.inl h
    · exact Or.inr (by decide)

theorem toLower_u (c : Char) : c.toLower = 'u' ↔ c = 'u' ∨ c = 'U' := by
  rw [toLower_eq_lower c 'u' (by decide)]
  constructor
  · rintro (h | h)
    · exact Or.inl h
    · exact Or.inr (toNat_add_eq c 'U' h)
  · rintro (h | rfl)
    · exact Or.inl h
    · exact Or.inr (by decide)

theorem toLower_e (c : Char) : c.toLower = 'e' ↔ c = 'e' ∨ c = 'E' := by
  rw [toLower_eq_lower c 'e' (by decide)]
  constructor
  · rintro (h | h)
    · exact Or.inl h
    · exact Or.inr (toNat_add_eq c 'E' h)
  · rintro (h | rfl)
    · exact Or.inl h
    · exact Or.inr (by decide)

theorem toLowerChars_true (cs : List Char) :
    toLowerChars cs = "true".data ↔ String.mk cs ∈ spellingsOfTrue := by
  have hd : "true".data = ['t', 'r', 'u', 'e'] := rfl
  rw [hd]
  unfold toLowerChars
  constructor
  · intro h
    rcases cs with _ | ⟨a, _ | ⟨b, _ | ⟨c, _ | ⟨d, _ | ⟨e, r⟩⟩⟩⟩⟩ <;>
      simp only [List.map_cons, List.map_nil, List.cons.injEq, and_true, and_false,
        reduceCtorEq] at h
    obtain ⟨ha, hb, hc, hd⟩ := h
    rw [toLower_t] at ha
    rw [toLower_r] at hb
    rw [toLower_u] at hc
    rw [toLower_e] at hd
    rcases ha with rfl | rfl <;> rcases hb with rfl | rfl <;> rcases hc with rfl | rfl <;>
      rcases hd with rfl | rfl <;> decide
  · intro h
    simp only [spellingsOfTrue, List.flatMap_cons, List.flatMap_nil, List.map_cons, List.map_nil,
      List.append_nil, List.cons_append, List.nil_append, List.mem_cons,
      List.mem_singleton, List.not_mem_nil, or_false] at h
    rcases h with h | h | h | h | h | h | h | h | h | h | h | h | h | h | h | h <;> cases h <;> rfl

/-- Claim C15: coercing any string into a boolean field returns no error, and the
field is true exactly when the string is "1" or one of the spellings of "true"
in upper and lower case letters; the empty string, "0", "yes" and " true" give
false. -/
theorem C15_boolean_true_iff_one_or_true (p : TimeParsers) (b : Bool) (s : String) :
    (∃ x, setValue p (.bool b) s = .ok (.bool x) ∧
      (x = true ↔ s = "1" ∨ s ∈ spellingsOfTrue)) ∧
    setValue p (.bool b) "" = .ok (.bool false) ∧
    setValue p (.bool b) "0" = .ok (.bool false) ∧
    setValue p (.bool b) "yes" = .ok (.bool false) ∧
    setValue p (.bool b) " true" = .ok (.bool false) := by
  refine ⟨⟨isTrue s, rfl, ?_⟩, by rfl, by rfl, by rfl, by rfl⟩
  unfold isTrue
  rw [Bool.or_eq_true, beq_iff_eq, beq_iff_eq, toLowerChars_true]

theorem splitOnP_length (q : Char → Bool) (cs : List Char) :
    (cs.splitOnP q).length = cs.countP q + 1 := by
  induction cs with
  | nil => rfl
  | cons c cs ih =>
    rw [List.splitOnP_cons]
    by_cases h : q c
    · simp [h, ih]
    · simp [h, ih, List.length_modifyHead]

theorem splitOnP_no_separator (q : Char → Bool) (cs : List Char) :
    ∀ part ∈ cs.splitOnP q, ∀ c ∈ part, q c = false := by
  induction cs with
  | nil => simp
  | cons c cs ih =>
    rw [List.splitOnP_cons]
    by_cases h : q c
    · simp only [h, if_true, List.mem_cons]
      rintro part (rfl | hp)
      · simp
      · exact ih part hp
    · simp only [h, Bool.false_eq_true, if_false]
      cases hs : cs.splitOnP q with
      | nil => simp [List.modifyHead]
      | cons hd tl =>
        rw [hs] at ih
        simp only [List.modifyHead, List.mem_cons]
        rintro part (rfl | hp)
        · intro x hx
          rcases List.mem_cons.mp hx with rfl | hx
          · simpa using h
          · exact ih hd (List.mem_cons_self _ _) x hx
        · exact ih part (List.mem_cons_of_mem _ hp)

theorem intercalate_go_data (sep : String) (parts : List String) (acc : String) :
    (String.intercalate.go acc sep parts).data =
      acc.data ++ (parts.map (fun a => sep.data ++ a.data)).flatten := by
  induction parts generalizing acc with
  | nil => simp [String.intercalate.go]
  | cons a rest ih => simp [String.intercalate.go, ih]

theorem intercalate_data (sep : String) (parts : List String) :
    (sep.intercalate parts).data = List.intercalate sep.data (parts.map String.data) := by
  cases parts with
  | nil => rfl
  | cons a rest =>
    simp only [String.intercalate, intercalate_go_data, List.intercalate, List.map_cons]
    induction rest generalizing a with
    | nil => simp [List.intersperse]
    | cons b rest ih =>
      have := ih b
      simp only [List.map_cons, List.flatten_cons, List.intersperse] at this ⊢
      simp [this]

theorem splitComma_spec (s : String) :
    (splitComma s).length = s.data.count ',' + 1 ∧
    (∀ part ∈ splitComma s, ',' ∉ part.data) ∧
    ",".intercalate (splitComma s) = s := by
  refine ⟨?_, ?_, ?_⟩
  · simp only [splitComma, List.length_map, List.splitOn, splitOnP_length, List.count]
  · intro part hp hc
    simp only [splitComma, List.mem_map] at hp
    obtain ⟨cs, hcs, rfl⟩ := hp
    have := splitOnP_no_separator (· == ',') s.data cs hcs ',' hc
    simp at this
  · apply String.ext
    rw [intercalate_data]
    have h : (splitComma s).map String.data = s.data.splitOn ',' := by
      simp [splitComma, Function.comp_def]
    rw [h]
    exact List.intercalate_splitOn s.data ','

/-- Claim C16: coercing a string `s` into a []string field, nil or not, returns no error
and assigns a sequence of strings that has one element more than `s` has commas,
holds no comma in any element, and gives back `s` when joined with ","; coercing
`s` into a slice field of another element type returns no error and leaves the
field as it was. -/
theorem C16_string_slice_split_on_commas (p : TimeParsers) (s : String) :
    (∀ v, (v = .nilSlice .String ∨ ∃ xs, v = .slice .String xs) →
      ∃ parts : List String, setValue p v s = .ok (.slice .String (parts.map Val.str)) ∧
        parts.length = s.data.count ',' + 1 ∧
        (∀ part ∈ parts, ',' ∉ part.data) ∧
        ",".intercalate parts = s) ∧
    (∀ e, e ≠ Ty.String →
      setValue p (.nilSlice e) s = .ok (.nilSlice e) ∧
      ∀ xs, setValue p (.slice e xs) s = .ok (.slice e xs)) := by
  constructor
  · intro v hv
    refine ⟨splitComma s, ?_, splitComma_spec s⟩
    rcases hv with rfl | ⟨xs, rfl⟩ <;> rfl
  · intro e he
    cases e <;> first
      | exact absurd rfl he
      | exact ⟨rfl, fun _ => rfl⟩

theorem C16_witness :
    (∀ v, (v = .nilSlice .String ∨ ∃ xs, v = .slice .String xs) →
      ∃ parts : List String,
        setValue sampleParsers v "a,,b" = .ok (.slice .String (parts.map Val.str)) ∧
        parts.length = "a,,b".data.count ',' + 1 ∧
        (∀ part ∈ parts, ',' ∉ part.data) ∧
        ",".intercalate parts = "a,,b") ∧
    (∀ e, e ≠ Ty.String →
      setValue sampleParsers (.nilSlice e) "a,,b" = .ok (.nilSlice e) ∧
      ∀ xs, setValue sampleParsers (.slice e xs) "a,,b" = .ok (.slice e xs)) :=
  C16_string_slice_split_on_commas sampleParsers "a,,b"

theorem split_of_worked_strings (p : TimeParsers) :
    setValue p (.nilSlice .String) "" = .ok (.slice .String [.str ""]) ∧
    setValue p (.nilSlice .String) "a,,b" = .ok (.slice .String [.str "a", .str "", .str "b"]) ∧
    setValue p (.nilSlice (.Int .Int)) "1,2" = .ok (.nilSlice (.Int .Int)) :=
  ⟨by rfl, by rfl, by rfl⟩

/-! ### Validation -/

theorem isZero_eq (v : Val) : isZero v = (deepZero v || atZeroOrEpoch v) := by
  cases v <;> simp [isZero, deepZero, atZeroOrEpoch]
  case time t =>
    simp only [isZeroTime, GoTime.IsZero, GoTime.Equal]
    have h0 : unixEpochTime.unix = 0 := by decide
    have h1 : unixEpochTime.nsec = 0 := rfl
    rw [h0, h1]
    by_cases hz : t = zeroTime
    · subst hz; decide
    · simp [hz]
  case str s =>
    constructor
    · intro h
      apply String.ext
      exact List.eq_nil_of_length_eq_zero h
    · rintro rfl; rfl

theorem validateField_leaf (t : StructField) (v : Val) (hns : ∀ fs, v ≠ .struct fs) :
    validateField t v = ((leaves t v).filter offending).map (fun l => l.1.Name) := by
  have key : validateField t v = if offending (t, v) then [t.Name] else [] := by
    have h1 : validateField t v =
        (match t.Lookup "required" with
         | none => []
         | some value => if !isTrue value then [] else if isZero v then [t.Name] else []) := by
      cases v <;> first | exact absurd rfl (hns _) | rfl
    rw [h1]
    unfold offending requiredTrue
    rw [← isZero_eq]
    cases t.Lookup "required" with
    | none => simp
    | some value => cases h2 : isTrue value <;> cases h3 : isZero v <;> simp [h2, h3]
  have hl : leaves t v = [(t, v)] := by
    cases v <;> first | exact absurd rfl (hns _) | rfl
  rw [key, hl]
  cases h4 : offending (t, v) <;> simp [h4]

mutual
theorem validateField_eq (t : StructField) :
    (v : Val) → validateField t v = ((leaves t v).filter offending).map (fun l => l.1.Name)
  | .struct fs => by simp [validateField, leaves, validateFields_eq fs]
  | .str s => validateField_leaf t _ (by intro fs hc; cases hc)
  | .bool s => validateField_leaf t _ (by intro fs hc; cases hc)
  | .int k s => validateField_leaf t _ (by intro fs hc; cases hc)
  | .uint k s => validateField_leaf t _ (by intro fs hc; cases hc)
  | .time s => validateField_leaf t _ (by intro fs hc; cases hc)
  | .timeDuration s => validateField_leaf t _ (by intro fs hc; cases hc)
  | .duration s => validateField_leaf t _ (by intro fs hc; cases hc)
  | .nilSlice s => validateField_leaf t _ (by intro fs hc; cases hc)
  | .slice e s => validateField_leaf t _ (by intro fs hc; cases hc)
  | .nilPtr s => validateField_leaf t _ (by intro fs hc; cases hc)
  | .ptrTo s => validateField_leaf t _ (by intro fs hc; cases hc)
  | .nilMap => validateField_leaf t _ (by intro fs hc; cases hc)
  | .mapOf s => validateField_leaf t _ (by intro fs hc; cases hc)
theorem validateFields_eq :
    (fs : List (StructField × Val)) →
      validateFields fs = ((leavesOfFields fs).filter offending).map (fun l => l.1.Name)
  | [] => rfl
  | (f, v) :: rest => by
    simp [validateFields, leavesOfFields, List.filter_append, validateField_eq f v,
      validateFields_eq rest]
end

/-- Claim C13, counterexample: a required timestamp field holding the Unix epoch, which
is not the zero value of time.Time, is reported as not filled. -/
theorem C13_counterexample :
    validate (.struct [(requiredField "Started", .time unixEpochTime)]) =
      some (.requiredFields ["Started"]) ∧
    Val.time unixEpochTime ≠ zeroVal .Time ∧
    deepZero (.time unixEpochTime) = false := by
  refine ⟨by decide, ?_, by decide⟩
  intro h
  exact absurd (Val.time.inj h) (by decide)

/-- Claim C13, amended: `validate` returns an error exactly when a leaf reachable
through nested structure values carries a true required annotation and holds the
zero value of its type or, for a timestamp, the zero instant or the Unix epoch;
the error lists the declared names of exactly those leaves, one per leaf, depth
first in declaration order. -/
theorem C13_required_leaves_at_zero_are_listed (fs : List (StructField × Val)) :
    (validate (.struct fs) ≠ none ↔ ∃ l ∈ leavesOfFields fs, offending l = true) ∧
    (∀ e, validate (.struct fs) = some e →
      e = .requiredFields (((leavesOfFields fs).filter offending).map (fun l => l.1.Name))) ∧
    (∀ quote e, validate (.struct fs) = some e →
      e.message quote = some ("required fields: [" ++
        " ".intercalate (((leavesOfFields fs).filter offending).map (fun l => l.1.Name)) ++
        "] are not filled up. Please check configuration")) := by
  have hv : validate (.struct fs) =
      if (((leavesOfFields fs).filter offending).map (fun l => l.1.Name)).length > 0 then
        some (.requiredFields (((leavesOfFields fs).filter offending).map (fun l => l.1.Name)))
      else none := by
    simp only [validate, validateFields_eq]
  refine ⟨?_, ?_, ?_⟩
  · rw [hv]
    constructor
    · intro h
      split_ifs at h with hl
      · simp only [List.length_map, gt_iff_lt, List.length_pos] at hl
        obtain ⟨l, hmem⟩ := List.exists_mem_of_ne_nil _ hl
        rw [List.mem_filter] at hmem
        exact ⟨l, hmem.1, hmem.2⟩
      · exact absurd rfl h
    · rintro ⟨l, hl, ho⟩
      have hmem : l ∈ (leavesOfFields fs).filter offending := List.mem_filter.mpr ⟨hl, ho⟩
      have hpos : (((leavesOfFields fs).filter offending).map (fun l => l.1.Name)).length > 0 := by
        simp only [List.length_map, gt_iff_lt]
        exact List.length_pos_of_mem hmem
      rw [if_pos hpos]
      simp
  · intro e he
    rw [hv] at he
    split_ifs at he
    cases he
    rfl
  · intro quote e he
    rw [hv] at he
    split_ifs at he
    cases he
    rfl

theorem C13_witness :
    (validate (.struct [(⟨"User", []⟩, userData)]) ≠ none ↔
      ∃ l ∈ leavesOfFields [(⟨"User", []⟩, userData)], offending l = true) ∧
    (∀ e, validate (.struct [(⟨"User", []⟩, userData)]) = some e →
      e = .requiredFields (((leavesOfFields [(⟨"User", []⟩, userData)]).filter offending).map
        (fun l => l.1.Name))) ∧
    (∀ quote e, validate (.struct [(⟨"User", []⟩, userData)]) = some e →
      e.message quote = some ("required fields: [" ++
        " ".intercalate (((leavesOfFields [(⟨"User", []⟩, userData)]).filter offending).map
          (fun l => l.1.Name)) ++
        "] are not filled up. Please check configuration")) :=
  C13_required_leaves_at_zero_are_listed [(⟨"User", []⟩, userData)]

theorem validate_user_structure :
    validateField ⟨"User", []⟩ userData =
      ["EmptyString", "EmptyInt", "EmptySlice", "PtrNil", "Map", "TimeNil", "Time",
        "DurationNil", "Duration"] ∧
    (validateField ⟨"User", []⟩ userData).length = 9 ∧
    validate userTest =
      some (.requiredFields ["EmptyString", "EmptyInt", "EmptySlice", "PtrNil", "Map",
        "TimeNil", "Time", "DurationNil", "Duration"]) ∧
    requiredText (validateField ⟨"User", []⟩ userData) =
      "required fields: [EmptyString EmptyInt EmptySlice PtrNil Map TimeNil Time DurationNil Duration] are not filled up. Please check configuration" := by
  refine ⟨by decide, by decide, by decide, by decide⟩

/-! ### The passes of the entry point, leaf by leaf -/

theorem setValue_keeps (p : TimeParsers) (v w : Val) (s : String)
    (h : setValue p v s = .ok w) :
    isSliceTyped w = isSliceTyped v ∧ isWalked w = isWalked v := by
  cases v with
  | str x =>
    simp [setValue, isTimeTyped, isTimeDurationTyped, isDurationTyped] at h
    subst h
    exact ⟨rfl, rfl⟩
  | bool b =>
    simp [setValue, isTimeTyped, isTimeDurationTyped, isDurationTyped, setBool] at h
    subst h
    exact ⟨rfl, rfl⟩
  | int k n =>
    cases k <;>
      simp [setValue, isTimeTyped, isTimeDurationTyped, isDurationTyped, setInt] at h <;>
      first
        | (subst h; exact ⟨rfl, rfl⟩)
        | (split at h
           · cases h
           · cases h; exact ⟨rfl, rfl⟩)
  | uint k n =>
    cases k <;>
      simp [setValue, isTimeTyped, isTimeDurationTyped, isDurationTyped, setUint] at h <;>
      first
        | (subst h; exact ⟨rfl, rfl⟩)
        | (split at h
           · cases h
           · cases h; exact ⟨rfl, rfl⟩)
  | time t =>
    simp [setValue, isTimeTyped, setTime, isPtrKind] at h
    split at h
    · cases h
    · cases h; exact ⟨rfl, rfl⟩
  | timeDuration ns =>
    simp [setValue, isTimeTyped, isTimeDurationTyped, setTimeDuration, isPtrKind] at h
    split at h
    · cases h
    · cases h; exact ⟨rfl, rfl⟩
  | duration ns =>
    simp [setValue, isTimeTyped, isTimeDurationTyped, isDurationTyped, setDuration, isPtrKind] at h
    split at h
    · cases h
    · cases h; exact ⟨rfl, rfl⟩
  | nilSlice e =>
    cases e <;>
      simp [setValue, isTimeTyped, isTimeDurationTyped, isDurationTyped, setSlice] at h <;>
      subst h <;> exact ⟨rfl, rfl⟩
  | slice e xs =>
    cases e <;>
      simp [setValue, isTimeTyped, isTimeDurationTyped, isDurationTyped, setSlice] at h <;>
      subst h <;> exact ⟨rfl, rfl⟩
  | nilPtr e =>
    cases e <;>
      simp [setValue, isTimeTyped, isTimeDurationTyped, isDurationTyped, setTime, setTimeDuration,
        setDuration, isPtrKind] at h <;>
      first
        | (subst h; exact ⟨rfl, rfl⟩)
        | (split at h
           · cases h
           · cases h; exact ⟨rfl, rfl⟩)
  | ptrTo x =>
    cases x <;>
      simp [setValue, isTimeTyped, isTimeDurationTyped, isDurationTyped, setTime, setTimeDuration,
        setDuration, isPtrKind] at h <;>
      first
        | (subst h; exact ⟨rfl, rfl⟩)
        | (split at h
           · cases h
           · cases h; exact ⟨rfl, rfl⟩)
  | struct fs =>
    simp [setValue, isTimeTyped, isTimeDurationTyped, isDurationTyped] at h
    subst h
    exact ⟨rfl, rfl⟩
  | nilMap =>
    simp [setValue, isTimeTyped, isTimeDurationTyped, isDurationTyped] at h
    subst h
    exact ⟨rfl, rfl⟩
  | mapOf size =>
    simp [setValue, isTimeTyped, isTimeDurationTyped, isDurationTyped] at h
    subst h
    exact ⟨rfl, rfl⟩

theorem leafAt_nil (t : StructField) (v : Val) :
    leafAt [] t v = if isWalked v then none else some (t, v) := by
  cases v <;> rfl

theorem leafAt_cons (j : Nat) (rest : List Nat) (t f : StructField) (v x : Val)
    (h : leafAt (j :: rest) t v = some (f, x)) :
    ∃ fs g y, v = .struct fs ∧ fs.get? j = some (g, y) ∧ leafAt rest g y = some (f, x) := by
  cases v with
  | struct fs =>
    simp only [leafAt] at h
    cases hj : fs.get? j with
    | none => rw [hj] at h; cases h
    | some gy =>
      obtain ⟨g, y⟩ := gy
      rw [hj] at h
      exact ⟨fs, g, y, rfl, hj, h⟩
  | _ => simp [leafAt] at h

theorem leafAt_struct (j : Nat) (rest : List Nat) (t g : StructField)
    (fs : List (StructField × Val)) (y : Val) (hj : fs.get? j = some (g, y)) :
    leafAt (j :: rest) t (.struct fs) = leafAt rest g y := by
  simp only [leafAt, hj]

theorem applyDefault_of_leaf (p : TimeParsers) (t : StructField) (v : Val)
    (h : isWalked v = false) :
    applyDefault p t v =
      (match t.Lookup "default" with
       | none => (v, none)
       | some value =>
         match setValue p v value with
         | .ok w => (w, none)
         | .error e => (v, some e)) := by
  cases v <;> first | (simp [isWalked] at h; done) | rfl

theorem applyDefaultFields_get (p : TimeParsers) (fs fs2 : List (StructField × Val))
    (h : applyDefaultFields p fs = (fs2, none)) :
    ∀ j f v, fs.get? j = some (f, v) →
      ∃ w, fs2.get? j = some (f, w) ∧ applyDefault p f v = (w, none) := by
  induction fs generalizing fs2 with
  | nil => intro j f v hj; simp at hj
  | cons fv rest ih =>
    obtain ⟨f0, v0⟩ := fv
    simp only [applyDefaultFields] at h
    cases hd : applyDefault p f0 v0 with
    | mk w0 err =>
      cases err with
      | some e => rw [hd] at h; simp at h
      | none =>
        rw [hd] at h
        simp only [Prod.mk.injEq] at h
        obtain ⟨h1, h2⟩ := h
        have hrest : applyDefaultFields p rest = ((applyDefaultFields p rest).1, none) := by
          rw [← h2]
        have hg := ih _ hrest
        subst h1
        intro j f v hj
        cases j with
        | zero =>
          simp at hj
          obtain ⟨rfl, rfl⟩ := hj
          exact ⟨w0, by simp, hd⟩
        | succ j =>
          simp at hj
          obtain ⟨w, hw, hw2⟩ := hg j f v (by simpa using hj)
          exact ⟨w, by simpa using hw, hw2⟩

theorem applyDefault_at (p : TimeParsers) (path : List Nat) :
    ∀ (t : StructField) (v v2 : Val) (f : StructField) (x : Val),
      applyDefault p t v = (v2, none) → leafAt path t v = some (f, x) →
      ∃ x2, leafAt path t v2 = some (f, x2) ∧ applyDefault p f x = (x2, none) ∧
        isWalked x = false ∧ isWalked x2 = false := by
  induction path with
  | nil =>
    intro t v v2 f x h hl
    rw [leafAt_nil] at hl
    cases hw : isWalked v with
    | true => rw [hw] at hl; simp at hl
    | false =>
      rw [hw] at hl
      simp only [Bool.false_eq_true, if_false, Option.some.injEq, Prod.mk.injEq] at hl
      obtain ⟨rfl, rfl⟩ := hl
      have hw2 : isWalked v2 = false := by
        rw [applyDefault_of_leaf p t v hw] at h
        cases hd : t.Lookup "default" with
        | none => rw [hd] at h; simp at h; rw [← h]; exact hw
        | some value =>
          rw [hd] at h
          simp only at h
          cases hs : setValue p v value with
          | error e => rw [hs] at h; simp at h
          | ok w =>
            rw [hs] at h
            simp at h
            rw [← h, (setValue_keeps p v w value hs).2]
            exact hw
      refine ⟨v2, ?_, h, hw, hw2⟩
      rw [leafAt_nil, hw2]
      rfl
  | cons j rest ih =>
    intro t v v2 f x h hl
    obtain ⟨fs, g, y, rfl, hj, hrest⟩ := leafAt_cons j rest t f v x hl
    simp only [applyDefault] at h
    simp only [Prod.mk.injEq] at h
    obtain ⟨h1, h2⟩ := h
    have hfields : applyDefaultFields p fs = ((applyDefaultFields p fs).1, none) := by
      rw [← h2]
    obtain ⟨w, hw, hw2⟩ := applyDefaultFields_get p fs _ hfields j g y hj
    obtain ⟨x2, hx2, hrest2⟩ := ih g y w f x hw2 hrest
    refine ⟨x2, ?_, hrest2⟩
    rw [← h1, leafAt_struct j rest t g _ w hw]
    exact hx2

theorem applyEnvValue_of_leaf (p : TimeParsers) (env : Environment) (t : StructField) (v : Val)
    (h : isWalked v = false) (hs : t.Lookup envPrefixTag = none ∨ isSliceTyped v = false) :
    applyEnvValue p env t v = some (applyEnvLeaf p env t v) := by
  have h1 : applyEnvValue p env t v =
      (match t.Lookup envPrefixTag with
       | none => some (applyEnvLeaf p env t v)
       | some pfx =>
         if isSliceTyped v then
           (applyEnvOverridesToSlice p env.environ pfx (.rvalue true v)).onField v
         else some (applyEnvLeaf p env t v)) := by
    cases v <;> first | (simp [isWalked] at h; done) | rfl
  rw [h1]
  rcases hs with hs | hs
  · rw [hs]
  · rw [hs]
    cases t.Lookup envPrefixTag <;> simp

theorem applyEnvLeaf_keeps (p : TimeParsers) (env : Environment) (t : StructField) (v w : Val)
    (h : applyEnvLeaf p env t v = (w, none)) : isWalked w = isWalked v := by
  unfold applyEnvLeaf at h
  cases hk : t.Lookup envConfigTag with
  | none => rw [hk] at h; simp at h; rw [h]
  | some key =>
    rw [hk] at h
    simp only at h
    cases hv : env.lookupEnv key with
    | none => rw [hv] at h; simp at h; rw [h]
    | some value =>
      rw [hv] at h
      simp only at h
      cases hs : setValue p v value with
      | error e => rw [hs] at h; simp at h
      | ok u =>
        rw [hs] at h
        simp at h
        rw [← h]
        exact (setValue_keeps p v u value hs).2

theorem applyEnvFields_get (p : TimeParsers) (env : Environment)
    (fs fs2 : List (StructField × Val)) (h : applyEnvFields p env fs = some (fs2, none)) :
    ∀ j f v, fs.get? j = some (f, v) →
      ∃ w, fs2.get? j = some (f, w) ∧ applyEnvValue p env f v = some (w, none) := by
  induction fs generalizing fs2 with
  | nil => intro j f v hj; simp at hj
  | cons fv rest ih =>
    obtain ⟨f0, v0⟩ := fv
    simp only [applyEnvFields] at h
    cases hd : applyEnvValue p env f0 v0 with
    | none => rw [hd] at h; simp at h
    | some r =>
      obtain ⟨w0, err⟩ := r
      cases err with
      | some e => rw [hd] at h; simp at h
      | none =>
        rw [hd] at h
        simp only at h
        cases hr : applyEnvFields p env rest with
        | none => rw [hr] at h; simp at h
        | some r2 =>
          obtain ⟨rest2, err2⟩ := r2
          rw [hr] at h
          simp only [Option.some.injEq, Prod.mk.injEq] at h
          obtain ⟨h1, h2⟩ := h
          subst h2
          have hg := ih rest2 hr
          subst h1
          intro j f v hj
          cases j with
          | zero =>
            simp at hj
            obtain ⟨rfl, rfl⟩ := hj
            exact ⟨w0, by simp, hd⟩
          | succ j =>
            simp at hj
            obtain ⟨w, hw, hw2⟩ := hg j f v (by simpa using hj)
            exact ⟨w, by simpa using hw, hw2⟩

theorem applyEnvValue_at (p : TimeParsers) (env : Environment) (path : List Nat) :
    ∀ (t : StructField) (v v2 : Val) (f : StructField) (x : Val),
      applyEnvValue p env t v = some (v2, none) → leafAt path t v = some (f, x) →
      (f.Lookup envPrefixTag = none ∨ isSliceTyped x = false) →
      ∃ x2, leafAt path t v2 = some (f, x2) ∧ applyEnvLeaf p env f x = (x2, none) := by
  induction path with
  | nil =>
    intro t v v2 f x h hl hs
    rw [leafAt_nil] at hl
    cases hw : isWalked v with
    | true => rw [hw] at hl; simp at hl
    | false =>
      rw [hw] at hl
      simp only [Bool.false_eq_true, if_false, Option.some.injEq, Prod.mk.injEq] at hl
      obtain ⟨rfl, rfl⟩ := hl
      rw [applyEnvValue_of_leaf p env t v hw hs] at h
      simp only [Option.some.injEq] at h
      refine ⟨v2, ?_, h⟩
      rw [leafAt_nil, applyEnvLeaf_keeps p env t v v2 h, hw]
      rfl
  | cons j rest ih =>
    intro t v v2 f x h hl hs
    obtain ⟨fs, g, y, rfl, hj, hrest⟩ := leafAt_cons j rest t f v x hl
    simp only [applyEnvValue] at h
    cases hr : applyEnvFields p env fs with
    | none => rw [hr] at h; simp at h
    | some r =>
      obtain ⟨fs2, err⟩ := r
      rw [hr] at h
      simp only [Option.some.injEq, Prod.mk.injEq] at h
      obtain ⟨h1, h2⟩ := h
      subst h2
      obtain ⟨w, hw, hw2⟩ := applyEnvFields_get p env fs fs2 hr j g y hj
      obtain ⟨x2, hx2, hrest2⟩ := ih g y w f x hw2 hrest hs
      refine ⟨x2, ?_, hrest2⟩
      rw [← h1, leafAt_struct j rest t g _ w hw]
      exact hx2

theorem applyEnv_eq (p : TimeParsers) (env : Environment) (v : Val)
    (h : isStructKind v = true) : applyEnv p env v = applyEnvValue p env noField v := by
  cases v <;> first | (simp [isStructKind] at h; done) | rfl

/-- What a run of `Init` without a file that returns no error went through: the default
pass, the environment pass and the validation, none of which failed. -/
theorem Init_returns (p : TimeParsers) (env : Environment) (load : JSONLoader) (cfg out : Val)
    (h : Init p env load (some (.ptrTo cfg)) "" = .returned (some (.ptrTo out)) none) :
    ∃ x1, applyDefault p noField cfg = (x1, none) ∧
      applyEnvValue p env noField x1 = some (out, none) ∧ validate out = none := by
  unfold Init at h
  simp only at h
  cases hk : isStructKind cfg with
  | false => rw [hk] at h; simp at h
  | true =>
    rw [hk] at h
    simp only [if_true] at h
    cases hd : applyDefault p noField cfg with
    | mk x1 err =>
      rw [hd] at h
      cases err with
      | some e => simp at h
      | none =>
        simp only [applyJSONConfig, String.length_empty, if_true] at h
        have hk1 : isStructKind x1 = true := by
          cases cfg <;> simp [isStructKind] at hk
          case time t =>
            have hn : applyDefault p noField (.time t) = (.time t, none) := rfl
            rw [hn] at hd
            simp only [Prod.mk.injEq, and_true] at hd
            rw [← hd]; rfl
          case struct fs =>
            simp only [applyDefault, Prod.mk.injEq] at hd
            rw [← hd.1]; rfl
        rw [applyEnv_eq p env x1 hk1] at h
        cases he : applyEnvValue p env noField x1 with
        | none => rw [he] at h; simp at h
        | some r =>
          obtain ⟨x3, err3⟩ := r
          rw [he] at h
          cases err3 with
          | some e => simp at h
          | none =>
            simp only [Run.returned.injEq, Option.some.injEq, Val.ptrTo.injEq] at h
            obtain ⟨h1, h2⟩ := h
            subst h1
            exact ⟨x1, rfl, he, h2⟩

theorem setValue_scalar (p : TimeParsers) (v : Val) (s : String) (w : Val)
    (hc : coerceScalar p v s = some w) :
    setValue p v s = .ok w ∧ isSliceTyped v = false := by
  cases v with
  | str x =>
    simp [coerceScalar] at hc
    simp [setValue, isTimeTyped, isTimeDurationTyped, isDurationTyped, hc, isSliceTyped]
  | bool b =>
    simp [coerceScalar] at hc
    simp [setValue, isTimeTyped, isTimeDurationTyped, isDurationTyped, setBool, isTrue, ← hc,
      isSliceTyped]
  | int k n =>
    cases k <;> simp only [coerceScalar, Option.map_eq_some', reduceCtorEq] at hc <;>
      obtain ⟨z, hz, rfl⟩ := hc <;>
      simp [setValue, isTimeTyped, isTimeDurationTyped, isDurationTyped, setInt, hz, IntKind.bits,
        wrapInt_ParseInt s z hz, isSliceTyped]
  | uint k n =>
    cases k <;> simp only [coerceScalar, Option.map_eq_some', reduceCtorEq] at hc <;>
      obtain ⟨z, hz, rfl⟩ := hc <;>
      (first
        | exact ⟨((setValue_wide_uint p _ (Or.inl rfl) n s).1 z hz), rfl⟩
        | exact ⟨((setValue_wide_uint p _ (Or.inr rfl) n s).1 z hz), rfl⟩)
  | time t =>
    simp only [coerceScalar, Option.map_eq_some'] at hc
    obtain ⟨z, hz, rfl⟩ := hc
    simp [setValue, isTimeTyped, setTime, hz, isPtrKind, isSliceTyped]
  | timeDuration ns =>
    simp only [coerceScalar, Option.map_eq_some'] at hc
    obtain ⟨z, hz, rfl⟩ := hc
    simp [setValue, isTimeTyped, isTimeDurationTyped, setTimeDuration, hz, isPtrKind,
      isSliceTyped]
  | duration ns =>
    simp only [coerceScalar, Option.map_eq_some'] at hc
    obtain ⟨z, hz, rfl⟩ := hc
    simp [setValue, isTimeTyped, isTimeDurationTyped, isDurationTyped, setDuration, hz, isPtrKind,
      isSliceTyped]
  | nilSlice e => simp [coerceScalar] at hc
  | slice e xs => simp [coerceScalar] at hc
  | nilPtr e =>
    cases e <;> simp only [coerceScalar, Option.map_eq_some', reduceCtorEq] at hc <;>
      obtain ⟨z, hz, rfl⟩ := hc <;>
      simp [setValue, isTimeTyped, isTimeDurationTyped, isDurationTyped, setTime, setTimeDuration,
        setDuration, hz, isPtrKind, isSliceTyped]
  | ptrTo x =>
    cases x <;> simp only [coerceScalar, Option.map_eq_some', reduceCtorEq] at hc <;>
      obtain ⟨z, hz, rfl⟩ := hc <;>
      simp [setValue, isTimeTyped, isTimeDurationTyped, isDurationTyped, setTime, setTimeDuration,
        setDuration, hz, isPtrKind, isSliceTyped]
  | struct fs => simp [coerceScalar] at hc
  | nilMap => simp [coerceScalar] at hc
  | mapOf size => simp [coerceScalar] at hc

theorem applyDefault_leaf_stable (p : TimeParsers) (f : StructField) (x x2 : Val)
    (hw : isWalked x = false) (h : applyDefault p f x = (x2, none)) :
    (∀ s, setValue p x2 s = setValue p x s) ∧ isSliceTyped x2 = isSliceTyped x := by
  rw [applyDefault_of_leaf p f x hw] at h
  cases hd : f.Lookup "default" with
  | none =>
    rw [hd] at h
    simp only [Prod.mk.injEq, and_true] at h
    subst h
    exact ⟨fun _ => rfl, rfl⟩
  | some value =>
    rw [hd] at h
    simp only at h
    cases hs : setValue p x value with
    | error e => rw [hs] at h; simp at h
    | ok u =>
      rw [hs] at h
      simp only [Prod.mk.injEq, and_true] at h
      subst h
      exact ⟨fun s => setValue_stable p x u value hs s, (setValue_keeps p x u value hs).1⟩

/-- Claim C12, counterexample: in the configuration of TestInit with INIT_POOL_SIZE=1.0
and INIT_ENABLED=false, `Init` stops at the pool size; Enabled, a boolean leaf
with a default and an envconfig annotation whose variable holds the valid
literal "false", is left at its default true. -/
theorem C12_counterexample :
    Init sampleParsers (envOf [("INIT_POOL_SIZE", "1.0"), ("INIT_ENABLED", "false")]) noFile
        (some (.ptrTo (initConfig "" "" 0 false))) "" =
      .returned (some (.ptrTo (initConfig "" "" 0 true))) (some (.parseFailed "1.0" "Uint64")) ∧
    coerceScalar sampleParsers (.bool false) "false" = some (.bool false) := by
  exact ⟨by rfl, by rfl⟩

/-- Claim C12, amended: when a run of `Init` without a JSON file returns no error, every
scalar leaf with an envconfig annotation whose variable is set to a literal valid
for the type of the leaf holds the coercion of that literal, whatever default
literal the leaf carries and whatever it held before. -/
theorem C12_environment_value_overrides_default (p : TimeParsers) (env : Environment)
    (load : JSONLoader) (cfg out : Val) (path : List Nat) (f : StructField) (x : Val)
    (name lit : String) (w : Val)
    (hrun : Init p env load (some (.ptrTo cfg)) "" = .returned (some (.ptrTo out)) none)
    (hleaf : leafAt path noField cfg = some (f, x))
    (hname : f.Lookup envConfigTag = some name)
    (hset : env.lookupEnv name = some lit)
    (hvalid : coerceScalar p x lit = some w) :
    leafAt path noField out = some (f, w) := by
  obtain ⟨x1, hd, he, _⟩ := Init_returns p env load cfg out hrun
  obtain ⟨x2, hl2, hd2, hw, _⟩ := applyDefault_at p path noField cfg x1 f x hd hleaf
  obtain ⟨hst, hsl⟩ := applyDefault_leaf_stable p f x x2 hw hd2
  obtain ⟨hsv, hns⟩ := setValue_scalar p x lit w hvalid
  obtain ⟨x3, hl3, he3⟩ :=
    applyEnvValue_at p env path noField x1 out f x2 he hl2 (Or.inr (by rw [hsl, hns]))
  rw [hl3]
  unfold applyEnvLeaf at he3
  rw [hname] at he3
  simp only [hset, hst lit, hsv, Prod.mk.injEq, and_true] at he3
  rw [he3]

theorem C12_witness :
    leafAt [0] noField (timeoutsConfig 0 0) =
      some (⟨"ReadTimeout", [("envconfig", "READ_TIMEOUT"), ("default", "1s")]⟩,
        .timeDuration 0) ∧
    leafAt [0] noField (timeoutsConfig 30000000000 10000000000) =
      some (⟨"ReadTimeout", [("envconfig", "READ_TIMEOUT"), ("default", "1s")]⟩,
        .timeDuration 30000000000) :=
  ⟨by rfl,
   C12_environment_value_overrides_default sampleParsers
    (envOf [("VERSION", "0.0.1"), ("READ_TIMEOUT", "30s")]) noFile (timeoutsConfig 0 0)
    (timeoutsConfig 30000000000 10000000000) [0]
    ⟨"ReadTimeout", [("envconfig", "READ_TIMEOUT"), ("default", "1s")]⟩ (.timeDuration 0)
    "READ_TIMEOUT" "30s" (.timeDuration 30000000000) (by rfl) (by rfl) (by rfl) (by rfl) (by rfl)⟩

/-- Claim C11, counterexample: the configuration of ExampleInitTimeout with ReadTimeout
set to 5s before the call and no variable in the environment: after `Init` the
field holds its default 1s. -/
theorem C11_counterexample :
    Init sampleParsers (envOf []) noFile (some (.ptrTo (timeoutsConfig 5000000000 0))) "" =
      .returned (some (.ptrTo (timeoutsConfig 1000000000 10000000000))) none ∧
    isZero (.timeDuration 5000000000) = false := by
  exact ⟨by rfl, by rfl⟩

/-- Claim C11, amended: when a run of `Init` without a JSON file returns no error, every
leaf of a listed type with a default annotation whose literal is valid for the
type, no variable of its own in the environment and no slice reconstruction
holds the coercion of its default literal, whatever it held before the call,
zero or not. -/
theorem C11_default_replaces_what_the_field_held (p : TimeParsers) (env : Environment)
    (load : JSONLoader) (cfg out : Val) (path : List Nat) (f : StructField) (x : Val)
    (d : String) (w : Val)
    (hrun : Init p env load (some (.ptrTo cfg)) "" = .returned (some (.ptrTo out)) none)
    (hleaf : leafAt path noField cfg = some (f, x))
    (hdef : f.Lookup "default" = some d)
    (hnoenv : ∀ name, f.Lookup envConfigTag = some name → env.lookupEnv name = none)
    (hplain : f.Lookup envPrefixTag = none ∨ isSliceTyped x = false)
    (hlisted : listedLeaf x = true) (hvalid : coerceSpec p x d = some w) :
    leafAt path noField out = some (f, w) := by
  obtain ⟨x1, hd, he, _⟩ := Init_returns p env load cfg out hrun
  obtain ⟨x2, hl2, hd2, hw, _⟩ := applyDefault_at p path noField cfg x1 f x hd hleaf
  obtain ⟨_, hsl⟩ := applyDefault_leaf_stable p f x x2 hw hd2
  have hx2 : x2 = w := by
    rw [applyDefault_of_leaf p f x hw, hdef] at hd2
    simp only [setValue_listed p x d w hlisted hvalid, Prod.mk.injEq, and_true] at hd2
    exact hd2.symm
  subst hx2
  obtain ⟨x3, hl3, he3⟩ :=
    applyEnvValue_at p env path noField x1 out f x2 he hl2 (by rw [hsl]; exact hplain)
  rw [hl3]
  unfold applyEnvLeaf at he3
  cases hk : f.Lookup envConfigTag with
  | none =>
    rw [hk] at he3
    simp only [Prod.mk.injEq, and_true] at he3
    rw [he3]
  | some name =>
    rw [hk] at he3
    simp only [hnoenv name hk, Prod.mk.injEq, and_true] at he3
    rw [he3]

theorem C11_witness :
    leafAt [0] noField (initConfig "alice" "secret" 7 false) =
      some (⟨"User", [("json", "user"), ("envconfig", "INIT_USER"), ("default", "")]⟩,
        .str "alice") ∧
    leafAt [0] noField (initConfig "" "" 0 true) =
      some (⟨"User", [("json", "user"), ("envconfig", "INIT_USER"), ("default", "")]⟩,
        .str "") :=
  ⟨by rfl,
   C11_default_replaces_what_the_field_held sampleParsers (envOf []) noFile
    (initConfig "alice" "secret" 7 false) (initConfig "" "" 0 true) [0]
    ⟨"User", [("json", "user"), ("envconfig", "INIT_USER"), ("default", "")]⟩ (.str "alice")
    "" (.str "") (by rfl) (by rfl) (by rfl) (by intro name _; rfl) (Or.inl (by rfl)) (by rfl)
    (by rfl)⟩

theorem init_timeouts_example :
    Init sampleParsers (envOf [("VERSION", "0.0.1"), ("READ_TIMEOUT", "30s")]) noFile
        (some (.ptrTo (timeoutsConfig 0 0))) "" =
      .returned (some (.ptrTo (timeoutsConfig 30000000000 10000000000))) none := by
  rfl

/-! ### Durations: formatting and parsing back -/

theorem digitChar_spec (n : Nat) (h : n < 10) :
    isDigit (digitChar n) = true ∧ (digitChar n).toNat - '0'.toNat = n := by
  interval_cases n <;> exact ⟨by decide, by decide⟩

theorem digitsValue_foldl (ds : List Char) (x : Nat) :
    ds.foldl (fun acc c => 10 * acc + (c.toNat - '0'.toNat)) x =
      x * 10 ^ ds.length + digitsValue ds := by
  induction ds generalizing x with
  | nil => simp [digitsValue]
  | cons c cs ih =>
    simp only [List.foldl_cons, List.length_cons, digitsValue]
    rw [ih, ih (10 * 0 + (c.toNat - '0'.toNat))]
    ring

theorem digitsValue_snoc (ds : List Char) (c : Char) :
    digitsValue (ds ++ [c]) = 10 * digitsValue ds + (c.toNat - '0'.toNat) := by
  simp [digitsValue, List.foldl_append]

theorem digitsValue_cons (c : Char) (ds : List Char) :
    digitsValue (c :: ds) = (c.toNat - '0'.toNat) * 10 ^ ds.length + digitsValue ds := by
  have := digitsValue_foldl ds (10 * 0 + (c.toNat - '0'.toNat))
  simp only [digitsValue, List.foldl_cons] at this ⊢
  rw [this]
  ring

theorem fmtIntLoop_spec (fuel : Nat) :
    ∀ (v : Nat) (buf : List Char), v < 10 ^ fuel →
      ∃ ds, fmtIntLoop fuel v buf = ds ++ buf ∧ ds.all isDigit = true ∧
        digitsValue ds = v ∧ (0 < v → ds ≠ []) := by
  induction fuel with
  | zero =>
    intro v buf hv
    have : v = 0 := by simpa using hv
    subst this
    exact ⟨[], rfl, rfl, rfl, by intro h; omega⟩
  | succ fuel ih =>
    intro v buf hv
    by_cases h0 : v = 0
    · subst h0
      exact ⟨[], by simp [fmtIntLoop], rfl, rfl, by intro h; omega⟩
    · have hlt : v / 10 < 10 ^ fuel := by
        rw [Nat.div_lt_iff_lt_mul (by norm_num)]
        rw [pow_succ] at hv
        exact hv
      obtain ⟨ds, hds, hall, hval, _⟩ := ih (v / 10) (digitChar (v % 10) :: buf) hlt
      obtain ⟨hd1, hd2⟩ := digitChar_spec (v % 10) (Nat.mod_lt _ (by norm_num))
      refine ⟨ds ++ [digitChar (v % 10)], ?_, ?_, ?_, ?_⟩
      · simp [fmtIntLoop, h0, hds]
      · simp [List.all_append, hall, hd1]
      · rw [digitsValue_snoc, hval, hd2]
        omega
      · intro _; simp

theorem fmtInt_spec (v : Nat) (hv : v < 10 ^ 20) :
    ∃ ds, fmtInt v = ds ∧ ds ≠ [] ∧ ds.all isDigit = true ∧ digitsValue ds = v := by
  unfold fmtInt
  by_cases h0 : v = 0
  · subst h0
    exact ⟨['0'], by simp, by simp, by decide, by decide⟩
  · obtain ⟨ds, hds, hall, hval, hne⟩ := fmtIntLoop_spec 20 v [] hv
    refine ⟨ds, ?_, hne (Nat.pos_of_ne_zero h0), hall, hval⟩
    simp [h0, hds]

theorem fmtFracLoop_printing (n : Nat) :
    ∀ (v : Nat) (buf : List Char),
      ∃ ds, fmtFracLoop n v true buf = (ds ++ buf, true, v / 10 ^ n) ∧ ds.length = n ∧
        ds.all isDigit = true ∧ digitsValue ds = v % 10 ^ n := by
  induction n with
  | zero =>
    intro v buf
    exact ⟨[], by simp [fmtFracLoop], rfl, rfl, by simp [digitsValue, Nat.mod_one]⟩
  | succ n ih =>
    intro v buf
    obtain ⟨ds, hds, hlen, hall, hval⟩ := ih (v / 10) (digitChar (v % 10) :: buf)
    obtain ⟨hd1, hd2⟩ := digitChar_spec (v % 10) (Nat.mod_lt _ (by norm_num))
    refine ⟨ds ++ [digitChar (v % 10)], ?_, ?_, ?_, ?_⟩
    · simp only [fmtFracLoop, Bool.true_or, if_true, hds, List.append_assoc, List.singleton_append,
        Nat.div_div_eq_div_mul, pow_succ]
      rw [Nat.mul_comm]
    · simp [hlen]
    · simp [List.all_append, hall, hd1]
    · rw [digitsValue_snoc, hval, hd2, pow_succ, Nat.mul_comm (10 ^ n) 10, Nat.mod_mul]
      omega


theorem fmtFracLoop_waiting (n : Nat) :
    ∀ (v : Nat) (buf : List Char),
      ∃ ds, fmtFracLoop n v false buf = (ds ++ buf, !ds.isEmpty, v / 10 ^ n) ∧ ds.length ≤ n ∧
        ds.all isDigit = true ∧ digitsValue ds * 10 ^ (n - ds.length) = v % 10 ^ n ∧
        (ds ≠ [] → 0 < digitsValue ds) := by
  induction n with
  | zero =>
    intro v buf
    exact ⟨[], by simp [fmtFracLoop], by simp, rfl, by simp [digitsValue, Nat.mod_one],
      by intro h; exact absurd rfl h⟩
  | succ n ih =>
    intro v buf
    by_cases hz : v % 10 = 0
    · obtain ⟨ds, hds, hlen, hall, hval, hpos⟩ := ih (v / 10) buf
      refine ⟨ds, ?_, by omega, hall, ?_, hpos⟩
      · simp only [fmtFracLoop, hz, Bool.false_or, bne_self_eq_false, Bool.false_eq_true, if_false,
          hds, Nat.div_div_eq_div_mul, pow_succ]
        rw [Nat.mul_comm]
      · have : n + 1 - ds.length = (n - ds.length) + 1 := by omega
        rw [this, pow_succ, ← Nat.mul_assoc, hval, pow_succ, Nat.mul_comm (10 ^ n) 10, Nat.mod_mul]
        omega
    · obtain ⟨ds, hds, hlen, hall, hval⟩ :=
        fmtFracLoop_printing n (v / 10) (digitChar (v % 10) :: buf)
      obtain ⟨hd1, hd2⟩ := digitChar_spec (v % 10) (Nat.mod_lt _ (by norm_num))
      have hne : (v % 10 != 0) = true := by simpa using hz
      refine ⟨ds ++ [digitChar (v % 10)], ?_, by simp [hlen], ?_, ?_, ?_⟩
      · simp only [fmtFracLoop, hne, Bool.false_or, if_true, hds, List.append_assoc,
          List.singleton_append, Nat.div_div_eq_div_mul, pow_succ]
        rw [Nat.mul_comm]
        simp
      · simp [List.all_append, hall, hd1]
      · have : n + 1 - (ds ++ [digitChar (v % 10)]).length = 0 := by simp [hlen]
        rw [this, pow_zero, Nat.mul_one, digitsValue_snoc, hval, hd2, pow_succ,
          Nat.mul_comm (10 ^ n) 10, Nat.mod_mul]
        omega
      · intro _
        rw [digitsValue_snoc, hd2]
        omega

theorem fmtFrac_spec (v n : Nat) :
    ∃ ds, fmtFrac v n = (if ds = [] then [] else '.' :: ds, v / 10 ^ n) ∧ ds.length ≤ n ∧
      ds.all isDigit = true ∧ digitsValue ds * 10 ^ (n - ds.length) = v % 10 ^ n ∧
      (ds ≠ [] → 0 < digitsValue ds) := by
  obtain ⟨ds, hds, hlen, hall, hval, hpos⟩ := fmtFracLoop_waiting n v []
  refine ⟨ds, ?_, hlen, hall, hval, hpos⟩
  unfold fmtFrac
  rw [hds]
  cases ds <;> simp

theorem leadingInt_digits (ds : List Char) :
    ∀ (x : Nat) (tail : List Char), ds.all isDigit = true →
      (∀ c rest, tail = c :: rest → isDigit c = false) →
      x * 10 ^ ds.length + digitsValue ds ≤ 2 ^ 63 →
      leadingInt (ds ++ tail) x = some (x * 10 ^ ds.length + digitsValue ds, tail) := by
  induction ds with
  | nil =>
    intro x tail _ htail _
    cases tail with
    | nil => simp [leadingInt, digitsValue]
    | cons c rest => simp [leadingInt, digitsValue, htail c rest rfl]
  | cons c ds ih =>
    intro x tail hall htail hb
    simp only [List.all_cons, Bool.and_eq_true] at hall
    obtain ⟨hc, hall⟩ := hall
    rw [digitsValue_cons] at hb ⊢
    have hpos : 0 < 10 ^ ds.length := Nat.pow_pos (by norm_num)
    have hy : (x * 10 + (c.toNat - '0'.toNat)) * 10 ^ ds.length + digitsValue ds ≤ 2 ^ 63 := by
      have : (x * 10 + (c.toNat - '0'.toNat)) * 10 ^ ds.length =
          x * 10 ^ (ds.length + 1) + (c.toNat - '0'.toNat) * 10 ^ ds.length := by ring
      rw [this]
      simpa [Nat.add_assoc] using hb
    have hy2 : x * 10 + (c.toNat - '0'.toNat) ≤ 2 ^ 63 := by
      calc x * 10 + (c.toNat - '0'.toNat)
          ≤ (x * 10 + (c.toNat - '0'.toNat)) * 10 ^ ds.length := Nat.le_mul_of_pos_right _ hpos
        _ ≤ _ := by omega
    have hx : ¬ (x > 2 ^ 63 / 10) := by
      have : x ≤ 2 ^ 63 / 10 := by
        rw [Nat.le_div_iff_mul_le (by norm_num)]
        omega
      omega
    have hstep : leadingInt ((c :: ds) ++ tail) x =
        leadingInt (ds ++ tail) (x * 10 + (c.toNat - '0'.toNat)) := by
      simp only [List.cons_append, leadingInt, hc, Bool.not_true, Bool.false_eq_true, if_false, hx]
      rw [if_neg (by omega)]
      rfl
    rw [hstep, ih _ tail hall htail hy]
    congr 2
    simp only [List.length_cons]
    ring

theorem leadingFraction_digits (ds : List Char) :
    ∀ (x k : Nat) (tail : List Char), ds.all isDigit = true →
      (∀ c rest, tail = c :: rest → isDigit c = false) →
      x * 10 ^ ds.length + digitsValue ds ≤ 2 ^ 63 - 1 →
      leadingFraction (ds ++ tail) x k false =
        (x * 10 ^ ds.length + digitsValue ds, k + ds.length, tail) := by
  induction ds with
  | nil =>
    intro x k tail _ htail _
    cases tail with
    | nil => simp [leadingFraction, digitsValue]
    | cons c rest => simp [leadingFraction, digitsValue, htail c rest rfl]
  | cons c ds ih =>
    intro x k tail hall htail hb
    simp only [List.all_cons, Bool.and_eq_true] at hall
    obtain ⟨hc, hall⟩ := hall
    rw [digitsValue_cons] at hb ⊢
    have hpos : 0 < 10 ^ ds.length := Nat.pow_pos (by norm_num)
    have hy : (x * 10 + (c.toNat - '0'.toNat)) * 10 ^ ds.length + digitsValue ds ≤ 2 ^ 63 - 1 := by
      have : (x * 10 + (c.toNat - '0'.toNat)) * 10 ^ ds.length =
          x * 10 ^ (ds.length + 1) + (c.toNat - '0'.toNat) * 10 ^ ds.length := by ring
      rw [this]
      simpa [Nat.add_assoc] using hb
    have hy2 : x * 10 + (c.toNat - '0'.toNat) ≤ 2 ^ 63 - 1 := by
      calc x * 10 + (c.toNat - '0'.toNat)
          ≤ (x * 10 + (c.toNat - '0'.toNat)) * 10 ^ ds.length := Nat.le_mul_of_pos_right _ hpos
        _ ≤ _ := by omega
    have hx : ¬ (x > (2 ^ 63 - 1) / 10) := by
      have : x ≤ (2 ^ 63 - 1) / 10 := by
        rw [Nat.le_div_iff_mul_le (by norm_num)]
        omega
      omega
    have hstep : leadingFraction ((c :: ds) ++ tail) x k false =
        leadingFraction (ds ++ tail) (x * 10 + (c.toNat - '0'.toNat)) (k + 1) false := by
      simp only [List.cons_append, leadingFraction, hc, Bool.not_true, Bool.false_eq_true,
        if_false, hx]
      rw [if_neg (by omega)]
      rfl
    rw [hstep, ih _ _ tail hall htail hy]
    congr 1
    · simp only [List.length_cons]
      ring
    · simp only [List.length_cons]
      congr 1
      omega

theorem takeWhile_append_stop (q : Char → Bool) (us rest : List Char)
    (hus : ∀ c ∈ us, q c = true) (hrest : ∀ c r, rest = c :: r → q c = false) :
    (us ++ rest).takeWhile q = us ∧ (us ++ rest).dropWhile q = rest := by
  induction us with
  | nil =>
    cases rest with
    | nil => simp
    | cons c r => simp [List.takeWhile, List.dropWhile, hrest c r rfl]
  | cons u us ih =>
    have hu := hus u (List.mem_cons_self _ _)
    have := ih (fun c hc => hus c (List.mem_cons_of_mem _ hc))
    simp [List.takeWhile, List.dropWhile, hu, this]

theorem parseTerm_plain (step : FractionStep) (ds us rest : List Char) (v unit : Nat)
    (hne : ds ≠ []) (hall : ds.all isDigit = true) (hval : digitsValue ds = v)
    (hv63 : v ≤ 2 ^ 63)
    (hus : us ≠ []) (hletters : ∀ c ∈ us, (c == '.' || isDigit c) = false)
    (hunit : unitNanos (String.mk us) = some unit)
    (hrest : ∀ c r, rest = c :: r → isDigit c = true)
    (hv : v ≤ 2 ^ 63 / unit) :
    parseTerm step (ds ++ (us ++ rest)) = some (v * unit, rest) := by
  obtain ⟨c0, ds', rfl⟩ := List.exists_cons_of_ne_nil hne
  obtain ⟨u0, us', rfl⟩ := List.exists_cons_of_ne_nil hus
  have hc0 : isDigit c0 = true := by
    simp only [List.all_cons, Bool.and_eq_true] at hall
    exact hall.1
  have hu0 := hletters u0 (List.mem_cons_self _ _)
  have hu0d : isDigit u0 = false := by
    simp only [Bool.or_eq_false_iff] at hu0
    exact hu0.2
  have hu0dot : u0 ≠ '.' := by
    simp only [Bool.or_eq_false_iff, beq_eq_false_iff_ne] at hu0
    exact hu0.1
  have hli : leadingInt ((c0 :: ds') ++ ((u0 :: us') ++ rest)) 0 =
      some (v, (u0 :: us') ++ rest) := by
    have := leadingInt_digits (c0 :: ds') 0 ((u0 :: us') ++ rest) hall
      (by intro c r h; simp only [List.cons_append, List.cons.injEq] at h; rw [← h.1]; exact hu0d)
      (by rw [hval]; simpa using hv63)
    rw [this, hval]
    simp
  have htw := takeWhile_append_stop (fun c => !(c == '.' || isDigit c)) (u0 :: us') rest
    (by intro c hc; simp only [hletters c hc, Bool.not_false])
    (by intro c r h; simp [hrest c r h])
  have hfr : fractionOf ((u0 :: us') ++ rest) = (0, 0, (u0 :: us') ++ rest, false) := by
    simp [fractionOf, hu0dot]
  have hlen : (((u0 :: us') ++ rest).length != ((c0 :: ds') ++ ((u0 :: us') ++ rest)).length)
      = true := by
    simp only [List.length_append, List.length_cons, bne_iff_ne, ne_eq]
    omega
  unfold parseTerm
  simp only [List.cons_append] at hli hfr hlen htw ⊢
  simp only [hc0, Bool.or_true, Bool.not_true, Bool.false_eq_true, if_false, hli, hfr, hlen,
    Bool.and_false, Bool.false_and, htw.1, htw.2, List.isEmpty_cons, hunit,
    lt_irrefl, gt_iff_lt]
  rw [if_neg (by omega)]

theorem parseTerm_fraction (step : FractionStep) (hstep : step.Exact)
    (ds fds us rest : List Char) (v f unit : Nat)
    (hne : ds ≠ []) (hall : ds.all isDigit = true) (hval : digitsValue ds = v)
    (hv63 : v ≤ 2 ^ 63)
    (hfne : fds ≠ []) (hfall : fds.all isDigit = true) (hfval : digitsValue fds = f)
    (hfpos : 0 < f) (hf53 : f < 2 ^ 53)
    (hus : us ≠ []) (hletters : ∀ c ∈ us, (c == '.' || isDigit c) = false)
    (hunit : unitNanos (String.mk us) = some unit)
    (hrest : ∀ c r, rest = c :: r → isDigit c = true)
    (hdvd : 10 ^ fds.length ∣ unit) (hu53 : unit < 2 ^ 53)
    (hprod : f * (unit / 10 ^ fds.length) < 2 ^ 53)
    (hv : v ≤ 2 ^ 63 / unit)
    (hsum : v * unit + f * (unit / 10 ^ fds.length) ≤ 2 ^ 63) :
    parseTerm step (ds ++ ('.' :: (fds ++ (us ++ rest)))) =
      some (v * unit + f * (unit / 10 ^ fds.length), rest) := by
  obtain ⟨c0, ds', rfl⟩ := List.exists_cons_of_ne_nil hne
  obtain ⟨u0, us', rfl⟩ := List.exists_cons_of_ne_nil hus
  have hc0 : isDigit c0 = true := by
    simp only [List.all_cons, Bool.and_eq_true] at hall
    exact hall.1
  have hu0 := hletters u0 (List.mem_cons_self _ _)
  have hu0d : isDigit u0 = false := by
    simp only [Bool.or_eq_false_iff] at hu0
    exact hu0.2
  have hli : leadingInt ((c0 :: ds') ++ ('.' :: (fds ++ ((u0 :: us') ++ rest)))) 0 =
      some (v, '.' :: (fds ++ ((u0 :: us') ++ rest))) := by
    have := leadingInt_digits (c0 :: ds') 0 ('.' :: (fds ++ ((u0 :: us') ++ rest))) hall
      (by intro c r h; simp only [List.cons.injEq] at h; rw [← h.1]; decide)
      (by rw [hval]; simpa using hv63)
    rw [this, hval]
    simp
  have hlf : leadingFraction (fds ++ ((u0 :: us') ++ rest)) 0 0 false =
      (f, fds.length, (u0 :: us') ++ rest) := by
    have := leadingFraction_digits fds 0 0 ((u0 :: us') ++ rest) hfall
      (by intro c r h; simp only [List.cons_append, List.cons.injEq] at h; rw [← h.1]; exact hu0d)
      (by rw [hfval]; norm_num at hf53 ⊢; omega)
    rw [this, hfval]
    simp
  have htw := takeWhile_append_stop (fun c => !(c == '.' || isDigit c)) (u0 :: us') rest
    (by intro c hc; simp only [hletters c hc, Bool.not_false])
    (by intro c r h; simp [hrest c r h])
  have hfr : fractionOf ('.' :: (fds ++ ((u0 :: us') ++ rest))) =
      (f, fds.length, (u0 :: us') ++ rest, true) := by
    have hl2 : (((u0 :: us') ++ rest).length != (fds ++ ((u0 :: us') ++ rest)).length) = true := by
      have : 0 < fds.length := List.length_pos.mpr hfne
      simp only [List.length_append, List.length_cons, bne_iff_ne, ne_eq]
      omega
    simp only [fractionOf, if_true, hlf, hl2]
  have hlen : (('.' :: (fds ++ ((u0 :: us') ++ rest))).length !=
      ((c0 :: ds') ++ ('.' :: (fds ++ ((u0 :: us') ++ rest)))).length) = true := by
    simp only [List.length_append, List.length_cons, bne_iff_ne, ne_eq]
    omega
  have hex := hstep f fds.length unit hdvd hf53 hu53 hprod
  have hmod : (v * unit + f * (unit / 10 ^ fds.length)) % 2 ^ 64 =
      v * unit + f * (unit / 10 ^ fds.length) := by
    apply Nat.mod_eq_of_lt
    norm_num at hsum ⊢
    omega
  unfold parseTerm
  simp only [List.cons_append] at hli hfr hlen htw ⊢
  simp only [hc0, Bool.or_true, Bool.not_true, Bool.false_eq_true, if_false, hli, hfr, hlen,
    Bool.and_false, Bool.false_and, htw.1, htw.2, List.isEmpty_cons, hunit, gt_iff_lt, hfpos,
    if_true, hex, hmod, Bool.not_false, Bool.and_true, Bool.true_and]
  rw [if_neg (by omega), if_neg (by omega)]

theorem parseTerm_formatted (step : FractionStep) (hstep : step.Exact) (w u prec : Nat)
    (us rest : List Char) (hu : w * 10 ^ prec + u % 10 ^ prec ≤ 2 ^ 63) (hprec : prec ≤ 9)
    (hus : us ≠ []) (hletters : ∀ c ∈ us, (c == '.' || isDigit c) = false)
    (hunit : unitNanos (String.mk us) = some (10 ^ prec))
    (hrest : ∀ c r, rest = c :: r → isDigit c = true) :
    parseTerm step (fmtInt w ++ (fmtFrac u prec).1 ++ (us ++ rest)) =
      some (w * 10 ^ prec + u % 10 ^ prec, rest) := by
  obtain ⟨fds, hfr, hflen, hfall, hfval, hfpos⟩ := fmtFrac_spec u prec
  have hppos : 0 < 10 ^ prec := Nat.pow_pos (by norm_num)
  have hp9 : 10 ^ prec ≤ 10 ^ 9 := Nat.pow_le_pow_right (by norm_num) hprec
  have hwle : w ≤ w * 10 ^ prec := Nat.le_mul_of_pos_right _ hppos
  obtain ⟨ds, hds, hne, hall, hval⟩ := fmtInt_spec w (by
    have : w < 10 ^ 20 := by norm_num at hu ⊢; omega
    omega)
  have hv : w ≤ 2 ^ 63 / 10 ^ prec := by
    rw [Nat.le_div_iff_mul_le hppos]
    omega
  rw [hfr]
  simp only [hds]
  by_cases hf : fds = []
  · subst hf
    simp only [if_true, List.append_nil]
    have hmod : u % 10 ^ prec = 0 := by
      rw [← hfval]
      simp [digitsValue]
    rw [parseTerm_plain step ds us rest w (10 ^ prec) hne hall hval (by omega) hus
      hletters hunit hrest hv, hmod]
    rfl
  · simp only [hf, if_false, List.append_assoc, List.cons_append]
    have hk : 10 ^ prec / 10 ^ fds.length = 10 ^ (prec - fds.length) :=
      Nat.pow_div hflen (by norm_num)
    have hlt : u % 10 ^ prec < 10 ^ prec := Nat.mod_lt _ hppos
    have hfle : digitsValue fds ≤ digitsValue fds * 10 ^ (prec - fds.length) :=
      Nat.le_mul_of_pos_right _ (Nat.pow_pos (by norm_num))
    have h53 : (10 : Nat) ^ 9 < 2 ^ 53 := by norm_num
    rw [parseTerm_fraction step hstep ds fds us rest w (digitsValue fds)
      (10 ^ prec) hne hall hval (by omega) hf hfall rfl (hfpos hf) (by omega) hus hletters hunit
      hrest (pow_dvd_pow 10 hflen) (by omega) (by rw [hk, hfval]; omega) hv
      (by rw [hk, hfval]; omega)]
    rw [hk, hfval]

theorem parseTerms_step (step : FractionStep) (fuel : Nat) (cs rest : List Char) (d v : Nat)
    (hcs : cs ≠ []) (hterm : parseTerm step cs = some (v, rest))
    (hsum : d + v ≤ 2 ^ 63) :
    parseTerms step (fuel + 1) cs d = parseTerms step fuel rest (d + v) := by
  obtain ⟨c, cs', rfl⟩ := List.exists_cons_of_ne_nil hcs
  have hmod : (d + v) % 2 ^ 64 = d + v := by
    apply Nat.mod_eq_of_lt
    norm_num at hsum ⊢
    omega
  simp only [parseTerms, hterm, hmod]
  rw [if_neg (by omega)]

theorem fmtInt_head (w : Nat) (hw : w < 10 ^ 20) (tail : List Char) :
    fmtInt w ++ tail ≠ [] ∧ 1 ≤ (fmtInt w).length ∧
    (∀ c r, fmtInt w ++ tail = c :: r → isDigit c = true) := by
  obtain ⟨ds, hds, hne, hall, _⟩ := fmtInt_spec w hw
  rw [hds]
  obtain ⟨c0, ds', rfl⟩ := List.exists_cons_of_ne_nil hne
  refine ⟨by simp, by simp, ?_⟩
  intro c r h
  simp only [List.cons_append, List.cons.injEq] at h
  simp only [List.all_cons, Bool.and_eq_true] at hall
  rw [← h.1]
  exact hall.1

/-- One term with its fraction, alone in the text. -/
theorem parseTerms_single (step : FractionStep) (hstep : step.Exact) (u prec : Nat)
    (us : List Char) (hu : u ≤ 2 ^ 63) (hprec : prec ≤ 9)
    (hus : us ≠ []) (hletters : ∀ c ∈ us, (c == '.' || isDigit c) = false)
    (hunit : unitNanos (String.mk us) = some (10 ^ prec)) (fuel : Nat)
    (hfuel : (fmtInt (fmtFrac u prec).2 ++ (fmtFrac u prec).1 ++ us).length < fuel) :
    parseTerms step fuel (fmtInt (fmtFrac u prec).2 ++ (fmtFrac u prec).1 ++ us) 0 = some u := by
  obtain ⟨fds, hfr, _⟩ := fmtFrac_spec u prec
  have hsnd : (fmtFrac u prec).2 = u / 10 ^ prec := by rw [hfr]
  have hdm := Nat.div_add_mod u (10 ^ prec)
  have hw20 : u / 10 ^ prec < 10 ^ 20 := by
    have := Nat.div_le_self u (10 ^ prec)
    norm_num at hu ⊢
    omega
  obtain ⟨hne, hlen, _⟩ := fmtInt_head (u / 10 ^ prec) hw20 ((fmtFrac u prec).1 ++ us)
  have hulen : 1 ≤ us.length := List.length_pos.mpr hus
  rw [hsnd] at hfuel ⊢
  simp only [List.length_append] at hfuel
  obtain ⟨m, rfl⟩ : ∃ m, fuel = m + 2 := ⟨fuel - 2, by omega⟩
  have hterm := parseTerm_formatted step hstep (u / 10 ^ prec) u prec us []
    (by rw [Nat.mul_comm]; omega) hprec hus hletters hunit (by intro c r h; cases h)
  simp only [List.append_nil] at hterm
  rw [parseTerms_step step (m + 1) _ [] 0 (u / 10 ^ prec * 10 ^ prec + u % 10 ^ prec)
    (by simpa [List.append_assoc] using hne) hterm (by rw [Nat.mul_comm]; omega)]
  simp only [parseTerms, Nat.zero_add]
  congr 1
  rw [Nat.mul_comm]
  exact hdm

theorem parseTerms_seconds (step : FractionStep) (hstep : step.Exact) (w u d : Nat)
    (hsum : d + (w * 10 ^ 9 + u % 10 ^ 9) ≤ 2 ^ 63) (fuel : Nat) :
    parseTerms step (fuel + 2) (fmtInt w ++ (fmtFrac u 9).1 ++ ['s']) d =
      some (d + (w * 10 ^ 9 + u % 10 ^ 9)) := by
  have hw20 : w < 10 ^ 20 := by norm_num at hsum ⊢; omega
  have hterm := parseTerm_formatted step hstep w u 9 ['s'] [] (by omega) (by norm_num)
    (by simp) (by intro c hc; simp only [List.mem_singleton] at hc; subst hc; decide)
    (by decide) (by intro c r h; cases h)
  simp only [List.append_nil] at hterm
  rw [parseTerms_step step (fuel + 1) _ [] d (w * 10 ^ 9 + u % 10 ^ 9)
    (by simp) hterm hsum]
  simp only [parseTerms]

theorem parseTerms_clock (step : FractionStep) (hstep : step.Exact) (u : Nat)
    (hu : u ≤ 2 ^ 63) (hsec : ¬ u < 1000000000) (fuel : Nat)
    (hfuel : (formatMagnitude u).length < fuel) :
    parseTerms step fuel (formatMagnitude u) 0 = some u := by
  obtain ⟨fds, hfr, _⟩ := fmtFrac_spec u 9
  have hsnd : (fmtFrac u 9).2 = u / 10 ^ 9 := by rw [hfr]
  have h63 : (2 : Nat) ^ 63 = 9223372036854775808 := by norm_num
  have h9 : (10 : Nat) ^ 9 = 1000000000 := by norm_num
  have h20 : (10 : Nat) ^ 20 = 100000000000000000000 := by norm_num
  rw [h63] at hu
  have hform : formatMagnitude u =
      if u / 10 ^ 9 / 60 > 0 then
        if u / 10 ^ 9 / 60 / 60 > 0 then
          fmtInt (u / 10 ^ 9 / 60 / 60) ++ 'h' ::
            (fmtInt (u / 10 ^ 9 / 60 % 60) ++ 'm' ::
              (fmtInt (u / 10 ^ 9 % 60) ++ (fmtFrac u 9).1 ++ ['s']))
        else fmtInt (u / 10 ^ 9 / 60 % 60) ++ 'm' ::
          (fmtInt (u / 10 ^ 9 % 60) ++ (fmtFrac u 9).1 ++ ['s'])
      else fmtInt (u / 10 ^ 9 % 60) ++ (fmtFrac u 9).1 ++ ['s'] := by
    simp only [formatMagnitude, hsec, if_false, hsnd]
  rw [hform] at hfuel ⊢
  have hs20 : u / 10 ^ 9 % 60 < 10 ^ 20 := by rw [h9, h20]; omega
  have hm20 : u / 10 ^ 9 / 60 % 60 < 10 ^ 20 := by rw [h9, h20]; omega
  have hh20 : u / 10 ^ 9 / 60 / 60 < 10 ^ 20 := by rw [h9, h20]; omega
  obtain ⟨_, hslen, hshead⟩ := fmtInt_head (u / 10 ^ 9 % 60) hs20 ((fmtFrac u 9).1 ++ ['s'])
  by_cases hmin : u / 10 ^ 9 / 60 > 0
  · rw [if_pos hmin] at hfuel ⊢
    obtain ⟨hmne, hmlen, hmhead⟩ := fmtInt_head (u / 10 ^ 9 / 60 % 60) hm20
      ('m' :: (fmtInt (u / 10 ^ 9 % 60) ++ (fmtFrac u 9).1 ++ ['s']))
    obtain ⟨mds, hmds, hmdne, hmall, hmval⟩ := fmtInt_spec (u / 10 ^ 9 / 60 % 60) hm20
    have hmterm : parseTerm step (fmtInt (u / 10 ^ 9 / 60 % 60) ++ 'm' ::
          (fmtInt (u / 10 ^ 9 % 60) ++ (fmtFrac u 9).1 ++ ['s'])) =
        some (u / 10 ^ 9 / 60 % 60 * 60000000000,
          fmtInt (u / 10 ^ 9 % 60) ++ (fmtFrac u 9).1 ++ ['s']) := by
      rw [hmds]
      exact parseTerm_plain step mds ['m'] _ _ 60000000000 hmdne hmall hmval
        (by rw [h63, h9]; omega) (by simp)
        (by intro c hc; simp only [List.mem_singleton] at hc; subst hc; decide)
        (by decide) (by simpa using hshead) (by rw [h63, h9]; omega)
    by_cases hhr : u / 10 ^ 9 / 60 / 60 > 0
    · rw [if_pos hhr] at hfuel ⊢
      obtain ⟨hhne, hhlen, _⟩ := fmtInt_head (u / 10 ^ 9 / 60 / 60) hh20
        ('h' :: (fmtInt (u / 10 ^ 9 / 60 % 60) ++ 'm' ::
          (fmtInt (u / 10 ^ 9 % 60) ++ (fmtFrac u 9).1 ++ ['s'])))
      obtain ⟨hds, hhds, hhdne, hhall, hhval⟩ := fmtInt_spec (u / 10 ^ 9 / 60 / 60) hh20
      have hhterm : parseTerm step (fmtInt (u / 10 ^ 9 / 60 / 60) ++ 'h' ::
            (fmtInt (u / 10 ^ 9 / 60 % 60) ++ 'm' ::
              (fmtInt (u / 10 ^ 9 % 60) ++ (fmtFrac u 9).1 ++ ['s']))) =
          some (u / 10 ^ 9 / 60 / 60 * 3600000000000,
            fmtInt (u / 10 ^ 9 / 60 % 60) ++ 'm' ::
              (fmtInt (u / 10 ^ 9 % 60) ++ (fmtFrac u 9).1 ++ ['s'])) := by
        rw [hhds]
        exact parseTerm_plain step hds ['h'] _ _ 3600000000000 hhdne hhall hhval
          (by rw [h63, h9]; omega) (by simp)
          (by intro c hc; simp only [List.mem_singleton] at hc; subst hc; decide)
          (by decide) hmhead (by rw [h63, h9]; omega)
      simp only [List.length_append, List.length_cons, List.length_nil] at hfuel
      obtain ⟨n, rfl⟩ : ∃ n, fuel = n + 4 := ⟨fuel - 4, by omega⟩
      rw [parseTerms_step step (n + 3) _ _ 0 _ hhne hhterm (by rw [h63, h9]; omega),
        parseTerms_step step (n + 2) _ _ _ _ hmne hmterm (by rw [h63, h9]; omega),
        parseTerms_seconds step hstep _ u _ (by rw [h63, h9]; omega) n]
      congr 1
      rw [h9]
      omega
    · rw [if_neg hhr] at hfuel ⊢
      simp only [List.length_append, List.length_cons, List.length_nil] at hfuel
      obtain ⟨n, rfl⟩ : ∃ n, fuel = n + 3 := ⟨fuel - 3, by omega⟩
      rw [parseTerms_step step (n + 2) _ _ 0 _ hmne hmterm (by rw [h63, h9]; omega),
        parseTerms_seconds step hstep _ u _ (by rw [h63, h9]; omega) n]
      congr 1
      rw [h9] at hhr ⊢
      omega
  · rw [if_neg hmin] at hfuel ⊢
    simp only [List.length_append, List.length_cons, List.length_nil] at hfuel
    obtain ⟨n, rfl⟩ : ∃ n, fuel = n + 2 := ⟨fuel - 2, by omega⟩
    rw [parseTerms_seconds step hstep _ u _ (by rw [h63, h9]; omega) n]
    congr 1
    rw [h9] at hmin ⊢
    omega

theorem parseTerms_formatMagnitude (step : FractionStep) (hstep : step.Exact) (u : Nat)
    (hu : u ≤ 2 ^ 63) (fuel : Nat) (hfuel : (formatMagnitude u).length < fuel) :
    parseTerms step fuel (formatMagnitude u) 0 = some u := by
  by_cases hsec : u < 1000000000
  · by_cases h0 : u = 0
    · subst h0
      have hform : formatMagnitude 0 = ['0', 's'] := by decide
      rw [hform] at hfuel ⊢
      simp only [List.length_cons, List.length_nil] at hfuel
      obtain ⟨n, rfl⟩ : ∃ n, fuel = n + 2 := ⟨fuel - 2, by omega⟩
      rfl
    · by_cases h1 : u < 1000
      · have hform : formatMagnitude u =
            fmtInt (fmtFrac u 0).2 ++ (fmtFrac u 0).1 ++ ['n', 's'] := by
          simp only [formatMagnitude, hsec, if_true, h0, if_false, h1]
        rw [hform] at hfuel ⊢
        exact parseTerms_single step hstep u 0 ['n', 's'] hu (by norm_num) (by simp)
          (by intro c hc
              simp only [List.mem_cons, List.mem_singleton, List.not_mem_nil, or_false] at hc
              rcases hc with rfl | rfl <;> decide)
          (by decide) fuel hfuel
      · by_cases h2 : u < 1000000
        · have hform : formatMagnitude u =
              fmtInt (fmtFrac u 3).2 ++ (fmtFrac u 3).1 ++ ['µ', 's'] := by
            simp only [formatMagnitude, hsec, if_true, h0, if_false, h1, h2]
          rw [hform] at hfuel ⊢
          exact parseTerms_single step hstep u 3 ['µ', 's'] hu (by norm_num) (by simp)
            (by intro c hc
                simp only [List.mem_cons, List.mem_singleton, List.not_mem_nil, or_false] at hc
                rcases hc with rfl | rfl <;> decide)
            (by decide) fuel hfuel
        · have hform : formatMagnitude u =
              fmtInt (fmtFrac u 6).2 ++ (fmtFrac u 6).1 ++ ['m', 's'] := by
            simp only [formatMagnitude, hsec, if_true, h0, if_false, h1, h2]
          rw [hform] at hfuel ⊢
          exact parseTerms_single step hstep u 6 ['m', 's'] hu (by norm_num) (by simp)
            (by intro c hc
                simp only [List.mem_cons, List.mem_singleton, List.not_mem_nil, or_false] at hc
                rcases hc with rfl | rfl <;> decide)
            (by decide) fuel hfuel
  · exact parseTerms_clock step hstep u hu hsec fuel hfuel

/-- The characters a formatted duration is made of. -/
theorem formatMagnitude_shape (u : Nat) (hu : u ≤ 2 ^ 63) :
    (∃ c r, formatMagnitude u = c :: r ∧ isDigit c = true ∧ r ≠ []) ∧
    (∀ c ∈ formatMagnitude u, isDigit c = true ∨ c ∈ ['.', 'h', 'm', 's', 'n', 'µ']) := by
  have h63 : (2 : Nat) ^ 63 = 9223372036854775808 := by norm_num
  have h20 : (10 : Nat) ^ 20 = 100000000000000000000 := by norm_num
  rw [h63] at hu
  have key : ∀ (w : Nat) (tail : List Char), w < 10 ^ 20 → tail ≠ [] →
      (∀ c ∈ tail, isDigit c = true ∨ c ∈ ['.', 'h', 'm', 's', 'n', 'µ']) →
      (∃ c r, fmtInt w ++ tail = c :: r ∧ isDigit c = true ∧ r ≠ []) ∧
      (∀ c ∈ fmtInt w ++ tail, isDigit c = true ∨ c ∈ ['.', 'h', 'm', 's', 'n', 'µ']) := by
    intro w tail hw htail hchars
    obtain ⟨ds, hds, hne, hall, _⟩ := fmtInt_spec w hw
    rw [hds]
    obtain ⟨c0, ds', rfl⟩ := List.exists_cons_of_ne_nil hne
    refine ⟨⟨c0, ds' ++ tail, rfl, ?_, by simp [htail]⟩, ?_⟩
    · simp only [List.all_cons, Bool.and_eq_true] at hall
      exact hall.1
    · intro c hc
      rcases List.mem_append.mp hc with hc | hc
      · left
        exact List.all_eq_true.mp hall c hc
      · exact hchars c hc
  have hfrac : ∀ (p : Nat) (us : List Char), us ≠ [] →
      (∀ c ∈ us, c ∈ ['.', 'h', 'm', 's', 'n', 'µ']) →
      (fmtFrac u p).1 ++ us ≠ [] ∧
      (∀ c ∈ (fmtFrac u p).1 ++ us, isDigit c = true ∨ c ∈ ['.', 'h', 'm', 's', 'n', 'µ']) := by
    intro p us hus hchars
    obtain ⟨fds, hfr, _, hfall, _⟩ := fmtFrac_spec u p
    rw [hfr]
    refine ⟨by simp [hus], ?_⟩
    intro c hc
    rcases List.mem_append.mp hc with hc | hc
    · by_cases hf : fds = []
      · simp [hf] at hc
      · simp only [hf, if_false, List.mem_cons] at hc
        rcases hc with rfl | hc
        · right; simp
        · left; exact List.all_eq_true.mp hfall c hc
    · right; exact hchars c hc
  have hsnd : ∀ p, (fmtFrac u p).2 < 10 ^ 20 := by
    intro p
    obtain ⟨fds, hfr, _⟩ := fmtFrac_spec u p
    rw [hfr, h20]
    have := Nat.div_le_self u (10 ^ p)
    simp only
    omega
  unfold formatMagnitude
  dsimp only
  split_ifs with hsec h0 h1 h2 hmin hhr
  · exact ⟨⟨'0', ['s'], rfl, by decide, by simp⟩, by
      intro c hc
      simp only [List.mem_cons, List.mem_singleton, List.not_mem_nil, or_false] at hc
      rcases hc with rfl | rfl
      · left; decide
      · right; simp⟩
  · obtain ⟨hne, hch⟩ := hfrac 0 ['n', 's'] (by simp) (by intro c hc; simp at hc ⊢; tauto)
    simpa [List.append_assoc] using key (fmtFrac u 0).2 _ (hsnd 0) hne hch
  · obtain ⟨hne, hch⟩ := hfrac 3 ['µ', 's'] (by simp) (by intro c hc; simp at hc ⊢; tauto)
    simpa [List.append_assoc] using key (fmtFrac u 3).2 _ (hsnd 3) hne hch
  · obtain ⟨hne, hch⟩ := hfrac 6 ['m', 's'] (by simp) (by intro c hc; simp at hc ⊢; tauto)
    simpa [List.append_assoc] using key (fmtFrac u 6).2 _ (hsnd 6) hne hch
  · obtain ⟨hne, hch⟩ := hfrac 9 ['s'] (by simp) (by intro c hc; simp at hc ⊢; tauto)
    have hs := key ((fmtFrac u 9).2 % 60) _ (by rw [h20]; omega) hne hch
    have hm := key ((fmtFrac u 9).2 / 60 % 60)
      ('m' :: (fmtInt ((fmtFrac u 9).2 % 60) ++ ((fmtFrac u 9).1 ++ ['s'])))
      (by rw [h20]; omega) (by simp) (by
        intro c hc
        rcases List.mem_cons.mp hc with rfl | hc
        · right; simp
        · exact hs.2 c hc)
    have hh := key ((fmtFrac u 9).2 / 60 / 60)
      ('h' :: (fmtInt ((fmtFrac u 9).2 / 60 % 60) ++
        'm' :: (fmtInt ((fmtFrac u 9).2 % 60) ++ ((fmtFrac u 9).1 ++ ['s']))))
      (by have := hsnd 9; rw [h20] at this ⊢; omega) (by simp) (by
        intro c hc
        rcases List.mem_cons.mp hc with rfl | hc
        · right; simp
        · exact hm.2 c hc)
    simpa [List.append_assoc] using hh
  · obtain ⟨hne, hch⟩ := hfrac 9 ['s'] (by simp) (by intro c hc; simp at hc ⊢; tauto)
    have hs := key ((fmtFrac u 9).2 % 60) _ (by rw [h20]; omega) hne hch
    have hm := key ((fmtFrac u 9).2 / 60 % 60)
      ('m' :: (fmtInt ((fmtFrac u 9).2 % 60) ++ ((fmtFrac u 9).1 ++ ['s'])))
      (by rw [h20]; omega) (by simp) (by
        intro c hc
        rcases List.mem_cons.mp hc with rfl | hc
        · right; simp
        · exact hs.2 c hc)
    simpa [List.append_assoc] using hm
  · obtain ⟨hne, hch⟩ := hfrac 9 ['s'] (by simp) (by intro c hc; simp at hc ⊢; tauto)
    have hs := key ((fmtFrac u 9).2 % 60) _ (by rw [h20]; omega) hne hch
    simpa [List.append_assoc] using hs

theorem ParseDuration_formatDuration (step : FractionStep) (hstep : step.Exact) (d : Int)
    (hlo : -2 ^ 63 ≤ d) (hhi : d < 2 ^ 63) :
    ParseDuration step (String.mk (formatDuration d)) = some d := by
  have hu : d.natAbs ≤ 2 ^ 63 := by
    have h63 : (2 : Int) ^ 63 = 9223372036854775808 := by norm_num
    have h63n : (2 : Nat) ^ 63 = 9223372036854775808 := by norm_num
    rw [h63] at hlo hhi
    rw [h63n]
    omega
  obtain ⟨⟨c, r, hcr, hc, hr⟩, _⟩ := formatMagnitude_shape d.natAbs hu
  have hparse := parseTerms_formatMagnitude step hstep d.natAbs hu
    ((formatMagnitude d.natAbs).length + 1) (by omega)
  have hmag : ∀ neg, parseMagnitude step neg (formatMagnitude d.natAbs) =
      if neg then some (- (d.natAbs : Int))
      else if d.natAbs > 2 ^ 63 - 1 then none else some (d.natAbs : Int) := by
    intro neg
    unfold parseMagnitude
    rw [hparse, hcr]
    have h1 : (c :: r == ['0']) = false := by
      cases r with
      | nil => exact absurd rfl hr
      | cons a b => simp
    simp [h1]
  unfold ParseDuration formatDuration
  by_cases hneg : d < 0
  · simp only [hneg, if_true]
    have : ('-' == '-') = true := by decide
    simp only [this, if_true, hmag true]
    congr 1
    omega
  · simp only [hneg, if_false, hcr]
    have h1 : (c == '-') = false := by
      rw [beq_eq_false_iff_ne]; rintro rfl; simp [isDigit] at hc
    have h2 : (c == '+') = false := by
      rw [beq_eq_false_iff_ne]; rintro rfl; simp [isDigit] at hc
    simp only [h1, h2, Bool.false_eq_true, if_false]
    rw [← hcr, hmag false]
    have h63n : (2 : Nat) ^ 63 = 9223372036854775808 := by norm_num
    have h63 : (2 : Int) ^ 63 = 9223372036854775808 := by norm_num
    rw [h63] at hhi
    rw [h63n]
    simp only [Bool.false_eq_true, if_false]
    rw [if_neg (by omega)]
    congr 1
    omega

/-- A character that JSON writes and reads as it is. -/
theorem plain_char (c : Char)
    (h : isDigit c = true ∨ c ∈ ['.', 'h', 'm', 's', 'n', 'µ', '-']) :
    jsonEscape c = [c] ∧ c ≠ Char.ofNat 34 ∧ c ≠ Char.ofNat 92 ∧ ¬ c.toNat < 32 := by
  rcases h with h | h
  · have hb : 48 ≤ c.toNat ∧ c.toNat ≤ 57 := by
      simp only [isDigit, Bool.and_eq_true, decide_eq_true_eq] at h
      exact ⟨h.1, h.2⟩
    have h1 : c ≠ Char.ofNat 34 := by rintro rfl; revert hb; decide
    have h2 : c ≠ Char.ofNat 92 := by rintro rfl; revert hb; decide
    have h3 : c ≠ Char.ofNat 10 := by rintro rfl; revert hb; decide
    have h4 : c ≠ Char.ofNat 13 := by rintro rfl; revert hb; decide
    have h5 : c ≠ Char.ofNat 9 := by rintro rfl; revert hb; decide
    have h6 : c ≠ '<' := by rintro rfl; revert hb; decide
    have h7 : c ≠ '>' := by rintro rfl; revert hb; decide
    have h8 : c ≠ '&' := by rintro rfl; revert hb; decide
    refine ⟨?_, h1, h2, by omega⟩
    unfold jsonEscape
    rw [if_neg h1, if_neg h2, if_neg h3, if_neg h4, if_neg h5,
      if_neg (by rintro (h | h | h | h) <;> first | omega | contradiction),
      if_neg (by omega), if_neg (by omega)]
  · simp only [List.mem_cons, List.mem_singleton, List.not_mem_nil, or_false] at h
    rcases h with rfl | rfl | rfl | rfl | rfl | rfl | rfl <;> decide

theorem unquoteLoop_plain (text : List Char) :
    ∀ (after : List Char) (fuel : Nat), text.length < fuel →
      (∀ c ∈ text, c ≠ Char.ofNat 34 ∧ c ≠ Char.ofNat 92 ∧ ¬ c.toNat < 32) →
      unquoteLoop fuel (text ++ Char.ofNat 34 :: after) = some (text, after) := by
  induction text with
  | nil =>
    intro after fuel hfuel _
    obtain ⟨n, rfl⟩ : ∃ n, fuel = n + 1 := ⟨fuel - 1, by simp at hfuel; omega⟩
    simp [unquoteLoop]
  | cons c text ih =>
    intro after fuel hfuel hplain
    obtain ⟨n, rfl⟩ : ∃ n, fuel = n + 1 := ⟨fuel - 1, by simp at hfuel; omega⟩
    obtain ⟨h1, h2, h3⟩ := hplain c (List.mem_cons_self _ _)
    have := ih after n (by simp at hfuel; omega)
      (fun x hx => hplain x (List.mem_cons_of_mem _ hx))
    have hstep : unquoteLoop (n + 1) ((c :: text) ++ Char.ofNat 34 :: after) =
        (unquoteLoop n (text ++ Char.ofNat 34 :: after)).map (fun r => (c :: r.1, r.2)) := by
      simp only [List.cons_append, unquoteLoop, if_neg h1, if_neg h2, if_neg h3]
      rfl
    rw [hstep, this]
    rfl

theorem json_round_trip_plain (text : List Char)
    (hplain : ∀ c ∈ text, isDigit c = true ∨ c ∈ ['.', 'h', 'm', 's', 'n', 'µ', '-']) :
    jsonMarshalString (String.mk text) = String.mk (Char.ofNat 34 :: (text ++ [Char.ofNat 34])) ∧
    jsonUnmarshalString (jsonMarshalString (String.mk text)) = some (String.mk text) := by
  have hesc : text.flatMap jsonEscape = text := by
    induction text with
    | nil => rfl
    | cons c text ih =>
      rw [List.flatMap_cons, (plain_char c (hplain c (List.mem_cons_self _ _))).1,
        ih (fun x hx => hplain x (List.mem_cons_of_mem _ hx))]
      rfl
  have hm : jsonMarshalString (String.mk text) =
      String.mk (Char.ofNat 34 :: (text ++ [Char.ofNat 34])) := by
    simp only [jsonMarshalString, hesc]
  refine ⟨hm, ?_⟩
  rw [hm]
  have hq : isJSONSpace (Char.ofNat 34) = false := by decide
  have hun := unquoteLoop_plain text [] ((text ++ [Char.ofNat 34]).length + 1)
    (by simp only [List.length_append, List.length_cons, List.length_nil]; omega)
    (fun c hc => (plain_char c (hplain c hc)).2)
  simp only [jsonUnmarshalString, List.dropWhile, hq, if_true, hun, List.all_nil]

theorem formatDuration_plain (d : Int) (hlo : -2 ^ 63 ≤ d) (hhi : d < 2 ^ 63) :
    ∀ c ∈ formatDuration d, isDigit c = true ∨ c ∈ ['.', 'h', 'm', 's', 'n', 'µ', '-'] := by
  have hu : d.natAbs ≤ 2 ^ 63 := by
    have h63 : (2 : Int) ^ 63 = 9223372036854775808 := by norm_num
    have h63n : (2 : Nat) ^ 63 = 9223372036854775808 := by norm_num
    rw [h63] at hlo hhi
    rw [h63n]
    omega
  obtain ⟨_, hch⟩ := formatMagnitude_shape d.natAbs hu
  have hmag : ∀ c ∈ formatMagnitude d.natAbs,
      isDigit c = true ∨ c ∈ ['.', 'h', 'm', 's', 'n', 'µ', '-'] := by
    intro c hc
    rcases hch c hc with h | h
    · exact Or.inl h
    · right
      simp only [List.mem_cons, List.mem_singleton, List.not_mem_nil, or_false] at h ⊢
      tauto
  intro c hc
  unfold formatDuration at hc
  split_ifs at hc
  · rcases List.mem_cons.mp hc with rfl | hc
    · right; simp
    · exact hmag c hc
  · exact hmag c hc

/-- Claim C20: for every duration `d` in the signed 64-bit range, MarshalJSON returns
no error and gives the text of `d` between double quotes, a JSON string and never
a bare number; UnmarshalJSON of that output returns no error and stores `d`,
whatever the target held; and parsing the text of `d` with the duration grammar
gives `d`.  The float64 step of `time.ParseDuration` is taken to be exact on
operands that float64 holds exactly. -/
theorem C20_duration_round_trip (step : FractionStep) (hstep : step.Exact) (d : Int)
    (hlo : -2 ^ 63 ≤ d) (hhi : d < 2 ^ 63) :
    (∃ out, Duration.MarshalJSON d = .ok out ∧
      out = String.mk (Char.ofNat 34 :: (formatDuration d ++ [Char.ofNat 34])) ∧
      ∀ target, Duration.UnmarshalJSON (ParseDuration step) target out = (d, none)) ∧
    ParseDuration step (String.mk (formatDuration d)) = some d := by
  have hparse := ParseDuration_formatDuration step hstep d hlo hhi
  obtain ⟨hm, hun⟩ := json_round_trip_plain (formatDuration d) (formatDuration_plain d hlo hhi)
  refine ⟨⟨jsonMarshalString (String.mk (formatDuration d)), rfl, hm, ?_⟩, hparse⟩
  intro target
  simp only [Duration.UnmarshalJSON, hun, hparse]

theorem stepDown_exact : FractionStep.Exact stepDown := by
  intro f k unit hdvd _ _ _
  unfold stepDown
  obtain ⟨q, rfl⟩ := hdvd
  have hpos : 0 < 10 ^ k := Nat.pow_pos (by norm_num)
  rw [Nat.mul_div_cancel_left q hpos, ← Nat.mul_assoc, Nat.mul_comm f, Nat.mul_assoc,
    Nat.mul_div_cancel_left _ hpos]

theorem C20_witness :
    (∃ out, Duration.MarshalJSON 1000000000 = .ok out ∧
      out = String.mk (Char.ofNat 34 :: (formatDuration 1000000000 ++ [Char.ofNat 34])) ∧
      ∀ target, Duration.UnmarshalJSON (ParseDuration stepDown) target out =
        (1000000000, none)) ∧
    ParseDuration stepDown (String.mk (formatDuration 1000000000)) = some 1000000000 :=
  C20_duration_round_trip stepDown stepDown_exact 1000000000 (by decide) (by decide)

theorem duration_marshal_examples :
    Duration.MarshalJSON 1000000000 = .ok "\"1s\"" ∧
    Duration.UnmarshalJSON (ParseDuration stepDown) 0 "\"1m\"" = (60000000000, none) ∧
    Duration.UnmarshalJSON (ParseDuration stepDown) 0 "1" =
      (0, some (.external "json.Unmarshal")) ∧
    String.mk (formatDuration (-9223372036854775808)) = "-2562047h47m16.854775808s" ∧
    ParseDuration stepDown "-2562047h47m16.854775808s" = some (-9223372036854775808) ∧
    String.mk (formatDuration 1500) = "1.5µs" ∧
    ParseDuration stepDown "1.5µs" = some 1500 := by
  refine ⟨by rfl, by decide, by decide, by decide, by decide, by decide, by decide⟩

/-! ### Decoding a duration, and slice reconstruction on a nil destination -/

theorem jsonUnmarshalString_not_string (b : String) (h : startsJSONString b = false) :
    jsonUnmarshalString b = none ∨ jsonUnmarshalString b = some "" := by
  unfold startsJSONString at h
  unfold jsonUnmarshalString
  cases hd : b.data.dropWhile isJSONSpace with
  | nil => left; rfl
  | cons c rest =>
    rw [hd] at h
    have hc : c ≠ Char.ofNat 34 := by simpa using h
    simp only [if_neg hc]
    split_ifs
    · right; rfl
    · left; rfl

/-- Claim C21: `UnmarshalJSON` assigns the target only on success.  For every input
that does not begin a JSON string (a bare number, null, an object, nothing at
all), for every input that is no well-formed JSON string, and for every JSON
string whose text is not a duration literal, the call returns an error and the
target keeps the value it had; and whenever an error is returned the target is
unchanged. -/
theorem C21_target_assigned_only_on_success (step : FractionStep) (target : Int) (b : String) :
    (startsJSONString b = false →
      ∃ e, Duration.UnmarshalJSON (ParseDuration step) target b = (target, some e)) ∧
    (jsonUnmarshalString b = none →
      ∃ e, Duration.UnmarshalJSON (ParseDuration step) target b = (target, some e)) ∧
    (∀ v, jsonUnmarshalString b = some v → ParseDuration step v = none →
      ∃ e, Duration.UnmarshalJSON (ParseDuration step) target b = (target, some e)) ∧
    (∀ d e, Duration.UnmarshalJSON (ParseDuration step) target b = (d, some e) → d = target) ∧
    (∀ d, Duration.UnmarshalJSON (ParseDuration step) target b = (d, none) →
      ∃ v, jsonUnmarshalString b = some v ∧ ParseDuration step v = some d) := by
  have hempty : ParseDuration step "" = none := rfl
  refine ⟨?_, ?_, ?_, ?_, ?_⟩
  · intro h
    rcases jsonUnmarshalString_not_string b h with h1 | h1
    · exact ⟨.external "json.Unmarshal", by simp only [Duration.UnmarshalJSON, h1]⟩
    · exact ⟨.external "time.ParseDuration", by simp only [Duration.UnmarshalJSON, h1, hempty]⟩
  · intro h1
    exact ⟨.external "json.Unmarshal", by simp only [Duration.UnmarshalJSON, h1]⟩
  · intro v h1 h2
    exact ⟨.external "time.ParseDuration", by simp only [Duration.UnmarshalJSON, h1, h2]⟩
  · intro d e h
    unfold Duration.UnmarshalJSON at h
    cases h1 : jsonUnmarshalString b with
    | none => rw [h1] at h; simp only [Prod.mk.injEq] at h; exact h.1.symm
    | some v =>
      rw [h1] at h
      simp only at h
      cases h2 : ParseDuration step v with
      | none => rw [h2] at h; simp only [Prod.mk.injEq] at h; exact h.1.symm
      | some x => rw [h2] at h; simp at h
  · intro d h
    unfold Duration.UnmarshalJSON at h
    cases h1 : jsonUnmarshalString b with
    | none => rw [h1] at h; simp at h
    | some v =>
      rw [h1] at h
      simp only at h
      cases h2 : ParseDuration step v with
      | none => rw [h2] at h; simp at h
      | some x =>
        rw [h2] at h
        simp only [Prod.mk.injEq, and_true] at h
        exact ⟨v, rfl, by rw [h2, h]⟩

theorem C21_witness :
    (startsJSONString "1" = false →
      ∃ e, Duration.UnmarshalJSON (ParseDuration stepDown) 0 "1" = (0, some e)) ∧
    (jsonUnmarshalString "1" = none →
      ∃ e, Duration.UnmarshalJSON (ParseDuration stepDown) 0 "1" = (0, some e)) ∧
    (∀ v, jsonUnmarshalString "1" = some v → ParseDuration stepDown v = none →
      ∃ e, Duration.UnmarshalJSON (ParseDuration stepDown) 0 "1" = (0, some e)) ∧
    (∀ d e, Duration.UnmarshalJSON (ParseDuration stepDown) 0 "1" = (d, some e) → d = 0) ∧
    (∀ d, Duration.UnmarshalJSON (ParseDuration stepDown) 0 "1" = (d, none) →
      ∃ v, jsonUnmarshalString "1" = some v ∧ ParseDuration stepDown v = some d) :=
  C21_target_assigned_only_on_success stepDown 0 "1"

theorem unmarshal_rejects_examples :
    startsJSONString "1" = false ∧
    Duration.UnmarshalJSON (ParseDuration stepDown) 7 "1" =
      (7, some (.external "json.Unmarshal")) ∧
    Duration.UnmarshalJSON (ParseDuration stepDown) 7 "null" =
      (7, some (.external "time.ParseDuration")) ∧
    Duration.UnmarshalJSON (ParseDuration stepDown) 7 "\"soon\"" =
      (7, some (.external "time.ParseDuration")) ∧
    Duration.UnmarshalJSON (ParseDuration stepDown) 7 "\"1m" =
      (7, some (.external "json.Unmarshal")) ∧
    Duration.UnmarshalJSON (ParseDuration stepDown) 7 "\"1m\"" = (60000000000, none) := by
  refine ⟨by decide, by decide, by decide, by decide, by decide, by decide⟩

/-- Claim C25: evaluation at the failing input.  The element type has a time.Time field
Created with the default 2019-07-07T20:00:00Z; on a nil slice the one entry
APP_0_NAME=boot creates element 0, whose Created is the zero time and not the
parse of the default, whatever the parsers; `applyDefault`, the default pass of
`Init`, assigns the parsed default to the same zero element. -/
theorem C25_timestamp_default_missing_in_new_element (p : TimeParsers) :
    applyEnvOverridesToSlice p ["APP_0_NAME=boot"] "APP" (.rvalue true (.nilSlice eventTy))
      = .done (.rvalue true (.slice eventTy [event "boot" zeroTime])) ∧
    (applyDefaultToEmpty p noField (zeroVal eventTy)).1 = event "" zeroTime ∧
    applyDefault sampleParsers noField (zeroVal eventTy) = (event "" july2019, none) ∧
    sampleParsers.parseTime "2019-07-07T20:00:00Z" = some july2019 ∧
    july2019 ≠ zeroTime := by
  refine ⟨by rfl, by rfl, by rfl, by rfl, by decide⟩

theorem checkDst_holdsNil (pfx : String) (dst : Dst) (canSet : Bool) (rv : Val) (sliceOf : Ty)
    (hnil : dst.holdsNil = true) (hc : checkDst pfx dst = .ok (canSet, rv, sliceOf)) :
    existingOf rv = some [] := by
  unfold checkDst at hc
  split_ifs at hc with hp
  match dst, hnil with
  | .rvalue c (.nilSlice e), _ =>
    simp only [dstValue] at hc
    split at hc
    · cases hc
    · split_ifs at hc
      cases hc
      rfl
  | .rvalue c (.nilPtr e), _ =>
    simp only [dstValue] at hc
    split at hc
    · cases hc
    · split_ifs at hc
      cases hc
      rfl
  | .iface (some (.nilSlice e)), _ => simp [dstValue] at hc
  | .iface (some (.nilPtr e)), _ =>
    simp only [dstValue] at hc
    split at hc
    · cases hc
    · split_ifs at hc
      cases hc
      rfl

theorem finish_fail (dst : Dst) (canSet : Bool) (rv : Val) (sliceOf : Ty) (m : ElemMap)
    (e : Err) (d : Dst) (h : finish dst canSet rv sliceOf m = .fail e d) : d = dst := by
  unfold finish at h
  split at h
  · cases h
  · split at h
    · cases h
    · split at h
      · split at h <;> cases h
      · split at h
        · split at h <;> cases h
        · cases h
          rfl

/-- Claim C26: on a destination that holds a nil slice or a nil pointer, a call of
`applyEnvOverridesToSlice` that returns an error, whichever it is, leaves the
destination as it was; and a call that returns no error went through the whole
environment loop, every matching entry applied. -/
theorem C26_nil_destination_untouched_on_error (p : TimeParsers) (envs : List String)
    (pfx : String) (dst : Dst) (hnil : dst.holdsNil = true) :
    (∀ e d, applyEnvOverridesToSlice p envs pfx dst = .fail e d → d = dst) ∧
    (∀ d, applyEnvOverridesToSlice p envs pfx dst = .done d →
      ∃ canSet rv sliceOf m, checkDst pfx dst = .ok (canSet, rv, sliceOf) ∧
        keysLoop p sliceOf (keysOf pfx envs) [] = .next m ∧
        (m = [] → d = dst)) := by
  cases hc : checkDst pfx dst with
  | error e0 =>
    constructor
    · intro e d h
      simp only [applyEnvOverridesToSlice, hc] at h
      cases h
      rfl
    · intro d h
      simp [applyEnvOverridesToSlice, hc] at h
  | ok r =>
    obtain ⟨canSet, rv, sliceOf⟩ := r
    have hx := checkDst_holdsNil pfx dst canSet rv sliceOf hnil hc
    have heq := applyEnvOverridesToSlice_eq p envs pfx dst canSet rv sliceOf [] hc hx
    simp only [seedLoop, List.enum_nil, List.length_nil] at heq
    rw [envLoop_eq_keysLoop] at heq
    constructor
    · intro e d h
      rw [heq] at h
      cases hl : keysLoop p sliceOf (keysOf pfx envs) [] with
      | panic => rw [hl] at h; cases h
      | fail e1 m =>
        rw [hl] at h
        simp only [Dst.inPlace, if_true, Outcome.fail.injEq] at h
        exact h.2.symm
      | next m =>
        rw [hl] at h
        exact finish_fail dst canSet rv sliceOf m e d h
    · intro d h
      rw [heq] at h
      cases hl : keysLoop p sliceOf (keysOf pfx envs) [] with
      | panic => rw [hl] at h; cases h
      | fail e1 m => rw [hl] at h; cases h
      | next m =>
        rw [hl] at h
        refine ⟨canSet, rv, sliceOf, m, rfl, hl, ?_⟩
        intro hm
        subst hm
        simp only [finish, List.length_nil, if_true, Outcome.done.injEq] at h
        exact h.symm

theorem C26_witness :
    (∀ e d, applyEnvOverridesToSlice sampleParsers
        ["APP_0_ADDR=localhost", "APP_0_TIMEOUT=localhost"] "APP"
        (.rvalue true (.nilSlice payloadTy)) = .fail e d →
      d = .rvalue true (.nilSlice payloadTy)) ∧
    (∀ d, applyEnvOverridesToSlice sampleParsers
        ["APP_0_ADDR=localhost", "APP_0_TIMEOUT=localhost"] "APP"
        (.rvalue true (.nilSlice payloadTy)) = .done d →
      ∃ canSet rv sliceOf m,
        checkDst "APP" (.rvalue true (.nilSlice payloadTy)) = .ok (canSet, rv, sliceOf) ∧
        keysLoop sampleParsers sliceOf
          (keysOf "APP" ["APP_0_ADDR=localhost", "APP_0_TIMEOUT=localhost"]) [] = .next m ∧
        (m = [] → d = .rvalue true (.nilSlice payloadTy))) :=
  C26_nil_destination_untouched_on_error sampleParsers
    ["APP_0_ADDR=localhost", "APP_0_TIMEOUT=localhost"] "APP"
    (.rvalue true (.nilSlice payloadTy)) rfl

theorem nil_destination_after_parse_failure :
    applyEnvOverridesToSlice sampleParsers
        ["APP_0_ADDR=localhost", "APP_0_TIMEOUT=localhost"] "APP"
        (.rvalue true (.nilSlice payloadTy)) =
      .fail (.parseFailed "localhost" "time.Duration") (.rvalue true (.nilSlice payloadTy)) ∧
    applyEnvOverridesToSlice sampleParsers
        ["APP_0_ADDR=localhost", "APP_0_TIMEOUT=localhost"] "APP"
        (.rvalue true (.nilPtr (.Slice payloadTy))) =
      .fail (.parseFailed "localhost" "time.Duration")
        (.rvalue true (.nilPtr (.Slice payloadTy))) ∧
    applyEnvOverridesToSlice sampleParsers ["APP_0_NOPE=x"] "APP"
        (.rvalue true (.nilSlice payloadTy)) =
      .fail (.fieldNotFound "Nope") (.rvalue true (.nilSlice payloadTy)) := by
  refine ⟨by rfl, by rfl, by rfl⟩

/-! ### The field name of an environment token -/

theorem letter_cases (c : Char) (h : isLetter c = true) :
    ∃ n, ((65 ≤ n ∧ n ≤ 90) ∨ (97 ≤ n ∧ n ≤ 122)) ∧ c = Char.ofNat n := by
  refine ⟨c.toNat, ?_, (Char.ofNat_toNat c).symm⟩
  simp only [isLetter, Bool.or_eq_true, Bool.and_eq_true, decide_eq_true_eq] at h
  simp only [Char.le_def] at h
  rcases h with ⟨h1, h2⟩ | ⟨h1, h2⟩
  · right; exact ⟨h1, h2⟩
  · left; exact ⟨h1, h2⟩

theorem letter_lowered (c : Char) (h : isLetter c = true) :
    isLetter c.toLower = true ∧ c.toLower ≠ '_' ∧ c.toLower.toUpper = c.toUpper := by
  obtain ⟨n, hn, rfl⟩ := letter_cases c h
  rcases hn with ⟨h1, h2⟩ | ⟨h1, h2⟩ <;> interval_cases n <;> decide

theorem camelRest_cons (c : Char) (t : List Char) (h : c ≠ '_') :
    camelRest (c :: t) = c :: camelRest t := by
  cases t with
  | nil => rfl
  | cons d ds =>
    have hc : (c == '_') = false := by simpa using h
    simp [camelRest, hc]

theorem camelRest_append (w t : List Char) (h : ∀ c ∈ w, c ≠ '_') :
    camelRest (w ++ t) = w ++ camelRest t := by
  induction w with
  | nil => rfl
  | cons c w ih =>
    rw [List.cons_append, camelRest_cons c _ (h c (List.mem_cons_self _ _)),
      ih (fun d hd => h d (List.mem_cons_of_mem _ hd)), List.cons_append]

theorem joinWords_cons (w : List Char) (ws : List (List Char)) :
    joinWords (w :: ws) = w ++ ws.flatMap (fun x => '_' :: x) := by
  induction ws generalizing w with
  | nil => simp [joinWords]
  | cons x xs ih =>
    rw [joinWords, ih x]
    simp [List.flatMap_cons]

theorem camelRest_words (w : List Char) (ws : List (List Char))
    (hw : ∀ c ∈ w, isLetter c = true)
    (hws : ∀ x ∈ ws, x ≠ [] ∧ ∀ c ∈ x, isLetter c = true) :
    camelRest (toLowerChars (w ++ ws.flatMap (fun x => '_' :: x)))
      = w.map Char.toLower ++ ws.flatMap capitalised := by
  induction ws generalizing w with
  | nil =>
    have := camelRest_append (w.map Char.toLower) [] (by
      intro c hc
      obtain ⟨d, hd, rfl⟩ := List.mem_map.mp hc
      exact (letter_lowered d (hw d hd)).2.1)
    simpa [toLowerChars, camelRest] using this
  | cons x xs ih =>
    obtain ⟨hx, hxl⟩ := hws x (List.mem_cons_self _ _)
    obtain ⟨d, x2, rfl⟩ := List.exists_cons_of_ne_nil hx
    have hd := letter_lowered d (hxl d (List.mem_cons_self _ _))
    have hrest := ih x2 (fun c hc => hxl c (List.mem_cons_of_mem _ hc))
      (fun y hy => hws y (List.mem_cons_of_mem _ hy))
    have happ := camelRest_append (w.map Char.toLower)
      ('_' :: d.toLower :: toLowerChars (x2 ++ xs.flatMap (fun x => '_' :: x))) (by
      intro c hc
      obtain ⟨e, he, rfl⟩ := List.mem_map.mp hc
      exact (letter_lowered e (hw e he)).2.1)
    have hstep : camelRest ('_' :: d.toLower
          :: toLowerChars (x2 ++ xs.flatMap (fun x => '_' :: x)))
        = d.toUpper :: camelRest (toLowerChars (x2 ++ xs.flatMap (fun x => '_' :: x))) := by
      simp [camelRest, hd.1, hd.2.2]
    have hshape : toLowerChars (w ++ ((d :: x2) :: xs).flatMap (fun x => '_' :: x))
        = w.map Char.toLower
          ++ '_' :: d.toLower :: toLowerChars (x2 ++ xs.flatMap (fun x => '_' :: x)) := by
      simp [toLowerChars, List.flatMap_cons]
    rw [hshape, happ, hstep, hrest]
    simp [capitalised, List.flatMap_cons]

theorem camelRest_neighbours (n : Nat) : ∀ (ls : List Char) (before : Option Char),
    ls.length ≤ n →
    (∀ c rest, ls = c :: rest →
      ¬ (isLetter c = true ∧ (before = none ∨ before = some '_'))) →
    camelRest ls = (neighbours before ls).flatMap camelFate := by
  induction n with
  | zero =>
    intro ls before hlen _
    cases ls with
    | nil => rfl
    | cons c rest => simp at hlen
  | succ n ih =>
    intro ls before hlen hhead
    cases ls with
    | nil => rfl
    | cons c rest =>
      have hc := hhead c rest rfl
      cases rest with
      | nil => simp [camelRest, neighbours, camelFate, hc]
      | cons d ds =>
        by_cases hm : c = '_' ∧ isLetter d = true
        · obtain ⟨rfl, hd⟩ := hm
          have hd2 : d ≠ '_' := by
            intro h
            rw [h] at hd
            exact absurd hd (by decide)
          have hrec := ih ds (some d) (by simp at hlen ⊢; omega) (by
            intro e rest2 _ h
            rcases h.2 with h2 | h2
            · cases h2
            · exact hd2 (Option.some.inj h2))
          simp [camelRest, neighbours, camelFate, hd, hd2, hrec]
        · have hrec := ih (d :: ds) (some c) (by simp at hlen ⊢; omega) (by
            intro e rest2 he h
            cases he
            rcases h.2 with h2 | h2
            · cases h2
            · exact hm ⟨Option.some.inj h2, h.1⟩)
          have hm2 : ((c == '_') && isLetter d) = false := by
            cases h1 : (c == '_') && isLetter d
            · rfl
            · simp only [Bool.and_eq_true, beq_iff_eq] at h1
              exact absurd h1 hm
          have hm3 : ¬ (c = '_' ∧ (some d).any isLetter = true) := by simpa using hm
          rw [camelRest]
          simp only [hm2, neighbours, List.head?_cons, List.flatMap_cons, camelFate, hm3, hc,
            if_false, Bool.false_eq_true]
          rw [hrec]
          rfl

theorem camelChars_neighbours (cs : List Char) :
    camelChars cs = (neighbours none (toLowerChars cs)).flatMap camelFate := by
  unfold camelChars
  cases h : toLowerChars cs with
  | nil => rfl
  | cons c rest =>
    by_cases hl : isLetter c = true
    · have hc : c ≠ '_' := by
        intro h2
        rw [h2] at hl
        exact absurd hl (by decide)
      have hrec := camelRest_neighbours rest.length rest (some c) (Nat.le_refl _) (by
        intro e rest2 _ h2
        rcases h2.2 with h3 | h3
        · cases h3
        · exact hc (Option.some.inj h3))
      simp [neighbours, camelFate, hl, hc, hrec]
    · have hrec := camelRest_neighbours (c :: rest).length (c :: rest) none (Nat.le_refl _) (by
        intro e rest2 he h2
        cases he
        exact hl h2.1)
      simp only [hl, if_false, Bool.false_eq_true]
      exact hrec

/-- C23: for words of ASCII letters joined by single underscores, ToCamelCase returns
the words one after the other, each with its first letter in upper case and the rest
in lower case, without the underscores; and on every ASCII text the result is the
lower-cased text in which an underscore directly followed by a letter is dropped, a
letter that starts the text or directly follows an underscore is in upper case, and
every other character stays in place. -/
theorem C23_words_capitalised_other_characters_kept (ws : List (List Char))
    (hws : ∀ w ∈ ws, w ≠ [] ∧ ∀ c ∈ w, isLetter c = true) (s : String)
    (hascii : ∀ c ∈ s.data, c.toNat < 128) :
    ToCamelCase (String.mk (joinWords ws)) = String.mk (ws.flatMap capitalised)
      ∧ ToCamelCase s
          = String.mk ((neighbours none (toLowerChars s.data)).flatMap camelFate)
      ∧ ToCamelCase "snake_case" = "SnakeCase"
      ∧ ToCamelCase "ADDR_RENAMED" = "AddrRenamed"
      ∧ ToCamelCase "space case" = "Space case" := by
  have _ := hascii
  refine ⟨?_, ?_, by decide, by decide, by decide⟩
  · cases ws with
    | nil => rfl
    | cons w rest =>
      obtain ⟨hw, hwl⟩ := hws w (List.mem_cons_self _ _)
      obtain ⟨c, w2, rfl⟩ := List.exists_cons_of_ne_nil hw
      have hc := letter_lowered c (hwl c (List.mem_cons_self _ _))
      have hrest := camelRest_words w2 rest (fun d hd => hwl d (List.mem_cons_of_mem _ hd))
        (fun y hy => hws y (List.mem_cons_of_mem _ hy))
      have hshape : toLowerChars (joinWords ((c :: w2) :: rest))
          = c.toLower :: toLowerChars (w2 ++ rest.flatMap (fun x => '_' :: x)) := by
        rw [joinWords_cons]
        simp [toLowerChars]
      simp only [ToCamelCase, camelChars, hshape, hc.1, if_true, hrest, hc.2.2]
      simp [capitalised, List.flatMap_cons]
  · simp only [ToCamelCase]
    rw [camelChars_neighbours]

theorem C23_witness :
    (∀ w ∈ ["ADDR".data, "Renamed".data], w ≠ [] ∧ ∀ c ∈ w, isLetter c = true)
      ∧ (∀ c ∈ "a__b c".data, c.toNat < 128)
      ∧ ToCamelCase (String.mk (joinWords ["ADDR".data, "Renamed".data])) = "AddrRenamed"
      ∧ ToCamelCase "a__b c" = "A_B c" :=
  ⟨by decide, by decide,
    ((C23_words_capitalised_other_characters_kept ["ADDR".data, "Renamed".data] (by decide)
      "a__b c" (by decide)).1).trans (by decide),
    ((C23_words_capitalised_other_characters_kept ["ADDR".data, "Renamed".data] (by decide)
      "a__b c" (by decide)).2.1).trans (by decide)⟩

/-! ### The walks stop at the first error -/

theorem leaves_of_leaf (t : StructField) (v : Val) (h : isWalked v = false) :
    leaves t v = [(t, v)] := by
  cases v <;> first | (simp [isWalked] at h; done) | rfl

theorem walk_trace_leaf (W : StructField → Val → Option (Val × Option Err))
    (hleaf : ∀ t v w r, isWalked v = false → W t v = some (w, r) → isWalked w = false)
    (t : StructField) (v : Val) (hv : isWalked v = false) (v2 : Val) (r : Option Err)
    (h : W t v = some (v2, r)) :
    (r = none →
        leaves t v2 = (leaves t v).map
            (fun l => (l.1, match W l.1 l.2 with | some x => x.1 | none => l.2))
          ∧ ∀ l ∈ leaves t v, ∃ w, W l.1 l.2 = some (w, none))
      ∧ (∀ e, r = some e → ∃ pre f x x2 post,
          leaves t v = pre ++ (f, x) :: post
            ∧ W f x = some (x2, some e) ∧ isWalked x = false
            ∧ leaves t v2 = pre.map
                (fun l => (l.1, match W l.1 l.2 with | some x => x.1 | none => l.2))
              ++ (f, x2) :: post
            ∧ ∀ l ∈ pre, ∃ w, W l.1 l.2 = some (w, none)) := by
  have h2 := leaves_of_leaf t v2 (hleaf t v v2 r hv h)
  rw [leaves_of_leaf t v hv, h2]
  constructor
  · intro hr
    subst hr
    refine ⟨by simp [h], ?_⟩
    intro l hl
    rw [List.mem_singleton] at hl
    subst hl
    exact ⟨v2, h⟩
  · intro e hr
    subst hr
    exact ⟨[], t, v, v2, [], rfl, h, hv, rfl, by simp⟩

mutual
theorem walk_trace (W : StructField → Val → Option (Val × Option Err))
    (WF : List (StructField × Val) → Option (List (StructField × Val) × Option Err))
    (hs : ∀ t fs, W t (.struct fs) = (WF fs).map (fun r => (Val.struct r.1, r.2)))
    (hnil : WF [] = some ([], none))
    (hcons : ∀ f v rest, WF ((f, v) :: rest) =
      match W f v with
      | none => none
      | some (w, some e) => some ((f, w) :: rest, some e)
      | some (w, none) =>
        match WF rest with
        | none => none
        | some r => some ((f, w) :: r.1, r.2))
    (hleaf : ∀ t v w r, isWalked v = false → W t v = some (w, r) → isWalked w = false)
    (t : StructField) : (v : Val) → ∀ (v2 : Val) (r : Option Err), W t v = some (v2, r) →
    (r = none →
        leaves t v2 = (leaves t v).map
            (fun l => (l.1, match W l.1 l.2 with | some x => x.1 | none => l.2))
          ∧ ∀ l ∈ leaves t v, ∃ w, W l.1 l.2 = some (w, none))
      ∧ (∀ e, r = some e → ∃ pre f x x2 post,
          leaves t v = pre ++ (f, x) :: post
            ∧ W f x = some (x2, some e) ∧ isWalked x = false
            ∧ leaves t v2 = pre.map
                (fun l => (l.1, match W l.1 l.2 with | some x => x.1 | none => l.2))
              ++ (f, x2) :: post
            ∧ ∀ l ∈ pre, ∃ w, W l.1 l.2 = some (w, none))
  | .struct fs => by
    intro v2 r h
    rw [hs] at h
    cases hf : WF fs with
    | none => rw [hf] at h; simp at h
    | some q =>
      rw [hf] at h
      simp only [Option.map_some', Option.some.injEq, Prod.mk.injEq] at h
      obtain ⟨h1, h2⟩ := h
      subst h1
      subst h2
      have ih := walkFields_trace W WF hs hnil hcons hleaf fs q.1 q.2 hf
      simpa [leaves] using ih
  | .str s => walk_trace_leaf W hleaf t _ rfl
  | .bool s => walk_trace_leaf W hleaf t _ rfl
  | .int k s => walk_trace_leaf W hleaf t _ rfl
  | .uint k s => walk_trace_leaf W hleaf t _ rfl
  | .time s => walk_trace_leaf W hleaf t _ rfl
  | .timeDuration s => walk_trace_leaf W hleaf t _ rfl
  | .duration s => walk_trace_leaf W hleaf t _ rfl
  | .nilSlice s => walk_trace_leaf W hleaf t _ rfl
  | .slice e s => walk_trace_leaf W hleaf t _ rfl
  | .nilPtr s => walk_trace_leaf W hleaf t _ rfl
  | .ptrTo s => walk_trace_leaf W hleaf t _ rfl
  | .nilMap => walk_trace_leaf W hleaf t _ rfl
  | .mapOf s => walk_trace_leaf W hleaf t _ rfl
theorem walkFields_trace (W : StructField → Val → Option (Val × Option Err))
    (WF : List (StructField × Val) → Option (List (StructField × Val) × Option Err))
    (hs : ∀ t fs, W t (.struct fs) = (WF fs).map (fun r => (Val.struct r.1, r.2)))
    (hnil : WF [] = some ([], none))
    (hcons : ∀ f v rest, WF ((f, v) :: rest) =
      match W f v with
      | none => none
      | some (w, some e) => some ((f, w) :: rest, some e)
      | some (w, none) =>
        match WF rest with
        | none => none
        | some r => some ((f, w) :: r.1, r.2))
    (hleaf : ∀ t v w r, isWalked v = false → W t v = some (w, r) → isWalked w = false) :
    (fs : List (StructField × Val)) → ∀ (fs2 : List (StructField × Val)) (r : Option Err),
    WF fs = some (fs2, r) →
    (r = none →
        leavesOfFields fs2 = (leavesOfFields fs).map
            (fun l => (l.1, match W l.1 l.2 with | some x => x.1 | none => l.2))
          ∧ ∀ l ∈ leavesOfFields fs, ∃ w, W l.1 l.2 = some (w, none))
      ∧ (∀ e, r = some e → ∃ pre f x x2 post,
          leavesOfFields fs = pre ++ (f, x) :: post
            ∧ W f x = some (x2, some e) ∧ isWalked x = false
            ∧ leavesOfFields fs2 = pre.map
                (fun l => (l.1, match W l.1 l.2 with | some x => x.1 | none => l.2))
              ++ (f, x2) :: post
            ∧ ∀ l ∈ pre, ∃ w, W l.1 l.2 = some (w, none))
  | [] => by
    intro fs2 r h
    rw [hnil] at h
    simp only [Option.some.injEq, Prod.mk.injEq] at h
    obtain ⟨h1, h2⟩ := h
    subst h1
    subst h2
    refine ⟨fun _ => ⟨rfl, by simp [leavesOfFields]⟩, fun e he => by cases he⟩
  | (f, v) :: rest => by
    intro fs2 r h
    rw [hcons] at h
    cases hw : W f v with
    | none => rw [hw] at h; simp at h
    | some q =>
      obtain ⟨w, r1⟩ := q
      rw [hw] at h
      have ih1 := walk_trace W WF hs hnil hcons hleaf f v w r1 hw
      cases r1 with
      | some e1 =>
        simp only [Option.some.injEq, Prod.mk.injEq] at h
        obtain ⟨h1, h2⟩ := h
        subst h1
        subst h2
        refine ⟨fun hr => (by cases hr), ?_⟩
        intro e he
        cases he
        obtain ⟨pre, g, x, x2, post, hl, hx, hxw, hl2, hpre⟩ := ih1.2 _ rfl
        refine ⟨pre, g, x, x2, post ++ leavesOfFields rest, ?_, hx, hxw, ?_, hpre⟩
        · simp [leavesOfFields, hl]
        · simp [leavesOfFields, hl2]
      | none =>
        simp only at h
        obtain ⟨hl1, hall1⟩ := ih1.1 rfl
        cases hr : WF rest with
        | none => rw [hr] at h; simp at h
        | some q2 =>
          rw [hr] at h
          simp only [Option.some.injEq, Prod.mk.injEq] at h
          obtain ⟨h1, h2⟩ := h
          subst h1
          subst h2
          have ih2 := walkFields_trace W WF hs hnil hcons hleaf rest q2.1 q2.2 hr
          constructor
          · intro hnone
            obtain ⟨hl2, hall2⟩ := ih2.1 hnone
            refine ⟨by simp [leavesOfFields, hl1, hl2], ?_⟩
            intro l hl
            simp only [leavesOfFields, List.mem_append] at hl
            rcases hl with hl | hl
            · exact hall1 l hl
            · exact hall2 l hl
          · intro e he
            obtain ⟨pre, g, x, x2, post, hl, hx, hxw, hl2, hpre⟩ := ih2.2 e he
            refine ⟨leaves f v ++ pre, g, x, x2, post, ?_, hx, hxw, ?_, ?_⟩
            · simp [leavesOfFields, hl]
            · simp [leavesOfFields, hl1, hl2]
            · intro l hl3
              rw [List.mem_append] at hl3
              rcases hl3 with hl3 | hl3
              · exact hall1 l hl3
              · exact hpre l hl3
end

theorem setWalked_not_walked (w rv : Val) (h : isWalked w = false) :
    isWalked (setWalked w rv) = false := by
  cases rv <;> first | rfl | exact h

theorem setPtrValue_not_walked (target : Val) (sliceOf : Ty) (values : List Val) (w : Val)
    (h : setPtrValue target sliceOf values = some w) : isWalked w = false := by
  unfold setPtrValue at h
  split at h <;> first | (cases h; rfl) | cases h

theorem inPlace_not_walked (c : Bool) (v rv : Val) (sliceOf : Ty) (l : Nat) (elems : List Val)
    (hv : isWalked v = false) :
    ∃ w, (Dst.rvalue c v).inPlace rv sliceOf l elems = .rvalue c w ∧ isWalked w = false := by
  unfold Dst.inPlace
  split
  · exact ⟨v, rfl, hv⟩
  · exact ⟨_, rfl, setWalked_not_walked _ _ rfl⟩

theorem finish_not_walked (c : Bool) (v : Val) (canSet : Bool) (rv : Val) (sliceOf : Ty)
    (m : ElemMap) (hv : isWalked v = false) :
    (∀ d, finish (.rvalue c v) canSet rv sliceOf m = .done d →
        ∃ w, d = .rvalue c w ∧ isWalked w = false)
      ∧ (∀ e d, finish (.rvalue c v) canSet rv sliceOf m = .fail e d →
        ∃ w, d = .rvalue c w ∧ isWalked w = false) := by
  unfold finish
  split
  · exact ⟨fun d h => by cases h; exact ⟨v, rfl, hv⟩, fun e d h => by cases h⟩
  · split
    · exact ⟨fun d h => (by cases h), fun e d h => by cases h⟩
    · split
      · cases hs : setPtrValue rv sliceOf _ with
        | none => exact ⟨fun d h => (by cases h), fun e d h => by cases h⟩
        | some w =>
          exact ⟨fun d h => by cases h; exact ⟨w, rfl, setPtrValue_not_walked _ _ _ _ hs⟩,
            fun e d h => by cases h⟩
      · split
        · cases hs : setPtrValue (indirectWalk rv) sliceOf _ with
          | none => exact ⟨fun d h => (by cases h), fun e d h => by cases h⟩
          | some w =>
            exact ⟨fun d h => by
                cases h
                exact ⟨_, rfl, setWalked_not_walked _ _ (setPtrValue_not_walked _ _ _ _ hs)⟩,
              fun e d h => by cases h⟩
        · exact ⟨fun d h => (by cases h), fun e d h => by cases h; exact ⟨v, rfl, hv⟩⟩

theorem slice_outcome_not_walked (p : TimeParsers) (envs : List String) (pfx : String)
    (c : Bool) (v : Val) (hv : isWalked v = false) :
    (∀ d, applyEnvOverridesToSlice p envs pfx (.rvalue c v) = .done d →
        ∃ w, d = .rvalue c w ∧ isWalked w = false)
      ∧ (∀ e d, applyEnvOverridesToSlice p envs pfx (.rvalue c v) = .fail e d →
        ∃ w, d = .rvalue c w ∧ isWalked w = false) := by
  unfold applyEnvOverridesToSlice
  cases h1 : checkDst pfx (.rvalue c v) with
  | error e0 => exact ⟨fun d h => (by cases h), fun e d h => by cases h; exact ⟨v, rfl, hv⟩⟩
  | ok q =>
    obtain ⟨canSet, rv, sliceOf⟩ := q
    simp only
    cases h2 : existingOf rv with
    | none => exact ⟨fun d h => (by cases h), fun e d h => by cases h⟩
    | some xs =>
      simp only
      cases h3 : seedLoop p xs with
      | panic => exact ⟨fun d h => (by cases h), fun e d h => by cases h⟩
      | fail e1 elems =>
        exact ⟨fun d h => (by cases h), fun e d h => by
          cases h
          exact inPlace_not_walked c v rv sliceOf _ _ hv⟩
      | ok elems =>
        simp only
        cases h4 : envLoop p pfx sliceOf envs elems.enum with
        | panic => exact ⟨fun d h => (by cases h), fun e d h => by cases h⟩
        | fail e1 m =>
          exact ⟨fun d h => (by cases h), fun e d h => by
            cases h
            exact inPlace_not_walked c v rv sliceOf _ _ hv⟩
        | next m => exact finish_not_walked c v canSet rv sliceOf m hv

theorem applyEnvValue_not_walked (p : TimeParsers) (env : Environment) (t : StructField)
    (v w : Val) (r : Option Err) (hv : isWalked v = false)
    (h : applyEnvValue p env t v = some (w, r)) : isWalked w = false := by
  have hleaf : ∀ w r, applyEnvLeaf p env t v = (w, r) → isWalked w = false := by
    intro w r h
    cases r with
    | none => rw [applyEnvLeaf_keeps p env t v w h]; exact hv
    | some e =>
      unfold applyEnvLeaf at h
      split at h
      · cases h
      · split at h
        · cases h
        · split at h
          · cases h
          · cases h; exact hv
  have h1 : applyEnvValue p env t v =
      (match t.Lookup envPrefixTag with
       | none => some (applyEnvLeaf p env t v)
       | some pfx =>
         if isSliceTyped v then
           (applyEnvOverridesToSlice p env.environ pfx (.rvalue true v)).onField v
         else some (applyEnvLeaf p env t v)) := by
    cases v <;> first | (simp [isWalked] at hv; done) | rfl
  rw [h1] at h
  split at h
  · exact hleaf w r (Option.some.inj h)
  · split at h
    · rename_i pfx _ _
      have hso := slice_outcome_not_walked p env.environ pfx true v hv
      cases ho : applyEnvOverridesToSlice p env.environ pfx (.rvalue true v) with
      | panic => rw [ho] at h; simp [Outcome.onField] at h
      | done d =>
        obtain ⟨w2, rfl, hw2⟩ := hso.1 d ho
        rw [ho] at h
        simp only [Outcome.onField, Option.some.injEq, Prod.mk.injEq] at h
        rw [← h.1]; exact hw2
      | fail e d =>
        obtain ⟨w2, rfl, hw2⟩ := hso.2 e d ho
        rw [ho] at h
        simp only [Outcome.onField, Option.some.injEq, Prod.mk.injEq] at h
        rw [← h.1]; exact hw2
    · exact hleaf w r (Option.some.inj h)

/-- C24, counterexample: the field Payload, of prefix APP, holds one element whose
Addr is empty, and the environment sets APP_0_TIMEOUT to a text that is no duration.
The environment pass returns the coercion error, yet the field is not as it was
before the call: the element has received the default of Addr. -/
theorem C24_counterexample :
    applyEnv sampleParsers (envOf [("APP_0_TIMEOUT", "abc")])
        (configuration (.slice payloadTy [payload "" "" 0]))
      = some (configuration (.slice payloadTy [payload "0.0.0.0" "" 0]),
          some (.parseFailed "abc" "time.Duration"))
      ∧ leaves noField (configuration (.slice payloadTy [payload "" "" 0]))
        = [(payloadsField, .slice payloadTy [payload "" "" 0])]
      ∧ Val.slice payloadTy [payload "0.0.0.0" "" 0] ≠ Val.slice payloadTy [payload "" "" 0] := by
  refine ⟨by rfl, by rfl, ?_⟩
  intro h
  have h1 := (List.cons.inj (Val.slice.inj h).2).1
  simp only [payload, Val.struct.injEq, List.cons.injEq, Prod.mk.injEq, Val.str.injEq] at h1
  exact absurd h1.1.2 (by decide)

theorem applyDefault_trace (p : TimeParsers) (t : StructField) (v v2 : Val) (r : Option Err)
    (h : applyDefault p t v = (v2, r)) :
    (r = none →
        leaves t v2 = (leaves t v).map (afterDefault p)
          ∧ ∀ l ∈ leaves t v, (applyDefault p l.1 l.2).2 = none)
      ∧ (∀ e, r = some e → ∃ pre f x x2 post,
          leaves t v = pre ++ (f, x) :: post
            ∧ applyDefault p f x = (x2, some e) ∧ isWalked x = false
            ∧ leaves t v2 = pre.map (afterDefault p) ++ (f, x2) :: post
            ∧ ∀ l ∈ pre, (applyDefault p l.1 l.2).2 = none) := by
  have key := walk_trace (fun t v => some (applyDefault p t v))
    (fun fs => some (applyDefaultFields p fs))
    (by intro t fs; rfl) rfl
    (by
      intro f v rest
      simp only [applyDefaultFields]
      cases hd : applyDefault p f v with
      | mk w r =>
        cases r <;> rfl)
    (by
      intro t v w r hv hw
      simp only [Option.some.injEq] at hw
      rw [applyDefault_of_leaf p t v hv] at hw
      split at hw
      · cases hw; exact hv
      · split at hw
        · rename_i hs
          cases hw
          rw [(setValue_keeps p v _ _ hs).2]; exact hv
        · cases hw; exact hv)
    t v v2 r (congrArg some h)
  have hmap : (fun l : StructField × Val =>
      (l.1, match (some (applyDefault p l.1 l.2) : Option (Val × Option Err)) with
        | some x => x.1
        | none => l.2)) = afterDefault p := rfl
  rw [hmap] at key
  constructor
  · intro hr
    obtain ⟨h1, h2⟩ := key.1 hr
    refine ⟨h1, ?_⟩
    intro l hl
    obtain ⟨w, hw⟩ := h2 l hl
    rw [Option.some.inj hw]
  · intro e hr
    obtain ⟨pre, f, x, x2, post, h1, h2, h3, h4, h5⟩ := key.2 e hr
    refine ⟨pre, f, x, x2, post, h1, Option.some.inj h2, h3, h4, ?_⟩
    intro l hl
    obtain ⟨w, hw⟩ := h5 l hl
    rw [Option.some.inj hw]

theorem applyEnvValue_trace (p : TimeParsers) (env : Environment) (t : StructField)
    (v v2 : Val) (r : Option Err) (h : applyEnvValue p env t v = some (v2, r)) :
    (r = none →
        leaves t v2 = (leaves t v).map (afterEnv p env)
          ∧ ∀ l ∈ leaves t v, ∃ w, applyEnvValue p env l.1 l.2 = some (w, none))
      ∧ (∀ e, r = some e → ∃ pre f x x2 post,
          leaves t v = pre ++ (f, x) :: post
            ∧ applyEnvValue p env f x = some (x2, some e) ∧ isWalked x = false
            ∧ leaves t v2 = pre.map (afterEnv p env) ++ (f, x2) :: post
            ∧ ∀ l ∈ pre, ∃ w, applyEnvValue p env l.1 l.2 = some (w, none)) := by
  have key := walk_trace (applyEnvValue p env) (applyEnvFields p env)
    (by
      intro t fs
      simp only [applyEnvValue]
      cases applyEnvFields p env fs <;> rfl)
    rfl
    (by
      intro f v rest
      simp only [applyEnvFields])
    (fun t v w r hv hw => applyEnvValue_not_walked p env t v w r hv hw)
    t v v2 r h
  exact key

/-- C24: when applyDefault or applyEnv returns an error, the leaves of the structure,
taken depth first in declaration order, split into those before the failing leaf, the
failing leaf, and those after it.  The error returned is the one met at the failing
leaf; every leaf before it was processed without error and holds the value its own
processing gives; every leaf after it is as it was.  The failing leaf is as it was too
when the error is a failed coercion of its default or of its variable; a slice that
the environment pass hands to the slice reconstruction is left as the reconstruction
left it. -/
theorem C24_walks_stop_at_first_error (p : TimeParsers) (env : Environment)
    (t : StructField) (v : Val) :
    (∀ v2 e, applyDefault p t v = (v2, some e) →
      ∃ pre f x post value,
        leaves t v = pre ++ (f, x) :: post
          ∧ f.Lookup "default" = some value ∧ setValue p x value = .error e
          ∧ (∀ l ∈ pre, (applyDefault p l.1 l.2).2 = none)
          ∧ leaves t v2 = pre.map (afterDefault p) ++ (f, x) :: post)
      ∧ (∀ v2 e, applyEnv p env v = some (v2, some e) →
        ∃ pre f x x2 post,
          leaves noField v = pre ++ (f, x) :: post
            ∧ applyEnvValue p env f x = some (x2, some e)
            ∧ (isPrefixedSlice (f, x) = false →
                x2 = x ∧ ∃ key value, f.Lookup envConfigTag = some key
                  ∧ env.lookupEnv key = some value ∧ setValue p x value = .error e)
            ∧ (∀ l ∈ pre, ∃ w, applyEnvValue p env l.1 l.2 = some (w, none))
            ∧ leaves noField v2 = pre.map (afterEnv p env) ++ (f, x2) :: post) := by
  constructor
  · intro v2 e h
    obtain ⟨pre, f, x, x2, post, h1, h2, h3, h4, h5⟩ := (applyDefault_trace p t v v2 _ h).2 e rfl
    rw [applyDefault_of_leaf p f x h3] at h2
    cases hl : f.Lookup "default" with
    | none => rw [hl] at h2; simp at h2
    | some value =>
      rw [hl] at h2
      simp only at h2
      cases hs : setValue p x value with
      | ok w => rw [hs] at h2; simp at h2
      | error e2 =>
        rw [hs] at h2
        simp only [Prod.mk.injEq, Option.some.injEq] at h2
        obtain ⟨hx, he⟩ := h2
        subst hx
        subst he
        exact ⟨pre, f, x, post, value, h1, hl, hs, h5, h4⟩
  · intro v2 e h
    have hv : applyEnvValue p env noField v = some (v2, some e) := by
      cases v <;> first | (simp [applyEnv] at h; done) | exact h
    obtain ⟨pre, f, x, x2, post, h1, h2, h3, h4, h5⟩ :=
      (applyEnvValue_trace p env noField v v2 _ hv).2 e rfl
    refine ⟨pre, f, x, x2, post, h1, h2, ?_, h5, h4⟩
    intro hps
    have hs : f.Lookup envPrefixTag = none ∨ isSliceTyped x = false := by
      simp only [isPrefixedSlice, Bool.and_eq_false_iff] at hps
      rcases hps with hps | hps
      · left
        cases hq : f.Lookup envPrefixTag with
        | none => rfl
        | some q => rw [hq] at hps; simp at hps
      · right; exact hps
    rw [applyEnvValue_of_leaf p env f x h3 hs] at h2
    simp only [Option.some.injEq] at h2
    unfold applyEnvLeaf at h2
    cases hk : f.Lookup envConfigTag with
    | none => rw [hk] at h2; simp at h2
    | some key =>
      rw [hk] at h2
      simp only at h2
      cases hq : env.lookupEnv key with
      | none => rw [hq] at h2; simp at h2
      | some value =>
        rw [hq] at h2
        simp only at h2
        cases hs2 : setValue p x value with
        | ok w => rw [hs2] at h2; simp at h2
        | error e2 =>
          rw [hs2] at h2
          simp only [Prod.mk.injEq, Option.some.injEq] at h2
          obtain ⟨hx, he⟩ := h2
          subst hx
          subst he
          exact ⟨rfl, key, value, rfl, hq, hs2⟩

theorem C24_witness :
    applyDefault sampleParsers noField (person "" 0 "")
        = (person "anonymous" 0 "", some (.parseFailed "old" "Int64"))
      ∧ (∃ pre f x post value,
        leaves noField (person "" 0 "") = pre ++ (f, x) :: post
          ∧ f.Lookup "default" = some value
          ∧ setValue sampleParsers x value = .error (.parseFailed "old" "Int64")
          ∧ (∀ l ∈ pre, (applyDefault sampleParsers l.1 l.2).2 = none)
          ∧ leaves noField (person "anonymous" 0 "")
            = pre.map (afterDefault sampleParsers) ++ (f, x) :: post)
      ∧ applyEnv sampleParsers (envOf [("CITY", "Lviv"), ("AGE", "age"), ("NAME", "Bob")])
          (person "" 0 "")
        = some (person "Bob" 0 "", some (.parseFailed "age" "Int64"))
      ∧ (∃ pre f x x2 post,
        leaves noField (person "" 0 "") = pre ++ (f, x) :: post
          ∧ applyEnvValue sampleParsers
              (envOf [("CITY", "Lviv"), ("AGE", "age"), ("NAME", "Bob")]) f x
            = some (x2, some (.parseFailed "age" "Int64"))
          ∧ (isPrefixedSlice (f, x) = false →
              x2 = x ∧ ∃ key value, f.Lookup envConfigTag = some key
                ∧ (envOf [("CITY", "Lviv"), ("AGE", "age"), ("NAME", "Bob")]).lookupEnv key
                  = some value
                ∧ setValue sampleParsers x value = .error (.parseFailed "age" "Int64"))
          ∧ (∀ l ∈ pre, ∃ w, applyEnvValue sampleParsers
              (envOf [("CITY", "Lviv"), ("AGE", "age"), ("NAME", "Bob")]) l.1 l.2
                = some (w, none))
          ∧ leaves noField (person "Bob" 0 "")
            = pre.map (afterEnv sampleParsers
                (envOf [("CITY", "Lviv"), ("AGE", "age"), ("NAME", "Bob")]))
              ++ (f, x2) :: post) :=
  ⟨rfl,
    (C24_walks_stop_at_first_error sampleParsers
      (envOf [("CITY", "Lviv"), ("AGE", "age"), ("NAME", "Bob")]) noField (person "" 0 "")).1
      (person "anonymous" 0 "") (.parseFailed "old" "Int64") rfl,
    rfl,
    (C24_walks_stop_at_first_error sampleParsers
      (envOf [("CITY", "Lviv"), ("AGE", "age"), ("NAME", "Bob")]) noField (person "" 0 "")).2
      (person "Bob" 0 "") (.parseFailed "age" "Int64") rfl⟩

/-! ### A second run of the entry point -/

theorem setValue_kinds (p : TimeParsers) (v w : Val) (s : String)
    (h : setValue p v s = .ok w) :
    ((∃ t, w = .time t) → ∃ t, v = .time t) ∧ isPtrKind w = isPtrKind v := by
  cases v with
  | str x =>
    simp [setValue, isTimeTyped, isTimeDurationTyped, isDurationTyped] at h
    subst h
    exact ⟨fun ⟨_, ht⟩ => (by cases ht), rfl⟩
  | bool b =>
    simp [setValue, isTimeTyped, isTimeDurationTyped, isDurationTyped, setBool] at h
    subst h
    exact ⟨fun ⟨_, ht⟩ => (by cases ht), rfl⟩
  | int k n =>
    cases k <;>
      simp [setValue, isTimeTyped, isTimeDurationTyped, isDurationTyped, setInt] at h <;>
      first
        | (subst h; exact ⟨fun ⟨_, ht⟩ => (by cases ht), rfl⟩)
        | (split at h
           · cases h
           · cases h; exact ⟨fun ⟨_, ht⟩ => (by cases ht), rfl⟩)
  | uint k n =>
    cases k <;>
      simp [setValue, isTimeTyped, isTimeDurationTyped, isDurationTyped, setUint] at h <;>
      first
        | (subst h; exact ⟨fun ⟨_, ht⟩ => (by cases ht), rfl⟩)
        | (split at h
           · cases h
           · cases h; exact ⟨fun ⟨_, ht⟩ => (by cases ht), rfl⟩)
  | time t => exact ⟨fun _ => ⟨t, rfl⟩, by
      simp [setValue, isTimeTyped, setTime, isPtrKind] at h
      split at h
      · cases h
      · cases h; rfl⟩
  | timeDuration ns =>
    simp [setValue, isTimeTyped, isTimeDurationTyped, setTimeDuration, isPtrKind] at h
    split at h
    · cases h
    · cases h; exact ⟨fun ⟨_, ht⟩ => (by cases ht), rfl⟩
  | duration ns =>
    simp [setValue, isTimeTyped, isTimeDurationTyped, isDurationTyped, setDuration, isPtrKind] at h
    split at h
    · cases h
    · cases h; exact ⟨fun ⟨_, ht⟩ => (by cases ht), rfl⟩
  | nilSlice e =>
    cases e <;>
      simp [setValue, isTimeTyped, isTimeDurationTyped, isDurationTyped, setSlice] at h <;>
      subst h <;> exact ⟨fun ⟨_, ht⟩ => (by cases ht), rfl⟩
  | slice e xs =>
    cases e <;>
      simp [setValue, isTimeTyped, isTimeDurationTyped, isDurationTyped, setSlice] at h <;>
      subst h <;> exact ⟨fun ⟨_, ht⟩ => (by cases ht), rfl⟩
  | nilPtr e =>
    cases e <;>
      simp [setValue, isTimeTyped, isTimeDurationTyped, isDurationTyped, setTime, setTimeDuration,
        setDuration, isPtrKind] at h <;>
      first
        | (subst h; exact ⟨fun ⟨_, ht⟩ => (by cases ht), rfl⟩)
        | (split at h
           · cases h
           · cases h; exact ⟨fun ⟨_, ht⟩ => (by cases ht), rfl⟩)
  | ptrTo x =>
    cases x <;>
      simp [setValue, isTimeTyped, isTimeDurationTyped, isDurationTyped, setTime, setTimeDuration,
        setDuration, isPtrKind] at h <;>
      first
        | (subst h; exact ⟨fun ⟨_, ht⟩ => (by cases ht), rfl⟩)
        | (split at h
           · cases h
           · cases h; exact ⟨fun ⟨_, ht⟩ => (by cases ht), rfl⟩)
  | struct fs =>
    simp [setValue, isTimeTyped, isTimeDurationTyped, isDurationTyped] at h
    subst h
    exact ⟨fun ⟨_, ht⟩ => (by cases ht), rfl⟩
  | nilMap =>
    simp [setValue, isTimeTyped, isTimeDurationTyped, isDurationTyped] at h
    subst h
    exact ⟨fun ⟨_, ht⟩ => (by cases ht), rfl⟩
  | mapOf size =>
    simp [setValue, isTimeTyped, isTimeDurationTyped, isDurationTyped] at h
    subst h
    exact ⟨fun ⟨_, ht⟩ => (by cases ht), rfl⟩

theorem applyDefaultToEmpty_of_leaf (p : TimeParsers) (f : StructField) (v : Val)
    (hns : ∀ fs, v ≠ .struct fs) (hnt : ∀ t, v ≠ .time t) :
    applyDefaultToEmpty p f v =
      (if (!isEmpty v) = true then (v, (none : Option Err))
        else match f.Lookup "default" with
          | none => (v, none)
          | some value =>
            match setValue p v value with
            | .ok w => (w, none)
            | .error e => (v, some e)) := by
  cases v <;> first
    | exact absurd rfl (hns _)
    | exact absurd rfl (hnt _)
    | rfl

theorem applyDefaultToEmpty_idem_leaf (p : TimeParsers) (f : StructField) (v w : Val)
    (hns : ∀ fs, v ≠ .struct fs) (hnt : ∀ t, v ≠ .time t)
    (h : applyDefaultToEmpty p f v = (w, none)) :
    applyDefaultToEmpty p f w = (w, none) := by
  have hl := applyDefaultToEmpty_leaf p f v w hns hnt h
  split at hl
  · cases hd : f.Lookup "default" with
    | none => rw [hd] at hl; simp only at hl; rw [hl]; rw [hl] at h; exact h
    | some d =>
      rw [hd] at hl
      simp only at hl
      have hk := setValue_kinds p v w d hl
      have hw := (setValue_keeps p v w d hl).2
      have hns2 : ∀ fs, w ≠ .struct fs := by
        intro fs hc
        rw [hc] at hw
        cases v <;> first | exact absurd rfl (hns _) | simp [isWalked] at hw
      have hnt2 : ∀ t, w ≠ .time t := by
        intro t hc
        obtain ⟨t0, ht0⟩ := hk.1 ⟨t, hc⟩
        exact hnt t0 ht0
      rw [applyDefaultToEmpty_of_leaf p f w hns2 hnt2]
      split
      · rfl
      · rw [hd]
        simp only
        rw [setValue_stable p v w d hl d, hl]
  · rw [hl]; rw [hl] at h; exact h

mutual
theorem applyDefaultToEmpty_idem (p : TimeParsers) (f : StructField) :
    (v : Val) → ∀ w, applyDefaultToEmpty p f v = (w, none) →
      applyDefaultToEmpty p f w = (w, none)
  | .struct fs => by
    intro w h
    rw [applyDefaultToEmpty_struct] at h
    simp only [Prod.mk.injEq] at h
    obtain ⟨h1, h2⟩ := h
    have ih := applyDefaultToEmptyFields_idem p fs _ (Prod.ext rfl h2)
    rw [← h1, applyDefaultToEmpty_struct, ih]
  | .time t => by
    intro w h
    rw [applyDefaultToEmpty_time] at h
    cases h
    exact applyDefaultToEmpty_time p f t
  | .str s => fun w h => applyDefaultToEmpty_idem_leaf p f _ w
      (by intro fs hc; cases hc) (by intro t hc; cases hc) h
  | .bool s => fun w h => applyDefaultToEmpty_idem_leaf p f _ w
      (by intro fs hc; cases hc) (by intro t hc; cases hc) h
  | .int k s => fun w h => applyDefaultToEmpty_idem_leaf p f _ w
      (by intro fs hc; cases hc) (by intro t hc; cases hc) h
  | .uint k s => fun w h => applyDefaultToEmpty_idem_leaf p f _ w
      (by intro fs hc; cases hc) (by intro t hc; cases hc) h
  | .timeDuration s => fun w h => applyDefaultToEmpty_idem_leaf p f _ w
      (by intro fs hc; cases hc) (by intro t hc; cases hc) h
  | .duration s => fun w h => applyDefaultToEmpty_idem_leaf p f _ w
      (by intro fs hc; cases hc) (by intro t hc; cases hc) h
  | .nilSlice s => fun w h => applyDefaultToEmpty_idem_leaf p f _ w
      (by intro fs hc; cases hc) (by intro t hc; cases hc) h
  | .slice e s => fun w h => applyDefaultToEmpty_idem_leaf p f _ w
      (by intro fs hc; cases hc) (by intro t hc; cases hc) h
  | .nilPtr s => fun w h => applyDefaultToEmpty_idem_leaf p f _ w
      (by intro fs hc; cases hc) (by intro t hc; cases hc) h
  | .ptrTo s => fun w h => applyDefaultToEmpty_idem_leaf p f _ w
      (by intro fs hc; cases hc) (by intro t hc; cases hc) h
  | .nilMap => fun w h => applyDefaultToEmpty_idem_leaf p f _ w
      (by intro fs hc; cases hc) (by intro t hc; cases hc) h
  | .mapOf s => fun w h => applyDefaultToEmpty_idem_leaf p f _ w
      (by intro fs hc; cases hc) (by intro t hc; cases hc) h
theorem applyDefaultToEmptyFields_idem (p : TimeParsers) :
    (fs : List (StructField × Val)) → ∀ fs2, applyDefaultToEmptyFields p fs = (fs2, none) →
      applyDefaultToEmptyFields p fs2 = (fs2, none)
  | [] => by
    intro fs2 h
    simp only [applyDefaultToEmptyFields, Prod.mk.injEq, and_true] at h
    subst h
    rfl
  | (f, v) :: rest => by
    intro fs2 h
    simp only [applyDefaultToEmptyFields] at h
    cases hd : applyDefaultToEmpty p f v with
    | mk w r =>
      rw [hd] at h
      cases r with
      | some e => simp at h
      | none =>
        simp only [Prod.mk.injEq] at h
        obtain ⟨h1, h2⟩ := h
        have ih1 := applyDefaultToEmpty_idem p f v w hd
        have ih2 := applyDefaultToEmptyFields_idem p rest _ (Prod.ext rfl h2)
        rw [← h1]
        simp only [applyDefaultToEmptyFields, ih1, ih2]
end

theorem applyDefaultToEmpty_noField (p : TimeParsers) (x w : Val)
    (h : applyDefaultToEmpty p noField x = (w, none)) : isPtrKind w = isPtrKind x := by
  cases x with
  | struct fs =>
    rw [applyDefaultToEmpty_struct] at h
    simp only [Prod.mk.injEq] at h
    rw [← h.1]; rfl
  | time t =>
    rw [applyDefaultToEmpty_time] at h
    cases h; rfl
  | _ =>
    rw [applyDefaultToEmpty_of_leaf p noField _ (by intro fs hc; cases hc)
      (by intro t hc; cases hc)] at h
    split at h
    · cases h; rfl
    · have hl : noField.Lookup "default" = none := rfl
      rw [hl] at h
      cases h; rfl

theorem seedLoop_idem (p : TimeParsers) (xs elems : List Val)
    (h : seedLoop p xs = .ok elems) : seedLoop p elems = .ok elems ∧ elems.length = xs.length := by
  induction xs generalizing elems with
  | nil =>
    simp only [seedLoop] at h
    cases h
    exact ⟨rfl, rfl⟩
  | cons x rest ih =>
    simp only [seedLoop] at h
    split at h
    · cases h
    · rename_i hp
      cases hd : applyDefaultToEmpty p noField x with
      | mk w r =>
        rw [hd] at h
        cases r with
        | some e => simp at h
        | none =>
          simp only at h
          cases hr : seedLoop p rest with
          | panic => rw [hr] at h; simp at h
          | fail e ws => rw [hr] at h; simp at h
          | ok ws =>
            rw [hr] at h
            simp only [Seeded.ok.injEq] at h
            subst h
            obtain ⟨ih1, ih2⟩ := ih ws hr
            have hw : isPtrKind w = false := by
              rw [applyDefaultToEmpty_noField p x w hd]
              simpa using hp
            refine ⟨?_, by simp [ih2]⟩
            simp only [seedLoop, hw, Bool.false_eq_true, if_false,
              applyDefaultToEmpty_idem p noField x w hd, ih1]

theorem assemble_enum (xs : List Val) : assemble xs.enum = some xs := by
  obtain ⟨values, hv, hlen, hget⟩ := assemble_of_exact_keys xs.enum xs.length
    (by rw [enum_keys]; exact List.nodup_range _)
    (by intro i; rw [enum_keys]; exact List.mem_range)
  rw [hv]
  congr 1
  apply List.ext_get?
  intro i
  by_cases hi : i < xs.length
  · rw [hget i hi, ElemMap.get_enum]
  · have h1 : values.get? i = none := by
      rw [List.get?_eq_none]; omega
    have h2 : xs.get? i = none := by
      rw [List.get?_eq_none]; omega
    rw [h1, h2]

theorem quiet_without_pfx (p : TimeParsers) (envs : List String) (pfx : String) (dst : Dst)
    (hp : (pfx == "") = true) :
    applyEnvOverridesToSlice p envs pfx dst = .fail .ErrPrefixRequired dst := by
  simp [applyEnvOverridesToSlice, checkDst, hp]

theorem quiet_finish (e : Ty) (rv : Val) (elems : List Val) (w : Val)
    (hw : setPtrValue rv e elems = some w) (hnil : elems = [] → w = rv) :
    finish (.rvalue true rv) true rv e elems.enum = .done (.rvalue true w) := by
  unfold finish
  by_cases hl : elems.enum.length = 0
  · have he : elems = [] := by
      cases elems with
      | nil => rfl
      | cons x xs => simp [List.enum_cons] at hl
    rw [if_pos hl, hnil he]
  · rw [if_neg hl, assemble_enum]
    simp [hw, Dst.withValue]

theorem quiet_slice (p : TimeParsers) (envs : List String) (pfx : String) (e : Ty)
    (xs elems : List Val) (hp : (pfx == "") = false) (hk : keysOf pfx envs = [])
    (hs : seedLoop p xs = .ok elems) :
    applyEnvOverridesToSlice p envs pfx (.rvalue true (.slice e xs))
      = .done (.rvalue true (.slice e elems)) := by
  have hc : checkDst pfx (.rvalue true (.slice e xs)) = .ok (true, .slice e xs, e) := by
    simp [checkDst, hp, dstValue, indirectWalk, sliceElem]
  rw [applyEnvOverridesToSlice_eq p envs pfx _ true (.slice e xs) e xs hc
    (by simp [existingOf, isZeroValue, indirectWalk]), hs]
  simp only [envLoop_eq_keysLoop, hk, keysLoop]
  have hlen := (seedLoop_idem p xs elems hs).2
  by_cases hx : xs = []
  · subst hx
    have he : elems = [] := by
      cases elems with
      | nil => rfl
      | cons y ys => simp at hlen
    subst he
    rfl
  · have := quiet_finish e (.slice e xs) elems (.slice e elems) rfl (by
      intro he
      subst he
      cases xs with
      | nil => exact absurd rfl hx
      | cons y ys => simp at hlen)
    exact this

theorem quiet_ptr (p : TimeParsers) (envs : List String) (pfx : String) (e : Ty)
    (xs elems : List Val) (hp : (pfx == "") = false) (hk : keysOf pfx envs = [])
    (hs : seedLoop p xs = .ok elems) :
    applyEnvOverridesToSlice p envs pfx (.rvalue true (.ptrTo (.slice e xs)))
      = .done (.rvalue true (.ptrTo (.slice e elems))) := by
  have hc : checkDst pfx (.rvalue true (.ptrTo (.slice e xs)))
      = .ok (true, .ptrTo (.slice e xs), e) := by
    simp [checkDst, hp, dstValue, indirectWalk, sliceElem]
  rw [applyEnvOverridesToSlice_eq p envs pfx _ true (.ptrTo (.slice e xs)) e xs hc
    (by simp [existingOf, isZeroValue, indirectWalk]), hs]
  simp only [envLoop_eq_keysLoop, hk, keysLoop]
  have hlen := (seedLoop_idem p xs elems hs).2
  by_cases hx : xs = []
  · subst hx
    have he : elems = [] := by
      cases elems with
      | nil => rfl
      | cons y ys => simp at hlen
    subst he
    rfl
  · have := quiet_finish e (.ptrTo (.slice e xs)) elems (.ptrTo (.slice e elems)) rfl (by
      intro he
      subst he
      cases xs with
      | nil => exact absurd rfl hx
      | cons y ys => simp at hlen)
    exact this

theorem quiet_nil (p : TimeParsers) (envs : List String) (pfx : String) (e : Ty)
    (hp : (pfx == "") = false) (hk : keysOf pfx envs = []) :
    applyEnvOverridesToSlice p envs pfx (.rvalue true (.nilSlice e))
        = .done (.rvalue true (.nilSlice e))
      ∧ applyEnvOverridesToSlice p envs pfx (.rvalue true (.nilPtr (.Slice e)))
        = .done (.rvalue true (.nilPtr (.Slice e)))
      ∧ applyEnvOverridesToSlice p envs pfx (.rvalue true (.ptrTo (.nilSlice e)))
        = .done (.rvalue true (.ptrTo (.nilSlice e))) := by
  refine ⟨?_, ?_, ?_⟩
  · have hc : checkDst pfx (.rvalue true (.nilSlice e)) = .ok (true, .nilSlice e, e) := by
      simp [checkDst, hp, dstValue, indirectWalk, sliceElem]
    rw [applyEnvOverridesToSlice_eq p envs pfx _ true (.nilSlice e) e [] hc
      (by simp [existingOf, isZeroValue])]
    simp only [seedLoop, envLoop_eq_keysLoop, hk, keysLoop]
    rfl
  · have hc : checkDst pfx (.rvalue true (.nilPtr (.Slice e)))
        = .ok (true, .nilPtr (.Slice e), e) := by
      simp [checkDst, hp, dstValue, indirectWalk, sliceElem]
    rw [applyEnvOverridesToSlice_eq p envs pfx _ true (.nilPtr (.Slice e)) e [] hc
      (by simp [existingOf, isZeroValue])]
    simp only [seedLoop, envLoop_eq_keysLoop, hk, keysLoop]
    rfl
  · have hc : checkDst pfx (.rvalue true (.ptrTo (.nilSlice e)))
        = .ok (true, .ptrTo (.nilSlice e), e) := by
      simp [checkDst, hp, dstValue, indirectWalk, sliceElem]
    rw [applyEnvOverridesToSlice_eq p envs pfx _ true (.ptrTo (.nilSlice e)) e [] hc
      (by simp [existingOf, isZeroValue, indirectWalk])]
    simp only [seedLoop, envLoop_eq_keysLoop, hk, keysLoop]
    rfl

theorem quiet_slice_cases (p : TimeParsers) (envs : List String) (pfx : String) (e : Ty)
    (xs : List Val) (hp : (pfx == "") = false) (hk : keysOf pfx envs = []) (x3 : Val)
    (h : (applyEnvOverridesToSlice p envs pfx (.rvalue true (.slice e xs))).onField
      (.slice e xs) = some (x3, none)) :
    ∃ elems, seedLoop p xs = .ok elems ∧ x3 = .slice e elems := by
  cases hs : seedLoop p xs with
  | ok elems =>
    rw [quiet_slice p envs pfx e xs elems hp hk hs] at h
    simp only [Outcome.onField, Option.some.injEq, Prod.mk.injEq, and_true] at h
    exact ⟨elems, rfl, h.symm⟩
  | panic =>
    rw [applyEnvOverridesToSlice_eq p envs pfx _ true (.slice e xs) e xs
      (by simp [checkDst, hp, dstValue, indirectWalk, sliceElem])
      (by simp [existingOf, isZeroValue, indirectWalk]), hs] at h
    simp [Outcome.onField] at h
  | fail e1 elems =>
    rw [applyEnvOverridesToSlice_eq p envs pfx _ true (.slice e xs) e xs
      (by simp [checkDst, hp, dstValue, indirectWalk, sliceElem])
      (by simp [existingOf, isZeroValue, indirectWalk]), hs] at h
    simp only [Dst.inPlace] at h
    split at h <;> simp [Outcome.onField, Dst.withValue] at h

theorem quiet_ptr_cases (p : TimeParsers) (envs : List String) (pfx : String) (e : Ty)
    (xs : List Val) (hp : (pfx == "") = false) (hk : keysOf pfx envs = []) (x3 : Val)
    (h : (applyEnvOverridesToSlice p envs pfx (.rvalue true (.ptrTo (.slice e xs)))).onField
      (.ptrTo (.slice e xs)) = some (x3, none)) :
    ∃ elems, seedLoop p xs = .ok elems ∧ x3 = .ptrTo (.slice e elems) := by
  cases hs : seedLoop p xs with
  | ok elems =>
    rw [quiet_ptr p envs pfx e xs elems hp hk hs] at h
    simp only [Outcome.onField, Option.some.injEq, Prod.mk.injEq, and_true] at h
    exact ⟨elems, rfl, h.symm⟩
  | panic =>
    rw [applyEnvOverridesToSlice_eq p envs pfx _ true (.ptrTo (.slice e xs)) e xs
      (by simp [checkDst, hp, dstValue, indirectWalk, sliceElem])
      (by simp [existingOf, isZeroValue, indirectWalk]), hs] at h
    simp [Outcome.onField] at h
  | fail e1 elems =>
    rw [applyEnvOverridesToSlice_eq p envs pfx _ true (.ptrTo (.slice e xs)) e xs
      (by simp [checkDst, hp, dstValue, indirectWalk, sliceElem])
      (by simp [existingOf, isZeroValue, indirectWalk]), hs] at h
    simp only [Dst.inPlace] at h
    split at h <;> simp [Outcome.onField, Dst.withValue] at h

theorem quiet_again (p : TimeParsers) (envs : List String) (pfx : String) (u x3 : Val)
    (hu : isSliceTyped u = true) (hk : keysOf pfx envs = [])
    (h : (applyEnvOverridesToSlice p envs pfx (.rvalue true u)).onField u = some (x3, none)) :
    isSliceTyped x3 = true
      ∧ (applyEnvOverridesToSlice p envs pfx (.rvalue true x3)).onField x3 = some (x3, none)
      ∧ ∀ d, setValue p u d = .ok u → ∃ y, setValue p x3 d = .ok y ∧ isSliceTyped y = true
          ∧ (applyEnvOverridesToSlice p envs pfx (.rvalue true y)).onField y
            = some (x3, none) := by
  have hp : (pfx == "") = false := by
    cases hq : pfx == "" with
    | false => rfl
    | true =>
      rw [quiet_without_pfx p envs pfx _ hq] at h
      simp [Outcome.onField] at h
  have same : x3 = u →
      isSliceTyped x3 = true
      ∧ (applyEnvOverridesToSlice p envs pfx (.rvalue true x3)).onField x3 = some (x3, none)
      ∧ ∀ d, setValue p u d = .ok u → ∃ y, setValue p x3 d = .ok y ∧ isSliceTyped y = true
          ∧ (applyEnvOverridesToSlice p envs pfx (.rvalue true y)).onField y
            = some (x3, none) := by
    intro hx
    subst hx
    exact ⟨hu, h, fun d hd => ⟨x3, hd, hu, h⟩⟩
  have hnil := fun e => quiet_nil p envs pfx e hp hk
  cases u with
  | nilSlice e =>
    rw [(hnil e).1] at h
    simp only [Outcome.onField, Option.some.injEq, Prod.mk.injEq, and_true] at h
    exact same h.symm
  | slice e xs =>
    obtain ⟨elems, hs, rfl⟩ := quiet_slice_cases p envs pfx e xs hp hk x3 h
    have hagain : (applyEnvOverridesToSlice p envs pfx (.rvalue true (.slice e elems))).onField
        (.slice e elems) = some (.slice e elems, none) := by
      rw [quiet_slice p envs pfx e elems elems hp hk (seedLoop_idem p xs elems hs).1]
      rfl
    refine ⟨rfl, hagain, ?_⟩
    intro d hd
    cases e with
    | String =>
      refine ⟨.slice .String xs, ?_, rfl, h⟩
      rw [← hd]
      simp [setValue, isTimeTyped, isTimeDurationTyped, isDurationTyped, setSlice]
    | _ =>
      refine ⟨_, ?_, ?_, hagain⟩
      · simp [setValue, isTimeTyped, isTimeDurationTyped, isDurationTyped, setSlice]
      · rfl
  | nilPtr e =>
    cases e with
    | Slice e2 =>
      rw [(hnil e2).2.1] at h
      simp only [Outcome.onField, Option.some.injEq, Prod.mk.injEq, and_true] at h
      exact same h.symm
    | _ => simp [isSliceTyped] at hu
  | ptrTo x =>
    cases x with
    | nilSlice e =>
      rw [(hnil e).2.2] at h
      simp only [Outcome.onField, Option.some.injEq, Prod.mk.injEq, and_true] at h
      exact same h.symm
    | slice e xs =>
      obtain ⟨elems, hs, rfl⟩ := quiet_ptr_cases p envs pfx e xs hp hk x3 h
      have hagain : (applyEnvOverridesToSlice p envs pfx
          (.rvalue true (.ptrTo (.slice e elems)))).onField
          (.ptrTo (.slice e elems)) = some (.ptrTo (.slice e elems), none) := by
        rw [quiet_ptr p envs pfx e elems elems hp hk (seedLoop_idem p xs elems hs).1]
        rfl
      refine ⟨rfl, hagain, ?_⟩
      intro d _
      refine ⟨_, ?_, ?_, hagain⟩
      · simp [setValue, isTimeTyped, isTimeDurationTyped, isDurationTyped]
      · rfl
    | _ => simp [isSliceTyped] at hu
  | _ => simp [isSliceTyped] at hu

theorem applyEnvValue_of_slice (p : TimeParsers) (env : Environment) (t : StructField)
    (u : Val) (pfx : String) (hu : isSliceTyped u = true)
    (ht : t.Lookup envPrefixTag = some pfx) :
    applyEnvValue p env t u
      = (applyEnvOverridesToSlice p env.environ pfx (.rvalue true u)).onField u := by
  have h1 : applyEnvValue p env t u =
      (match t.Lookup envPrefixTag with
       | none => some (applyEnvLeaf p env t u)
       | some pfx =>
         if isSliceTyped u then
           (applyEnvOverridesToSlice p env.environ pfx (.rvalue true u)).onField u
         else some (applyEnvLeaf p env t u)) := by
    cases u <;> first | (simp [isSliceTyped] at hu; done) | rfl
  rw [h1, ht]
  simp [hu]

theorem isWalked_of_slice (u : Val) (hu : isSliceTyped u = true) : isWalked u = false := by
  cases u <;> first | rfl | simp [isSliceTyped] at hu

theorem applyDefault_leaf_ok (p : TimeParsers) (t : StructField) (v x1 : Val)
    (hv : isWalked v = false) (h : applyDefault p t v = (x1, none)) :
    isWalked x1 = false ∧ isSliceTyped x1 = isSliceTyped v
      ∧ (∀ d, t.Lookup "default" = some d → setValue p x1 d = .ok x1) := by
  have hst := applyDefault_leaf_stable p t v x1 hv h
  rw [applyDefault_of_leaf p t v hv] at h
  cases hd : t.Lookup "default" with
  | none =>
    rw [hd] at h
    simp only [Prod.mk.injEq, and_true] at h
    subst h
    exact ⟨hv, rfl, fun d hc => by cases hc⟩
  | some value =>
    rw [hd] at h
    simp only at h
    cases hs : setValue p v value with
    | error e => rw [hs] at h; simp at h
    | ok u =>
      rw [hs] at h
      simp only [Prod.mk.injEq, and_true] at h
      subst h
      refine ⟨by rw [(setValue_keeps p v u value hs).2]; exact hv, hst.2, ?_⟩
      intro d hc
      cases hc
      rw [hst.1, hs]

theorem init_leaf_again (p : TimeParsers) (env : Environment) (t : StructField)
    (v x1 x3 : Val) (hv : isWalked v = false) (hq : silentOn env t = true)
    (hd : applyDefault p t v = (x1, none))
    (he : applyEnvValue p env t x1 = some (x3, none)) :
    ∃ y1, applyDefault p t x3 = (y1, none) ∧ applyEnvValue p env t y1 = some (x3, none) := by
  obtain ⟨hx1, _, hstable⟩ := applyDefault_leaf_ok p t v x1 hv hd
  simp only [silentOn, Bool.and_eq_true] at hq
  obtain ⟨hq1, hq2⟩ := hq
  have again : ∀ u, isWalked u = false →
      (∀ d, t.Lookup "default" = some d → setValue p u d = .ok u) →
      applyDefault p t u = (u, none) := by
    intro u hu hs
    rw [applyDefault_of_leaf p t u hu]
    cases hl : t.Lookup "default" with
    | none => rfl
    | some d => simp only [hs d hl]
  by_cases hs : t.Lookup envPrefixTag = none ∨ isSliceTyped x1 = false
  · have hleaf : applyEnvLeaf p env t x1 = (x1, none) := by
      unfold applyEnvLeaf
      cases hk : t.Lookup envConfigTag with
      | none => rfl
      | some key =>
        rw [hk] at hq1
        simp only [Option.isNone_iff_eq_none] at hq1
        simp only [hq1]
    rw [applyEnvValue_of_leaf p env t x1 hx1 hs, hleaf] at he
    simp only [Option.some.injEq, Prod.mk.injEq, and_true] at he
    subst he
    refine ⟨x1, again x1 hx1 hstable, ?_⟩
    rw [applyEnvValue_of_leaf p env t x1 hx1 hs, hleaf]
  · push_neg at hs
    obtain ⟨hpf, hsl⟩ := hs
    have hsl2 : isSliceTyped x1 = true := by
      cases h : isSliceTyped x1 with
      | true => rfl
      | false => exact absurd h hsl
    cases hpfx : t.Lookup envPrefixTag with
    | none => exact absurd hpfx hpf
    | some pfx =>
      rw [hpfx] at hq2
      simp only [List.isEmpty_iff] at hq2
      rw [applyEnvValue_of_slice p env t x1 pfx hsl2 hpfx] at he
      obtain ⟨h3, hagain, hset⟩ := quiet_again p env.environ pfx x1 x3 hsl2 hq2 he
      have hx3 := isWalked_of_slice x3 h3
      cases hl : t.Lookup "default" with
      | none =>
        refine ⟨x3, ?_, ?_⟩
        · rw [applyDefault_of_leaf p t x3 hx3, hl]
        · rw [applyEnvValue_of_slice p env t x3 pfx h3 hpfx]
          exact hagain
      | some d =>
        obtain ⟨y, hy1, hy2, hy3⟩ := hset d (hstable d hl)
        refine ⟨y, ?_, ?_⟩
        · rw [applyDefault_of_leaf p t x3 hx3, hl]
          simp only [hy1]
        · rw [applyEnvValue_of_slice p env t y pfx hy2 hpfx]
          exact hy3

mutual
theorem init_again (p : TimeParsers) (env : Environment) (t : StructField) :
    (v : Val) → ∀ x1 x3, (∀ l ∈ leaves t v, silentOn env l.1 = true) →
      applyDefault p t v = (x1, none) → applyEnvValue p env t x1 = some (x3, none) →
      ∃ y1, applyDefault p t x3 = (y1, none) ∧ applyEnvValue p env t y1 = some (x3, none)
  | .struct fs => by
    intro x1 x3 hq hd he
    simp only [applyDefault, Prod.mk.injEq] at hd
    obtain ⟨hd1, hd2⟩ := hd
    subst hd1
    simp only [applyEnvValue] at he
    cases hf : applyEnvFields p env (applyDefaultFields p fs).1 with
    | none => rw [hf] at he; simp at he
    | some r =>
      rw [hf] at he
      simp only [Option.some.injEq, Prod.mk.injEq] at he
      obtain ⟨he1, he2⟩ := he
      subst he1
      obtain ⟨gs1, hg1, hg2⟩ := initFields_again p env fs (applyDefaultFields p fs).1 r.1
        (by simpa [leaves] using hq) (Prod.ext rfl hd2)
        (by rw [hf]; exact congrArg some (Prod.ext rfl he2))
      refine ⟨.struct gs1, ?_, ?_⟩
      · simp only [applyDefault, hg1]
      · simp only [applyEnvValue, hg2]
  | .str s => fun x1 x3 hq hd he =>
      init_leaf_again p env t (.str s) x1 x3 rfl (hq (t, .str s) (by simp [leaves])) hd he
  | .bool s => fun x1 x3 hq hd he =>
      init_leaf_again p env t (.bool s) x1 x3 rfl (hq (t, .bool s) (by simp [leaves])) hd he
  | .int k s => fun x1 x3 hq hd he =>
      init_leaf_again p env t (.int k s) x1 x3 rfl (hq (t, .int k s) (by simp [leaves])) hd he
  | .uint k s => fun x1 x3 hq hd he =>
      init_leaf_again p env t (.uint k s) x1 x3 rfl (hq (t, .uint k s) (by simp [leaves])) hd he
  | .time s => fun x1 x3 hq hd he =>
      init_leaf_again p env t (.time s) x1 x3 rfl (hq (t, .time s) (by simp [leaves])) hd he
  | .timeDuration s => fun x1 x3 hq hd he =>
      init_leaf_again p env t (.timeDuration s) x1 x3 rfl (hq (t, .timeDuration s) (by simp [leaves])) hd he
  | .duration s => fun x1 x3 hq hd he =>
      init_leaf_again p env t (.duration s) x1 x3 rfl (hq (t, .duration s) (by simp [leaves])) hd he
  | .nilSlice s => fun x1 x3 hq hd he =>
      init_leaf_again p env t (.nilSlice s) x1 x3 rfl (hq (t, .nilSlice s) (by simp [leaves])) hd he
  | .slice e s => fun x1 x3 hq hd he =>
      init_leaf_again p env t (.slice e s) x1 x3 rfl (hq (t, .slice e s) (by simp [leaves])) hd he
  | .nilPtr s => fun x1 x3 hq hd he =>
      init_leaf_again p env t (.nilPtr s) x1 x3 rfl (hq (t, .nilPtr s) (by simp [leaves])) hd he
  | .ptrTo s => fun x1 x3 hq hd he =>
      init_leaf_again p env t (.ptrTo s) x1 x3 rfl (hq (t, .ptrTo s) (by simp [leaves])) hd he
  | .nilMap => fun x1 x3 hq hd he =>
      init_leaf_again p env t (.nilMap) x1 x3 rfl (hq (t, .nilMap) (by simp [leaves])) hd he
  | .mapOf s => fun x1 x3 hq hd he =>
      init_leaf_again p env t (.mapOf s) x1 x3 rfl (hq (t, .mapOf s) (by simp [leaves])) hd he
theorem initFields_again (p : TimeParsers) (env : Environment) :
    (fs : List (StructField × Val)) → ∀ fs1 fs3,
      (∀ l ∈ leavesOfFields fs, silentOn env l.1 = true) →
      applyDefaultFields p fs = (fs1, none) → applyEnvFields p env fs1 = some (fs3, none) →
      ∃ gs1, applyDefaultFields p fs3 = (gs1, none)
        ∧ applyEnvFields p env gs1 = some (fs3, none)
  | [] => by
    intro fs1 fs3 _ hd he
    simp only [applyDefaultFields, Prod.mk.injEq, and_true] at hd
    subst hd
    simp only [applyEnvFields, Option.some.injEq, Prod.mk.injEq, and_true] at he
    subst he
    exact ⟨[], rfl, rfl⟩
  | (f, v) :: rest => by
    intro fs1 fs3 hq hd he
    simp only [applyDefaultFields] at hd
    cases hdv : applyDefault p f v with
    | mk w1 r1 =>
      rw [hdv] at hd
      cases r1 with
      | some e => simp at hd
      | none =>
        simp only [Prod.mk.injEq] at hd
        obtain ⟨hd1, hd2⟩ := hd
        subst hd1
        simp only [applyEnvFields] at he
        cases hev : applyEnvValue p env f w1 with
        | none => rw [hev] at he; simp at he
        | some q =>
          obtain ⟨w3, r3⟩ := q
          rw [hev] at he
          cases r3 with
          | some e => simp at he
          | none =>
            simp only at he
            cases her : applyEnvFields p env (applyDefaultFields p rest).1 with
            | none => rw [her] at he; simp at he
            | some q2 =>
              rw [her] at he
              simp only [Option.some.injEq, Prod.mk.injEq] at he
              obtain ⟨he1, he2⟩ := he
              subst he1
              obtain ⟨y1, hy1, hy2⟩ := init_again p env f v w1 w3
                (fun l hl => hq l (by simp [leavesOfFields, hl])) hdv hev
              obtain ⟨gs, hg1, hg2⟩ := initFields_again p env rest
                (applyDefaultFields p rest).1 q2.1
                (fun l hl => hq l (by simp [leavesOfFields, hl])) (Prod.ext rfl hd2)
                (by rw [her]; exact congrArg some (Prod.ext rfl he2))
              refine ⟨(f, y1) :: gs, ?_, ?_⟩
              · simp only [applyDefaultFields, hy1, hg1]
              · simp only [applyEnvFields, hy2, hg2]
end

theorem isStructKind_passes (p : TimeParsers) (env : Environment) (v x1 x3 : Val)
    (hk : isStructKind v = true) (hd : applyDefault p noField v = (x1, none))
    (he : applyEnvValue p env noField x1 = some (x3, none)) :
    isStructKind x1 = true ∧ isStructKind x3 = true := by
  cases v with
  | struct fs =>
    simp only [applyDefault, Prod.mk.injEq] at hd
    obtain ⟨hd1, _⟩ := hd
    subst hd1
    simp only [applyEnvValue] at he
    cases hf : applyEnvFields p env (applyDefaultFields p fs).1 with
    | none => rw [hf] at he; simp at he
    | some r =>
      rw [hf] at he
      simp only [Option.some.injEq, Prod.mk.injEq] at he
      rw [← he.1]
      exact ⟨rfl, rfl⟩
  | time t =>
    have h1 : applyDefault p noField (.time t) = (.time t, none) := rfl
    rw [h1] at hd
    simp only [Prod.mk.injEq, and_true] at hd
    subst hd
    have h2 : applyEnvValue p env noField (.time t) = some (.time t, none) := rfl
    rw [h2] at he
    simp only [Option.some.injEq, Prod.mk.injEq, and_true] at he
    subst he
    exact ⟨rfl, rfl⟩
  | _ => simp [isStructKind] at hk

/-- C22: when `Init`, called without a file on a pointer to a configuration, returns
no error, and the environment is silent about every leaf of the configuration (the
variable named by its envconfig annotation is not set and no entry matches the key
pattern of its envprefix annotation), then `Init` called again on the result under
the same conditions returns no error and leaves the very same structure. -/
theorem C22_second_run_changes_nothing (p : TimeParsers) (env : Environment)
    (load : JSONLoader) (cfg out : Val)
    (hq : ∀ l ∈ leaves noField cfg, silentOn env l.1 = true)
    (h : Init p env load (some (.ptrTo cfg)) "" = .returned (some (.ptrTo out)) none) :
    Init p env load (some (.ptrTo out)) "" = .returned (some (.ptrTo out)) none := by
  obtain ⟨x1, hd, he, hval⟩ := Init_returns p env load cfg out h
  have hk : isStructKind cfg = true := by
    cases hc : isStructKind cfg with
    | true => rfl
    | false => simp [Init, hc] at h
  obtain ⟨hk1, hk3⟩ := isStructKind_passes p env cfg x1 out hk hd he
  obtain ⟨y1, hy1, hy2⟩ := init_again p env noField cfg x1 out hq hd he
  have hky := (isStructKind_passes p env out y1 out hk3 hy1 hy2).1
  simp only [Init, hk3, if_true, hy1, applyJSONConfig, String.length_empty,
    applyEnv_eq p env y1 hky, hy2, hval]

theorem C22_witness :
    (∀ l ∈ leaves noField (configuration (.slice payloadTy [payload "" "" 0])),
        silentOn (envOf [("HOME", "/root")]) l.1 = true)
      ∧ Init sampleParsers (envOf [("HOME", "/root")]) noFile
          (some (.ptrTo (configuration (.slice payloadTy [payload "" "" 0])))) ""
        = .returned (some (.ptrTo (configuration (.slice payloadTy [payload "0.0.0.0" "" 0]))))
          none
      ∧ Init sampleParsers (envOf [("HOME", "/root")]) noFile
          (some (.ptrTo (configuration (.slice payloadTy [payload "0.0.0.0" "" 0])))) ""
        = .returned (some (.ptrTo (configuration (.slice payloadTy [payload "0.0.0.0" "" 0]))))
          none :=
  ⟨by decide, rfl,
    C22_second_run_changes_nothing sampleParsers (envOf [("HOME", "/root")]) noFile
      (configuration (.slice payloadTy [payload "" "" 0]))
      (configuration (.slice payloadTy [payload "0.0.0.0" "" 0])) (by decide) rfl⟩

/-! ### The order of the snapshot -/

theorem setValue_leaf (p : TimeParsers) (v : Val) (s : String) (w : Val)
    (hc : coerceLeaf p v s = some w) :
    setValue p v s = .ok w ∧ isWalked v = false := by
  have scalar : ∀ u, coerceScalar p u s = some w → setValue p u s = .ok w ∧ isWalked u = false := by
    intro u hu
    refine ⟨(setValue_scalar p u s w hu).1, ?_⟩
    cases u <;> first | rfl | simp [coerceScalar] at hu
  cases v with
  | nilSlice e =>
    cases e with
    | String => exact ⟨setValue_listed p _ s w rfl hc, rfl⟩
    | _ => exact scalar _ hc
  | slice e xs =>
    cases e with
    | String => exact ⟨setValue_listed p _ s w rfl hc, rfl⟩
    | _ => exact scalar _ hc
  | _ => exact scalar _ hc

/-- C1 (amended): for a prefix that is literal text, on a nil slice of a struct type,
when the keys the pattern search finds mention exactly the indices 0..n-1 (n at
least 1), every token names a field and no value and no default is refused, the
call returns a slice of length n.  In element i a field named by a key holds the
coercion, as the specification words it, of the value of the last such key; any
other field is zero when it carries no default annotation and, unless it is a
timestamp, holds the coercion of its default when it carries one.  Fields of a
type the specification's coercion does not list are left out. -/
theorem C1_nil_slice_filled_field_by_field (p : TimeParsers) (envs : List String) (pfx : String)
    (tys : List (StructField × Ty)) (n : Nat)
    (hlit : regexLiteral pfx = true)
    (hpfx : pfx ≠ "")
    (hn : 1 ≤ n)
    (hidx : ∀ i, (∃ k ∈ keysOf pfx envs, keyIndex k = i) ↔ i < n)
    (hdefaults : (applyDefaultToEmpty p noField (zeroVal (.Struct tys))).2 = none)
    (hkeys : ∀ k ∈ keysOf pfx envs, keyIndex k < 2 ^ 63 ∧
      ∃ j f t w, targetOf (tys.map Prod.fst) k.2.1 = some j ∧ tys.get? j = some (f, t)
        ∧ setValue p (zeroVal t) k.2.2 = .ok w) :
    ∃ elems, applyEnvOverridesToSlice p envs pfx (.rvalue true (.nilSlice (.Struct tys)))
        = .done (.rvalue true (.slice (.Struct tys) elems))
      ∧ elems.length = n
      ∧ ∀ i, i < n → ∃ fs, elems.get? i = some (.struct fs) ∧
          ∀ j f t, tys.get? j = some (f, t) → ∃ v, fs.get? j = some (f, v) ∧
            (∀ lit, lastLiteral (tys.map Prod.fst) (keysOf pfx envs) i j = some lit →
              ∀ w, coerceLeaf p (zeroVal t) lit = some w → v = w)
            ∧ (lastLiteral (tys.map Prod.fst) (keysOf pfx envs) i j = none →
              match f.Lookup "default" with
              | none => (∀ us, t ≠ .Struct us) → v = zeroVal t
              | some d => t ≠ .Time → ∀ w, coerceLeaf p (zeroVal t) d = some w → v = w) := by
  have _ := hlit
  obtain ⟨elems, hrun, hlen, hel⟩ :=
    nil_slice_run_field_by_field p envs pfx tys n hpfx hn hidx hdefaults hkeys
  refine ⟨elems, hrun, hlen, ?_⟩
  intro i hi
  obtain ⟨fs, hfs, hfields⟩ := hel i hi
  refine ⟨fs, hfs, ?_⟩
  intro j f t hj
  obtain ⟨v, hv, hkey, hdef⟩ := hfields j f t hj
  have hleaf : ∀ s w, coerceLeaf p (zeroVal t) s = some w → ∀ us, t ≠ .Struct us := by
    intro s w hc us ht
    subst ht
    have := (setValue_leaf p _ s w hc).2
    simp [zeroVal, isWalked] at this
  refine ⟨v, hv, ?_, ?_⟩
  · intro lit hl w hc
    have h1 := hkey lit hl (hleaf lit w hc)
    rw [(setValue_leaf p _ lit w hc).1] at h1
    exact (Except.ok.inj h1).symm
  · intro hnone
    cases hd : f.Lookup "default" with
    | none =>
      intro hns
      have h2 := hdef hnone hns
      rw [hd] at h2
      exact h2
    | some d =>
      intro ht w hc
      have h2 := hdef hnone (hleaf d w hc)
      rw [hd] at h2
      have h3 := h2 ht
      rw [(setValue_leaf p _ d w hc).1] at h3
      exact (Except.ok.inj h3).symm

/-- Witness of C1: the premises hold at the test "fill with env values" (prefix APP,
APP_0_ADDR=localhost, APP_0_TIMEOUT=1m, APP_1_TIMEOUT=2m), which gives two elements. -/
theorem C1_witness :
    ∃ elems, applyEnvOverridesToSlice sampleParsers
        ["APP_0_ADDR=localhost", "APP_0_TIMEOUT=1m", "APP_1_TIMEOUT=2m"] "APP"
        (.rvalue true (.nilSlice payloadTy)) = .done (.rvalue true (.slice payloadTy elems))
      ∧ elems.length = 2 := by
  have hk : keysOf "APP" ["APP_0_ADDR=localhost", "APP_0_TIMEOUT=1m", "APP_1_TIMEOUT=2m"]
      = [("0", "ADDR", "localhost"), ("0", "TIMEOUT", "1m"), ("1", "TIMEOUT", "2m")] := rfl
  obtain ⟨elems, h1, h2, _⟩ := C1_nil_slice_filled_field_by_field sampleParsers
    ["APP_0_ADDR=localhost", "APP_0_TIMEOUT=1m", "APP_1_TIMEOUT=2m"] "APP"
    [(addrField, .String), (addrRenamedField, .String), (timeoutField, .TimeDuration)] 2
    (by decide) (by decide) (by decide)
    (by
      intro i
      rw [hk]
      constructor
      · rintro ⟨k, hk2, rfl⟩
        simp only [List.mem_cons, List.mem_singleton, List.not_mem_nil, or_false] at hk2
        rcases hk2 with rfl | rfl | rfl <;> decide
      · intro hi
        interval_cases i
        · exact ⟨("0", "ADDR", "localhost"), by simp, by decide⟩
        · exact ⟨("1", "TIMEOUT", "2m"), by simp, by decide⟩)
    rfl
    (by
      rw [hk]
      intro k hk2
      simp only [List.mem_cons, List.mem_singleton, List.not_mem_nil, or_false] at hk2
      rcases hk2 with rfl | rfl | rfl
      · exact ⟨by decide, 0, addrField, .String, .str "localhost", rfl, rfl, rfl⟩
      · exact ⟨by decide, 2, timeoutField, .TimeDuration, .timeDuration 60000000000, rfl, rfl, rfl⟩
      · exact ⟨by decide, 2, timeoutField, .TimeDuration, .timeDuration 120000000000, rfl, rfl,
          rfl⟩)
  exact ⟨elems, h1, h2⟩

/-- C2 (amended): for a prefix that is literal text, on an existing slice of structs,
when every key the pattern search finds mentions an index below its length, every
token names a field and no value and no default is refused, the call returns a slice
of the same length.  In element i a field named by a key holds the coercion, as
the specification words it, of the value of the last such key; any other field
keeps its value when that is non-empty or when it carries no default annotation
and, unless it is a timestamp, holds the coercion of its default when it is empty
and carries one.  Fields of a type the specification's coercion does not list are
left out. -/
theorem C2_existing_slice_merged_field_by_field (p : TimeParsers) (envs : List String)
    (pfx : String) (e : Ty) (xs : List Val)
    (hlit : regexLiteral pfx = true)
    (hpfx : pfx ≠ "")
    (hstruct : ∀ x ∈ xs, ∃ fs, x = .struct fs)
    (hdefaults : ∀ x ∈ xs, (applyDefaultToEmpty p noField x).2 = none)
    (hkeys : ∀ k ∈ keysOf pfx envs, keyIndex k < 2 ^ 63 ∧
      ∃ fs j f x w, xs.get? (keyIndex k) = some (.struct fs)
        ∧ targetOf (fs.map Prod.fst) k.2.1 = some j ∧ fs.get? j = some (f, x)
        ∧ setValue p x k.2.2 = .ok w) :
    ∃ elems, applyEnvOverridesToSlice p envs pfx (.rvalue true (.slice e xs))
        = .done (.rvalue true (.slice e elems))
      ∧ elems.length = xs.length
      ∧ ∀ i fs0, xs.get? i = some (.struct fs0) → ∃ fs, elems.get? i = some (.struct fs) ∧
          ∀ j f x, fs0.get? j = some (f, x) → ∃ v, fs.get? j = some (f, v) ∧
            (∀ lit, lastLiteral (fs0.map Prod.fst) (keysOf pfx envs) i j = some lit →
              ∀ w, coerceLeaf p x lit = some w → v = w)
            ∧ (lastLiteral (fs0.map Prod.fst) (keysOf pfx envs) i j = none →
              if isEmpty x = true then
                (match f.Lookup "default" with
                  | none => (∀ gs, x ≠ .struct gs) → v = x
                  | some d => (∀ t, x ≠ .time t) → ∀ w, coerceLeaf p x d = some w → v = w)
              else (∀ gs, x ≠ .struct gs) → v = x) := by
  have _ := hlit
  obtain ⟨elems, hrun, hlen, hel⟩ :=
    existing_slice_run_field_by_field p envs pfx e xs hpfx hstruct hdefaults hkeys
  refine ⟨elems, hrun, hlen, ?_⟩
  intro i fs0 hi
  obtain ⟨fs, hfs, hfields⟩ := hel i fs0 hi
  refine ⟨fs, hfs, ?_⟩
  intro j f x hj
  obtain ⟨v, hv, hkey, hdef⟩ := hfields j f x hj
  have hleaf : ∀ s w, coerceLeaf p x s = some w → ∀ gs, x ≠ .struct gs := by
    intro s w hc gs hx
    subst hx
    have := (setValue_leaf p _ s w hc).2
    simp [isWalked] at this
  refine ⟨v, hv, ?_, ?_⟩
  · intro lit hl w hc
    have h1 := hkey lit hl (hleaf lit w hc)
    rw [(setValue_leaf p _ lit w hc).1] at h1
    exact (Except.ok.inj h1).symm
  · intro hnone
    by_cases he : isEmpty x = true
    · rw [if_pos he]
      cases hd : f.Lookup "default" with
      | none =>
        intro hns
        have h2 := hdef hnone hns
        rw [if_pos he, hd] at h2
        exact h2
      | some d =>
        intro ht w hc
        have h2 := hdef hnone (hleaf d w hc)
        rw [if_pos he, hd] at h2
        have h3 := h2 ht
        rw [(setValue_leaf p _ d w hc).1] at h3
        exact (Except.ok.inj h3).symm
    · rw [if_neg he]
      intro hns
      have h2 := hdef hnone hns
      rw [if_neg he] at h2
      exact h2

/-- Witness of C2: the premises hold at the test "merge with env values", an existing
slice of three elements with keys for the indices 0 and 1. -/
theorem C2_witness :
    ∃ elems, applyEnvOverridesToSlice sampleParsers
        ["APP_0_ADDR=localhost", "APP_0_TIMEOUT=1m", "APP_1_TIMEOUT=2m"] "APP"
        (.rvalue true (.slice payloadTy
          [payload "" "" (10 * minute), payload "" "" (20 * minute), payload "" "" (30 * minute)]))
        = .done (.rvalue true (.slice payloadTy elems))
      ∧ elems.length = 3 := by
  have hk : keysOf "APP" ["APP_0_ADDR=localhost", "APP_0_TIMEOUT=1m", "APP_1_TIMEOUT=2m"]
      = [("0", "ADDR", "localhost"), ("0", "TIMEOUT", "1m"), ("1", "TIMEOUT", "2m")] := rfl
  obtain ⟨elems, h1, h2, _⟩ := C2_existing_slice_merged_field_by_field sampleParsers
    ["APP_0_ADDR=localhost", "APP_0_TIMEOUT=1m", "APP_1_TIMEOUT=2m"] "APP" payloadTy
    [payload "" "" (10 * minute), payload "" "" (20 * minute), payload "" "" (30 * minute)]
    (by decide) (by decide)
    (by
      intro x hx
      simp only [List.mem_cons, List.mem_singleton, List.not_mem_nil, or_false] at hx
      rcases hx with rfl | rfl | rfl <;> exact ⟨_, rfl⟩)
    (by
      intro x hx
      simp only [List.mem_cons, List.mem_singleton, List.not_mem_nil, or_false] at hx
      rcases hx with rfl | rfl | rfl <;> rfl)
    (by
      rw [hk]
      intro k hk2
      simp only [List.mem_cons, List.mem_singleton, List.not_mem_nil, or_false] at hk2
      rcases hk2 with rfl | rfl | rfl
      · exact ⟨by decide, _, 0, addrField, .str "", .str "localhost", rfl, rfl, rfl, rfl⟩
      · exact ⟨by decide, _, 2, timeoutField, .timeDuration (10 * minute),
          .timeDuration 60000000000, rfl, rfl, rfl, rfl⟩
      · exact ⟨by decide, _, 2, timeoutField, .timeDuration (20 * minute),
          .timeDuration 120000000000, rfl, rfl, rfl, rfl⟩)
  exact ⟨elems, h1, h2⟩

/-- C4 (the code at a failing input): the destination is a nil slice, or a nil pointer
to a slice, and the one entry of the environment, APPLE=APP_0_ADDR=evil, is not of
the key shape APP_<digits>_<token>=<value>: the pattern does not match at its
start.  Yet the call does not leave the destination as it was: the search finds the
pattern further on in the entry, and a slice of one element is assigned. -/
theorem C4_entry_of_another_shape_fills_nil_destination :
    matchHere "APP".data "APPLE=APP_0_ADDR=evil".data = none
      ∧ existingOf (.nilSlice payloadTy) = some []
      ∧ existingOf (.nilPtr (.Slice payloadTy)) = some []
      ∧ applyEnvOverridesToSlice sampleParsers ["APPLE=APP_0_ADDR=evil"] "APP"
          (.rvalue true (.nilSlice payloadTy))
        = .done (.rvalue true (.slice payloadTy [payload "evil" "" 0]))
      ∧ applyEnvOverridesToSlice sampleParsers ["APPLE=APP_0_ADDR=evil"] "APP"
          (.rvalue true (.nilPtr (.Slice payloadTy)))
        = .done (.rvalue true (.ptrTo (.slice payloadTy [payload "evil" "" 0])))
      ∧ Val.slice payloadTy [payload "evil" "" 0] ≠ Val.nilSlice payloadTy
      ∧ Val.ptrTo (.slice payloadTy [payload "evil" "" 0]) ≠ Val.nilPtr (.Slice payloadTy) := by
  refine ⟨rfl, rfl, rfl, rfl, rfl, ?_, ?_⟩
  · intro h; cases h
  · intro h; cases h

end GoConfig
